import Mathlib

/-!
# timely_recipe: the cooking and recipe-resolution engine of `src/main_scene.js`

A shallow embedding of the state handled by `GameManager` (stage ingredients, the
per-tool content ledger, the cooking timers, the recipe matcher and the outcome
resolver) together with theorems about it.

Conventions of the embedding.

* JS objects used as maps (`toolContents`, `toolIngredients`, `wildcardMap`,
  `recipe.input`, ...) are association lists in insertion order; a key is looked up by
  its first entry and `objKeys` lists every key once.  Keys are assumed to be ordinary
  property names: not array indices such as `"1"` (which JS enumerates first) and not
  names inherited from `Object.prototype`.
* JSON numbers of the catalog and of the stage (sizes, capacities, heating and fire
  constants, nutrition values, quantities, recipe counts) are integers.
* Writes to the DOM are left out; `alert` calls and the completion modal are recorded
  in the state so that a rejection stays observable.
* A `TypeError` raised by a handler is an `Except.error`; the state the event loop
  continues with is the one before the handler ran (every throw modelled here precedes
  the first mutation of its handler).
-/

namespace TimelyRecipe

/-! ## JavaScript values -/

/-- A JS object used as a string-keyed map, own properties in insertion order. -/
abbrev JsObj (α : Type) := List (String × α)

/-- Property read `o[k]`; `none` stands for `undefined`. -/
def objGet {α : Type} : JsObj α → String → Option α
  | [], _ => none
  | (k', v) :: rest, k => if k' = k then some v else objGet rest k

/-- Property write `o[k] = v`: an existing key keeps its position, a new key is appended. -/
def objSet {α : Type} : JsObj α → String → α → JsObj α
  | [], k, v => [(k, v)]
  | (k', v') :: rest, k, v => if k' = k then (k, v) :: rest else (k', v') :: objSet rest k v

/-- The statement `delete o[k]`. -/
def objDelete {α : Type} (o : JsObj α) (k : String) : JsObj α :=
  o.filter (fun p => !decide (p.1 = k))

/-- The call `Object.keys(o)`: every key once, in order of first appearance. -/
def objKeys {α : Type} : JsObj α → List String
  | [] => []
  | (k, _) :: rest => k :: (objKeys rest).filter (fun k' => !decide (k' = k))

/-- The call `Object.values(o)`, in the order of `objKeys`. -/
def objValues {α : Type} (o : JsObj α) : List α :=
  (objKeys o).filterMap (objGet o)

/-- The method `String.prototype.includes` on the characters of the two strings. -/
def includesChars (pat : List Char) : List Char → Bool
  | [] => pat.isEmpty
  | c :: cs => pat.isPrefixOf (c :: cs) || includesChars pat cs

/-- The call `s.includes(pat)`. -/
def jsIncludes (s pat : String) : Bool := includesChars pat.data s.data

/-- The call `name.startsWith('{')`; the brace is character 123. -/
def startsWithBrace (name : String) : Bool :=
  match name.data with
  | [] => false
  | c :: _ => decide (c = Char.ofNat 123)

/-- First-occurrence replacement on characters, as `String.prototype.replace` does for
a string pattern. -/
def replaceFirstChars (pat rep : List Char) : List Char → List Char
  | [] => if pat.isEmpty then rep else []
  | c :: cs =>
    if pat.isPrefixOf (c :: cs) then rep ++ (c :: cs).drop pat.length
    else c :: replaceFirstChars pat rep cs

/-- The call `s.replace(pat, rep)` for a string pattern `pat`; `rep` is taken literally
(it is assumed to hold no `$` replacement pattern). -/
def jsReplace (s pat rep : String) : String :=
  ⟨replaceFirstChars pat.data rep.data s.data⟩

/-- The spread `[...new Set(xs)]`: duplicates removed, first occurrences kept in order. -/
def setSpread : List String → List String
  | [] => []
  | x :: xs => x :: (setSpread xs).filter (fun y => !decide (y = x))

/-- A JS number produced by the cooking-time arithmetic: an integer, an infinity or NaN. -/
inductive JsNum where
  | fin (n : Int)
  | posInf
  | negInf
  | nan
deriving DecidableEq, Repr

/-- The expression `Math.round(a / b)` for integers `a` and `b`: the quotient rounded to
the nearest integer, a tie going up, and the IEEE results of a division by zero. -/
def mathRoundDiv (a b : Int) : JsNum :=
  if b = 0 then
    if 0 < a then .posInf else if a < 0 then .negInf else .nan
  else if 0 < b then .fin ((2 * a + b) / (2 * b))
  else .fin ((2 * (-a) + (-b)) / (2 * (-b)))

/-- The field `quantity` of a stage ingredient: a number, a string such as `"适量"`, or
absent. -/
inductive Quantity where
  | num (n : Int)
  | str (s : String)
  | undefined
deriving DecidableEq, Repr

/-- The expression `(q || 0) + k` for a number `k`: numeric addition, or string
concatenation when `q` is a non-empty string. -/
def Quantity.orZeroPlus (q : Quantity) (k : Int) : Quantity :=
  match q with
  | .num n => .num (n + k)
  | .str s => if s = "" then .num k else .str (s ++ toString k)
  | .undefined => .num k

/-- The test `s > 0` for a string `s`, which JS decides on `Number(s)`.  Only plain
unsigned decimal integers are recognised; every other string counts as `NaN`. -/
def stringPositive (s : String) : Bool :=
  !s.data.isEmpty && s.data.all Char.isDigit && s.data.any (fun c => !decide (c = Char.ofNat 48))

/-- The comparison `quantity > 0`. -/
def Quantity.isPositive : Quantity → Bool
  | .num n => decide (0 < n)
  | .str s => stringPositive s
  | .undefined => false

/-! ## Catalog and stage data -/

/-- An entry of `allItemsData.ingredients` or `allItemsData.spice`. -/
structure IngredientData where
  name : String
  size : Int := 100
  heating : Int := 30
  nutrition : Option Int := none
deriving DecidableEq, Repr

/-- An entry of `allItemsData.tools`. -/
structure ToolData where
  name : String
  capacity : Int := 1000
  fire : Int := 1
deriving DecidableEq, Repr

/-- The object `allItemsData` read from `all_items.json`. -/
structure AllItemsData where
  ingredients : List IngredientData := []
  tools : List ToolData := []
  spice : List IngredientData := []
deriving DecidableEq, Repr

/-- An entry of `recipe.json`. -/
structure Recipe where
  name : String
  input : JsObj Int
  tool : List String
  output : JsObj Int
  abstract : Bool := false
deriving DecidableEq, Repr

/-- An entry of `currentStage.ingredients`. -/
structure StageIngredient where
  name : String
  quantity : Quantity
deriving DecidableEq, Repr

/-- The field `currentStage.reward`: a plain number or an object with `coins` and
`recipeBook`. -/
inductive Reward where
  | flat (coins : Int)
  | structured (coins : Option Int) (recipeBook : Option (List String))
deriving DecidableEq, Repr

/-! ## Mutable session state -/

/-- An element of `toolContents[tool].items`. -/
structure Item where
  name : String
  size : Int
deriving DecidableEq, Repr

/-- The ledger entry `toolContents[tool]`. -/
structure ToolContent where
  items : List Item := []
  usedCapacity : Int := 0
  maxCapacity : Int := 1000
deriving DecidableEq, Repr

/-- The record `cookingProgress[tool]`. -/
structure CookingProgress where
  totalTime : JsNum
  remainingTime : JsNum
  isCooking : Bool
deriving DecidableEq, Repr

/-- The number `state.progress`: `nan`, or the exact fraction `num / den` with `den > 0`. -/
inductive Progress where
  | nan
  | frac (num den : Nat)
deriving DecidableEq, Repr

/-- The messages passed to `alert`. -/
inductive Alert where
  | capacityExceeded
  | insufficientQuantity
  | recipeSuccess (displayName : String)
  | cookedReturned
  | rawReturned
  | burnedReturned
deriving DecidableEq, Repr

/-- The exception a handler can raise here: reading a property of `undefined`. -/
inductive JsError where
  | typeError
deriving DecidableEq, Repr

/-- The state reachable from `GameManager`: the stage, the catalogs, the tool ledger, the
cooking timers, the keys of `localStorage` and the recorded user-facing effects. -/
structure GameState where
  /-- Field `currentStage.ingredients`. -/
  ingredients : List StageIngredient := []
  /-- Field `currentStage.tools`. -/
  tools : List String := []
  /-- Field `currentStage.targets`, `none` when the stage defines none. -/
  targets : Option (List String) := none
  /-- Field `currentStage.reward`. -/
  reward : Option Reward := none
  allItemsData : AllItemsData := {}
  /-- Field `state.recipes`, `none` for the initial `null`. -/
  recipes : Option (List Recipe) := none
  toolContents : JsObj ToolContent := []
  progress : Progress := .frac 0 1
  /-- Object `cookingTimers`: tool name to the handle `setInterval` returned. -/
  cookingTimers : JsObj Nat := []
  cookingProgress : JsObj CookingProgress := []
  /-- Live `setInterval` registrations: the handle and the tool whose
  `updateToolCooking` the callback runs. -/
  intervals : List (Nat × String) := []
  /-- Handle the next `setInterval` call returns. -/
  nextTimerId : Nat := 1
  /-- Key `health` of `localStorage`, `none` when the key is not set. -/
  health : Option Int := none
  /-- Key `savings` of `localStorage`. -/
  savings : Option Int := none
  /-- Key `recipes` of `localStorage`. -/
  unlockedRecipes : Option (List String) := none
  /-- Every `alert` raised so far, oldest first. -/
  alerts : List Alert := []
  /-- Number of completion modals appended to the page. -/
  completionModals : Nat := 0
  /-- Field `state.timeLeft`: the seconds left on the stage clock. -/
  timeLeft : Int := 0
  /-- Field `timer` of `GameManager`: the handle of the stage clock, `none` for the
  initial `null`. -/
  timer : Option Nat := none
  /-- Whether the interval behind `timer` is registered and not yet cleared. -/
  timerLive : Bool := false
deriving DecidableEq, Repr

/-! ## Progress and completion -/

/-- The expression `Math.round(progress)`; `none` is `NaN`. -/
def Progress.round : Progress → Option Int
  | .nan => none
  | .frac n d => some ((2 * (n : Int) + d) / (2 * d))

/-- The test `progress >= 100`. -/
def Progress.atLeast100 : Progress → Bool
  | .nan => false
  | .frac n d => decide (100 * d ≤ n)

/-- The expression `Math.min((completed / total) * 100, 100)`. -/
def progressOf (completed total : Nat) : Progress :=
  if total = 0 then .nan
  else if total ≤ completed then .frac 100 1
  else .frac (100 * completed) total

/-- The coins granted by `showCompletionModal` for a rounded progress `p` (`none` is
`NaN`).  For an integer `p` the products `p * 0.4` and `p * 0.2` are floored exactly as
`2p / 5` and `p / 5`. -/
def rewardFor (reward : Option Reward) (p : Option Int) : Int :=
  match p with
  | none => 0
  | some p =>
    if 100 ≤ p then
      match reward with
      | some (.flat n) => if n = 0 then 50 else n
      | some (.structured coins _) =>
        match coins with
        | some c => if c = 0 then 50 else c
        | none => 50
      | none => 50
    else if 80 ≤ p then (2 * p) / 5
    else if 50 ≤ p then p / 5
    else 0

/-- The field `currentStage.reward.recipeBook` when the reward is truthy and the field
is present. -/
def recipeBookOf : Option Reward → Option (List String)
  | some (.structured _ book) => book
  | _ => none

/-- Method `showCompletionModal`: adds the reward to the stored savings, merges the
unlocked recipes at 50% and above, and appends one modal to the page. -/
def showCompletionModal (s : GameState) : GameState :=
  let progress := s.progress.round
  let reward := rewardFor s.reward progress
  let currentSavings : Int := s.savings.getD 0
  let s1 := { s with savings := some (currentSavings + reward) }
  let s2 :=
    match progress, recipeBookOf s.reward with
    | some p, some newRecipes =>
      if 50 ≤ p then
        { s1 with unlockedRecipes := some (setSpread ((s1.unlockedRecipes.getD []) ++ newRecipes)) }
      else s1
    | _, _ => s1
  { s2 with completionModals := s2.completionModals + 1 }

/-- Method `updateProgress`: recomputes `state.progress` from the targets and opens the
completion modal when it reaches 100. -/
def updateProgress (s : GameState) : GameState :=
  match s.targets with
  | none => { s with progress := .frac 0 1 }
  | some targets =>
    let completedTargets := (targets.filter (fun target =>
      match s.ingredients.find? (fun i => decide (i.name = target)) with
      | some ingredient => ingredient.quantity.isPositive
      | none => false)).length
    let s1 := { s with progress := progressOf completedTargets targets.length }
    if s1.progress.atLeast100 then showCompletionModal s1 else s1

/-- The condition of the progress rule as the specification words it: some stage
ingredient called `target` has a quantity above 0. -/
def specHasPositive (ingredients : List StageIngredient) (target : String) : Bool :=
  ingredients.any (fun i => decide (i.name = target) && i.quantity.isPositive)

/-- The count `c` of the progress rule as the specification words it: the number of
target entries for which some stage ingredient of that name has a quantity above 0. -/
def specCompleted (targets : List String) (ingredients : List StageIngredient) : Nat :=
  (targets.filter (specHasPositive ingredients)).length

/-- The full reward as the specification words it: 50 when the stage defines no reward,
the number of a flat reward, the `coins` field of a structured one (`none` when the
field is missing). -/
def specFullReward : Option Reward → Option Int
  | none => some 50
  | some (.flat n) => some n
  | some (.structured coins _) => coins

/-! ## Stage clock -/

/-- Method `startTimer`, which `init` calls once: the stage clock is registered with
`setInterval` and its handle is kept in `timer`. -/
def startTimer (s : GameState) : GameState :=
  { s with timer := some s.nextTimerId, timerLive := true, nextTimerId := s.nextTimerId + 1 }

/-- Method `gameOver`: the stage clock is cleared and the completion modal is shown. -/
def gameOver (s : GameState) : GameState :=
  showCompletionModal { s with timerLive := false }

/-- The callback `startTimer` registers, run once a second while the clock is live: one
second passes, and at zero the stage ends through `gameOver`. -/
def timerTick (s : GameState) : GameState :=
  if s.timerLive then
    let s1 := { s with timeLeft := s.timeLeft - 1 }
    if s1.timeLeft ≤ 0 then gameOver s1 else s1
  else s

/-! ## Tool content ledger -/

/-- The ledger entry `renderTools` creates for a catalog tool: no items, nothing used,
`maxCapacity: toolData.capacity || 1000`. -/
def freshToolContent (toolData : ToolData) : ToolContent :=
  { items := [], usedCapacity := 0,
    maxCapacity := if toolData.capacity = 0 then 1000 else toolData.capacity }

/-- The body of the `forEach` of `renderTools`, as far as the state goes: a stage tool
found in the catalog gets a ledger entry unless it already has one. -/
def initToolContent (s : GameState) (toolName : String) : GameState :=
  match s.allItemsData.tools.find? (fun t => decide (t.name = toolName)) with
  | none => s
  | some toolData =>
    match objGet s.toolContents toolName with
    | some _ => s
    | none => { s with toolContents := objSet s.toolContents toolName (freshToolContent toolData) }

/-- Method `renderTools`. -/
def renderTools (s : GameState) : GameState :=
  s.tools.foldl initToolContent s

/-- The payload `handleDragStart` attaches to a drag. -/
structure DragData where
  type : String := "ingredient"
  index : Nat
  name : String
  size : Int
deriving DecidableEq, Repr

/-- The size shown on an ingredient card, `ingredientData?.size || 100`, the catalog entry
being looked up in `ingredients` and then in `spice`. -/
def cardSize (cat : AllItemsData) (name : String) : Int :=
  match (cat.ingredients.find? (fun i => decide (i.name = name))).orElse
      (fun _ => cat.spice.find? (fun i => decide (i.name = name))) with
  | some d => if d.size = 0 then 100 else d.size
  | none => 100

/-- Method `handleDragStart` on the card of ingredient `index`. -/
def handleDragStart (index : Nat) (s : GameState) : Option DragData :=
  (s.ingredients[index]?).map (fun ing =>
    { index := index, name := ing.name, size := cardSize s.allItemsData ing.name })

/-- The ingredient quantity the check of `addIngredientToTool` works with. -/
def currentQuantity : Quantity → Int
  | .num n => n
  | .str q => if jsIncludes q "适量" then 1 else 114514
  | .undefined => 114514

/-- The quantity `addIngredientToTool` stores after a placement. -/
def decrementQuantity : Quantity → Quantity
  | .num n => .num (n - 1)
  | .str q => if jsIncludes q "适量" then .num 0 else .str q
  | .undefined => .undefined

/-- The expression `parseInt(localStorage.getItem('health')) || 100`. -/
def currentHealth (health : Option Int) : Int :=
  match health with
  | some h => if h = 0 then 100 else h
  | none => 100

/-- The block of `addIngredientToTool` that adds an ingredient's nutrition value to the
stored health. -/
def addNutrition (ingredientName : String) (s : GameState) : GameState :=
  match s.allItemsData.ingredients.find? (fun i => decide (i.name = ingredientName)) with
  | some ingredientData =>
    match ingredientData.nutrition with
    | some nutrition =>
      if nutrition = 0 then s
      else { s with health := some (currentHealth s.health + nutrition) }
    | none => s
  | none => s

/-- The block of `addIngredientToTool` guarded by `if (this.state.toolContents[toolName])`:
the item is pushed, the used capacity grows and the nutrition is credited. -/
def updateToolCapacity (toolName ingredientName : String) (size : Int) (s : GameState) :
    GameState :=
  match objGet s.toolContents toolName with
  | none => s
  | some tc =>
    let item : Item := { name := ingredientName, size := size }
    let tc' : ToolContent :=
      { tc with items := tc.items ++ [item], usedCapacity := tc.usedCapacity + size }
    addNutrition ingredientName { s with toolContents := objSet s.toolContents toolName tc' }

/-- Method `addIngredientToTool`.  An index without a tool reads `toolContents[undefined]`,
the property called `"undefined"`. -/
def addIngredientToTool (ingredientIndex toolIndex : Nat) (size : Int) (s : GameState) :
    Except JsError GameState :=
  match s.ingredients[ingredientIndex]? with
  | none => .error .typeError
  | some ingredient =>
    let toolName := (s.tools[toolIndex]?).getD "undefined"
    if currentQuantity ingredient.quantity ≤ 0 then
      .ok { s with alerts := s.alerts ++ [.insufficientQuantity] }
    else
      let used : StageIngredient :=
        { ingredient with quantity := decrementQuantity ingredient.quantity }
      let s1 := { s with ingredients := s.ingredients.set ingredientIndex used }
      .ok (updateProgress (updateToolCapacity toolName ingredient.name size s1))

/-- Method `handleDrop` on the tool element with `dataset.toolIndex = toolIndex` and
`dataset.toolName = toolName`. -/
def handleDrop (data : DragData) (toolIndex : Nat) (toolName : String) (s : GameState) :
    Except JsError GameState :=
  if data.type = "ingredient" then
    match objGet s.toolContents toolName with
    | some toolContent =>
      if toolContent.usedCapacity + data.size ≤ toolContent.maxCapacity then
        addIngredientToTool data.index toolIndex data.size s
      else .ok { s with alerts := s.alerts ++ [.capacityExceeded] }
    | none => .ok { s with alerts := s.alerts ++ [.capacityExceeded] }
  else .ok s

/-! ## Recipe matcher -/

/-- The value `checkRecipeMatch` returns: the recipe itself, or for an abstract recipe a
copy that carries `wildcardMap`. -/
structure MatchedRecipe where
  recipe : Recipe
  wildcardMap : Option (JsObj String) := none
deriving DecidableEq, Repr

/-- The `items.reduce(...)` of `checkRecipeMatch`: ingredient name to number of items. -/
def toolIngredientsOf (items : List Item) : JsObj Int :=
  items.foldl (fun acc item => objSet acc item.name ((objGet acc item.name).getD 0 + 1)) []

/-- The branch of `checkRecipeMatch` for an ordinary recipe. -/
def exactMatch (toolIngredients : JsObj Int) (recipe : Recipe) : Bool :=
  decide ((objKeys toolIngredients).length = (objKeys recipe.input).length) &&
    (objKeys recipe.input).all
      (fun name => decide (objGet toolIngredients name = objGet recipe.input name))

/-- The loop over `wildcardIngredients`: each wildcard takes the first remaining name
with the required count that no wildcard holds yet; a missing (or empty, hence falsy)
candidate fails the match. -/
def bindWildcards (recipeInputs : JsObj Int) :
    List String → JsObj Int → JsObj String → Option (JsObj String)
  | [], _, wildcardMap => some wildcardMap
  | wildcardKey :: rest, remainingIngredients, wildcardMap =>
    let requiredCount := objGet recipeInputs wildcardKey
    match (objKeys remainingIngredients).find? (fun name =>
        decide (objGet remainingIngredients name = requiredCount) &&
        !decide (name ∈ objValues wildcardMap)) with
    | some matchedIngredient =>
      if matchedIngredient = "" then none
      else bindWildcards recipeInputs rest (objDelete remainingIngredients matchedIngredient)
        (objSet wildcardMap wildcardKey matchedIngredient)
    | none => none

/-- The constant `nonWildcardIngredients` of `checkRecipeMatch`: the input names of a
recipe that do not start with a brace. -/
def nonWildcardIngredients (recipe : Recipe) : List String :=
  (objKeys recipe.input).filter (fun name => !startsWithBrace name)

/-- The constant `wildcardIngredients` of `checkRecipeMatch`: the input names of a recipe
that start with a brace, in declaration order. -/
def wildcardIngredients (recipe : Recipe) : List String :=
  (objKeys recipe.input).filter startsWithBrace

/-- The number of wildcards of a recipe that require the count `c`, as the specification
counts them. -/
def specWildcardsRequiring (recipe : Recipe) (c : Int) : Nat :=
  ((wildcardIngredients recipe).filter
    (fun key => decide (objGet recipe.input key = some c))).length

/-- The number of ingredient names among the items that are no literal input of the
recipe and occur exactly `c` times, as the specification counts them. -/
def specCandidates (items : List Item) (recipe : Recipe) (c : Int) : Nat :=
  (((items.map (fun i => i.name)).dedup).filter (fun name =>
    !decide (name ∈ nonWildcardIngredients recipe) &&
    decide ((((items.map (fun i => i.name)).count name : Nat) : Int) = c))).length

/-- The branch of `checkRecipeMatch` for an abstract recipe; the result is the
`wildcardMap` of a successful match. -/
def abstractMatch (toolIngredients : JsObj Int) (recipe : Recipe) : Option (JsObj String) :=
  let recipeIngredientNames := objKeys recipe.input
  let nonWildcardIngredients := recipeIngredientNames.filter (fun name => !startsWithBrace name)
  if nonWildcardIngredients.all
      (fun name => decide (objGet toolIngredients name = objGet recipe.input name)) then
    let wildcardIngredients := recipeIngredientNames.filter startsWithBrace
    let remainingIngredients := nonWildcardIngredients.foldl objDelete toolIngredients
    bindWildcards recipe.input wildcardIngredients remainingIngredients []
  else none

/-- The `for (const recipe of this.state.recipes)` loop of `checkRecipeMatch`. -/
def checkRecipes (toolIngredients : JsObj Int) (toolName : String) :
    List Recipe → Option MatchedRecipe
  | [] => none
  | recipe :: rest =>
    if toolName ∉ recipe.tool then checkRecipes toolIngredients toolName rest
    else if recipe.abstract then
      match abstractMatch toolIngredients recipe with
      | some wildcardMap => some { recipe := recipe, wildcardMap := some wildcardMap }
      | none => checkRecipes toolIngredients toolName rest
    else if exactMatch toolIngredients recipe then some { recipe := recipe }
    else checkRecipes toolIngredients toolName rest

/-- The test one iteration of the loop of `checkRecipeMatch` applies to `recipe`,
together with the value the loop returns when the test holds. -/
def recipeMatch (toolIngredients : JsObj Int) (toolName : String) (recipe : Recipe) :
    Option MatchedRecipe :=
  if toolName ∉ recipe.tool then none
  else if recipe.abstract then
    (abstractMatch toolIngredients recipe).map
      (fun wildcardMap => { recipe := recipe, wildcardMap := some wildcardMap })
  else if exactMatch toolIngredients recipe then some { recipe := recipe }
  else none

/-- Method `checkRecipeMatch`; `recipes` is `this.state.recipes`, `none` standing for the
initial `null`. -/
def checkRecipeMatch (recipes : Option (List Recipe)) (items : List Item) (toolName : String) :
    Option MatchedRecipe :=
  match recipes with
  | none => none
  | some [] => none
  | some (recipe :: rest) => checkRecipes (toolIngredientsOf items) toolName (recipe :: rest)

/-- Method `loadRecipes`; `fetched` is the parsed `recipe.json`, `none` when the fetch or
the parse fails, in which case the catalog becomes the empty list. -/
def loadRecipes (fetched : Option (List Recipe)) (s : GameState) : GameState :=
  match fetched with
  | some recipes => { s with recipes := some recipes }
  | none => { s with recipes := some [] }

/-! ## Outcome resolver -/

/-- The find-then-update-or-push step shared by the `return...` methods: the first stage
ingredient called `name` gets `(quantity || 0) + k`, and a new one is pushed with
quantity `k` when there is none. -/
def addStageIngredient : List StageIngredient → String → Int → List StageIngredient
  | [], name, k => [{ name := name, quantity := .num k }]
  | i :: rest, name, k =>
    if i.name = name then { i with quantity := i.quantity.orZeroPlus k } :: rest
    else i :: addStageIngredient rest name k

/-- The quantity of `ingredients.find(i => i.name === name)`, `none` when there is no
stage ingredient of that name. -/
def quantityOf (ingredients : List StageIngredient) (name : String) : Option Quantity :=
  (ingredients.find? (fun i => decide (i.name = name))).map (fun i => i.quantity)

/-- Substitution of every wildcard of `wildcardMap` in `name`, in key order. -/
def substituteWildcards (wildcardMap : JsObj String) (name : String) : String :=
  (objKeys wildcardMap).foldl (fun finalName wildcard =>
    match objGet wildcardMap wildcard with
    | some bound => jsReplace finalName wildcard bound
    | none => finalName) name

/-- The loop of `returnRecipeOutput` on the stage ingredients alone: every output entry
is credited to the ingredient of its resolved name. -/
def creditOutputs (m : MatchedRecipe) (ingredients : List StageIngredient) :
    List StageIngredient :=
  (objKeys m.recipe.output).foldl (fun ings outputName =>
    match objGet m.recipe.output outputName with
    | some quantity =>
      addStageIngredient ings (substituteWildcards (m.wildcardMap.getD []) outputName) quantity
    | none => ings) ingredients

/-- The loop of `returnCookedIngredients` and of `returnRawIngredients` on the stage
ingredients alone: one unit is credited to each name of the list, in order. -/
def creditEach (names : List String) (ingredients : List StageIngredient) :
    List StageIngredient :=
  names.foldl (fun ings name => addStageIngredient ings name 1) ingredients

/-- Method `returnRecipeOutput`. -/
def returnRecipeOutput (m : MatchedRecipe) (s : GameState) : GameState :=
  let wildcardMap := m.wildcardMap.getD []
  let s1 := (objKeys m.recipe.output).foldl (fun st outputName =>
    let finalName := substituteWildcards wildcardMap outputName
    match objGet m.recipe.output outputName with
    | some quantity => { st with ingredients := addStageIngredient st.ingredients finalName quantity }
    | none => st) s
  let s2 := updateProgress s1
  { s2 with alerts := s2.alerts ++ [.recipeSuccess (substituteWildcards wildcardMap m.recipe.name)] }

/-- Method `returnCookedIngredients`. -/
def returnCookedIngredients (items : List Item) (s : GameState) : GameState :=
  let s1 := items.foldl (fun st item =>
    { st with ingredients := addStageIngredient st.ingredients (item.name ++ "(烤熟)") 1 }) s
  let s2 := updateProgress s1
  { s2 with alerts := s2.alerts ++ [.cookedReturned] }

/-- Method `returnRawIngredients`. -/
def returnRawIngredients (items : List Item) (s : GameState) : GameState :=
  let s1 := items.foldl (fun st item =>
    { st with ingredients := addStageIngredient st.ingredients item.name 1 }) s
  { s1 with alerts := s1.alerts ++ [.rawReturned] }

/-- Method `returnBurnedIngredients`. -/
def returnBurnedIngredients (items : List Item) (s : GameState) : GameState :=
  { s with ingredients := addStageIngredient s.ingredients "烤焦的食物" items.length,
           alerts := s.alerts ++ [.burnedReturned] }

/-- The first statement of `finishToolCooking`: a truthy timer handle of the tool is
cleared and deleted. -/
def clearCookingTimer (toolName : String) (s : GameState) : GameState :=
  match objGet s.cookingTimers toolName with
  | some handle =>
    if handle = 0 then s
    else { s with intervals := s.intervals.filter (fun t => !decide (t.1 = handle)),
                  cookingTimers := objDelete s.cookingTimers toolName }
  | none => s

/-- The classification branch of `finishToolCooking`; `isCooked` is 1 for cooked, 2 for
raw, anything else for burned. -/
def returnOutcome (toolName : String) (isCooked : Int) (items : List Item) (s : GameState) :
    GameState :=
  if isCooked = 1 then
    match checkRecipeMatch s.recipes items toolName with
    | some matchedRecipe => returnRecipeOutput matchedRecipe s
    | none => returnCookedIngredients items s
  else if isCooked = 2 then
    match checkRecipeMatch s.recipes items toolName with
    | some matchedRecipe => returnRecipeOutput matchedRecipe s
    | none => returnRawIngredients items s
  else returnBurnedIngredients items s

/-- Method `finishToolCooking`.  The constant `toolContents` aliases the ledger entry,
which nothing touches before the reset, so its `maxCapacity` is the one the reset reads. -/
def finishToolCooking (toolName : String) (isCooked : Int) (s : GameState) : GameState :=
  let s1 := clearCookingTimer toolName s
  match objGet s1.toolContents toolName with
  | none => s1
  | some toolContents =>
    let s2 := returnOutcome toolName isCooked toolContents.items s1
    let cleared : ToolContent :=
      { items := [], usedCapacity := 0, maxCapacity := toolContents.maxCapacity }
    { s2 with toolContents := objSet s2.toolContents toolName cleared }

/-! ## Cooking timer -/

/-- The heating constant `startToolCooking` uses for an item: the one of its entry in
`allItemsData.ingredients`, 30 when there is no entry. -/
def heatingOf (cat : AllItemsData) (item : Item) : Int :=
  match cat.ingredients.find? (fun i => decide (i.name = item.name)) with
  | some ingredientData => ingredientData.heating
  | none => 30

/-- The expression `Math.min(...)` over the heating constants of a non-empty item list. -/
def minHeating (cat : AllItemsData) (item : Item) (rest : List Item) : Int :=
  (rest.map (heatingOf cat)).foldl min (heatingOf cat item)

/-- The `cookingTime` computed by `startToolCooking` for a non-empty item list. -/
def cookingTimeOf (cat : AllItemsData) (toolData : ToolData) (item : Item) (rest : List Item) :
    JsNum :=
  if toolData.fire = -1 then .fin 10
  else mathRoundDiv (minHeating cat item rest) toolData.fire

/-- Method `startToolCooking`. -/
def startToolCooking (toolName : String) (s : GameState) : GameState :=
  match s.allItemsData.tools.find? (fun t => decide (t.name = toolName)),
      objGet s.toolContents toolName with
  | some toolData, some toolContents =>
    match toolContents.items with
    | [] => s
    | item :: rest =>
      let cookingTime := cookingTimeOf s.allItemsData toolData item rest
      let started : CookingProgress :=
        { totalTime := cookingTime, remainingTime := cookingTime, isCooking := true }
      { s with cookingProgress := objSet s.cookingProgress toolName started,
               cookingTimers := objSet s.cookingTimers toolName s.nextTimerId,
               intervals := s.intervals ++ [(s.nextTimerId, toolName)],
               nextTimerId := s.nextTimerId + 1 }
  | _, _ => s

/-- The statement `remainingTime--`. -/
def JsNum.decrement : JsNum → JsNum
  | .fin n => .fin (n - 1)
  | x => x

/-- The test `remainingTime <= 0`. -/
def JsNum.leZero : JsNum → Bool
  | .fin n => decide (n ≤ 0)
  | .negInf => true
  | _ => false

/-- Method `updateToolCooking`, the callback of a tool's interval: one second passes, and
at zero the tool is resolved as raw (2) for a tool without heat source and as burned (0)
otherwise. -/
def updateToolCooking (toolName : String) (s : GameState) : GameState :=
  match objGet s.cookingProgress toolName with
  | none => s
  | some progress =>
    if progress.isCooking then
      let ticked : CookingProgress :=
        { progress with remainingTime := progress.remainingTime.decrement }
      let s1 := { s with cookingProgress := objSet s.cookingProgress toolName ticked }
      if ticked.remainingTime.leZero then
        let isNonHeatingTool :=
          match s1.allItemsData.tools.find? (fun t => decide (t.name = toolName)) with
          | some toolData => decide (toolData.fire = -1)
          | none => false
        finishToolCooking toolName (if isNonHeatingTool then 2 else 0) s1
      else s1
    else s

/-- The number `progressPercent` of `dumpToolIngredients`: the exact fraction `num / den`
with `den > 0`, an infinity or `NaN`.  Negative zero is not told from zero. -/
inductive Percent where
  | ratio (num den : Int)
  | posInf
  | negInf
  | nan
deriving DecidableEq, Repr

/-- The expression `(progress.remainingTime / progress.totalTime) * 100` in IEEE
arithmetic. -/
def percentRemaining (remainingTime totalTime : JsNum) : Percent :=
  match remainingTime, totalTime with
  | .fin r, .fin t =>
    if t = 0 then
      if 0 < r then .posInf else if r < 0 then .negInf else .nan
    else if 0 < t then .ratio (100 * r) t
    else .ratio (100 * (-r)) (-t)
  | .fin _, .posInf => .ratio 0 1
  | .fin _, .negInf => .ratio 0 1
  | .posInf, .fin t => if 0 ≤ t then .posInf else .negInf
  | .negInf, .fin t => if 0 ≤ t then .negInf else .posInf
  | _, _ => .nan

/-- The test `progressPercent >= 30`. -/
def Percent.atLeast30 : Percent → Bool
  | .ratio n d => decide (30 * d ≤ n)
  | .posInf => true
  | _ => false

/-- The test `progressPercent < 30`. -/
def Percent.below30 : Percent → Bool
  | .ratio n d => decide (n < 30 * d)
  | .negInf => true
  | _ => false

/-- The test `progressPercent > 0`. -/
def Percent.positive : Percent → Bool
  | .ratio n _ => decide (0 < n)
  | .posInf => true
  | _ => false

/-- The `isCooked` code `dumpToolIngredients` derives from `progressPercent`: 2 (raw),
1 (cooked) or 0 (burned). -/
def dumpClassification (progressPercent : Percent) : Int :=
  if progressPercent.atLeast30 then 2
  else if progressPercent.below30 && progressPercent.positive then 1
  else 0

/-- Method `dumpToolIngredients`. -/
def dumpToolIngredients (toolName : String) (s : GameState) : GameState :=
  match objGet s.cookingProgress toolName with
  | none => s
  | some progress =>
    if progress.isCooking then
      finishToolCooking toolName
        (dumpClassification (percentRemaining progress.remainingTime progress.totalTime)) s
    else s

/-- The guard of `startAllCooking`: the tool has contents and no timer handle. -/
def canStartAll (toolName : String) (s : GameState) : Bool :=
  match objGet s.toolContents toolName with
  | some toolContents =>
    decide (0 < toolContents.items.length) &&
      (match objGet s.cookingTimers toolName with
       | some handle => decide (handle = 0)
       | none => true)
  | none => false

/-- Method `startAllCooking`. -/
def startAllCooking (s : GameState) : GameState :=
  s.tools.foldl (fun st toolName =>
    if canStartAll toolName st then startToolCooking toolName st else st) s

/-! ## Event sequences on the ledger -/

/-- The two events that write the tool ledger: a drop on the tool element that
`createToolItem` built for position `toolIndex` of the stage tools (its
`dataset.toolName` is `tools[toolIndex]`), and a resolution of a tool. -/
inductive LedgerEvent where
  | drop (data : DragData) (toolIndex : Nat)
  | finish (toolName : String) (isCooked : Int)
deriving DecidableEq, Repr

/-- One event; a handler that throws leaves the state as it was, and a position without
a tool element receives no drop. -/
def LedgerEvent.apply (s : GameState) : LedgerEvent → GameState
  | .drop data toolIndex =>
    match s.tools[toolIndex]? with
    | none => s
    | some toolName =>
      match handleDrop data toolIndex toolName s with
      | .ok s' => s'
      | .error _ => s
  | .finish toolName isCooked => finishToolCooking toolName isCooked s

/-- A finite sequence of ledger events, run from left to right. -/
def runLedger (s : GameState) (events : List LedgerEvent) : GameState :=
  events.foldl LedgerEvent.apply s

/-- Sum of the sizes of the items of a ledger entry. -/
def sumSizes (items : List Item) : Int := (items.map (fun i => i.size)).sum

/-- The capacity invariant of the ledger entry of `toolName`, whose capacity is `cap`. -/
def LedgerOk (cap : Int) (toolName : String) (s : GameState) : Prop :=
  ∃ tc, objGet s.toolContents toolName = some tc ∧ tc.usedCapacity = sumSizes tc.items ∧
    tc.usedCapacity ≤ tc.maxCapacity ∧ tc.maxCapacity = cap

/-! ## Sequences of placements -/

/-- A sequence of successful placements into the tool at `toolIndex`, each of a stage
ingredient (given by its index, with the size of its card) whose quantity is a number of
at least 1 when it is placed; `s'` is the state after the last one. -/
def PlacedAll (toolIndex : Nat) : List (Nat × Int) → GameState → GameState → Prop
  | [], s, s' => s' = s
  | (i, size) :: rest, s, s' =>
    ∃ ingredient q s1, s.ingredients[i]? = some ingredient ∧ ingredient.quantity = .num q ∧
      1 ≤ q ∧ addIngredientToTool i toolIndex size s = .ok s1 ∧ PlacedAll toolIndex rest s1 s'

/-! ## A concrete stage -/

/-- A small catalog: two ingredients, one spice, a heating pan and a non-heating bowl. -/
def demoCatalog : AllItemsData :=
  { ingredients :=
      [{ name := "鸡蛋", size := 100, heating := 40, nutrition := some 5 },
       { name := "米饭", size := 120, heating := 60 }],
    tools := [{ name := "平底锅", capacity := 250, fire := 2 },
              { name := "碗", capacity := 500, fire := -1 }],
    spice := [{ name := "盐", size := 10 }] }

/-- A stage over `demoCatalog` before `renderTools` has run. -/
def demoStage : GameState :=
  { ingredients := [{ name := "鸡蛋", quantity := .num 3 }, { name := "盐", quantity := .str "适量" },
                    { name := "米饭", quantity := .num 0 }],
    tools := ["平底锅", "碗"],
    targets := some ["煎蛋"],
    allItemsData := demoCatalog,
    recipes := some [],
    health := some 100,
    savings := some 0 }

/-- The drag payload of an egg card of `demoStage`. -/
def eggDrag : DragData := { index := 0, name := "鸡蛋", size := 100 }

/-- Three egg drops on the pan (the third exceeds its capacity), a resolution of the pan
and a further drop. -/
def demoEvents : List LedgerEvent :=
  [.drop eggDrag 0, .drop eggDrag 0, .drop eggDrag 0, .finish "平底锅" 1, .drop eggDrag 0]

/-- The ledger entry of a pan that holds two eggs. -/
def twoEggs : ToolContent :=
  { items := [{ name := "鸡蛋", size := 100 }, { name := "鸡蛋", size := 100 }],
    usedCapacity := 200, maxCapacity := 250 }

/-- The stage `demoStage` with two eggs in the pan, an empty bowl and one egg left. -/
def panWithTwoEggs : GameState :=
  { demoStage with
    ingredients := [{ name := "鸡蛋", quantity := .num 1 }, { name := "盐", quantity := .str "适量" },
                    { name := "米饭", quantity := .num 0 }],
    toolContents := [("平底锅", twoEggs), ("碗", { items := [], usedCapacity := 0, maxCapacity := 500 })] }

/-- An ordinary recipe: two eggs and one salt in a pan. -/
def friedEggRecipe : Recipe :=
  { name := "fried egg", input := [("egg", 2), ("salt", 1)], tool := ["pan"],
    output := [("fried egg", 1)] }

/-- An abstract recipe: one rice and one unit of any other ingredient in a wok. -/
def friedRiceRecipe : Recipe :=
  { name := "\x7bmeat\x7d fried rice", input := [("rice", 1), ("\x7bmeat\x7d", 1)],
    tool := ["wok"], output := [("\x7bmeat\x7d fried rice", 1)], abstract := true }

/-- Tool contents: two eggs and one salt. -/
def eggSaltItems : List Item :=
  [{ name := "egg", size := 100 }, { name := "salt", size := 10 }, { name := "egg", size := 100 }]

/-- Tool contents: one rice and one beef. -/
def riceBeefItems : List Item :=
  [{ name := "rice", size := 120 }, { name := "beef", size := 150 }]

/-- The stage `panWithTwoEggs` after the pan was started and its interval fired fifteen
times: 5 of its 20 seconds are left and its timer has handle 1. -/
def panCooking : GameState :=
  { panWithTwoEggs with
    cookingProgress := [("平底锅", { totalTime := .fin 20, remainingTime := .fin 5, isCooking := true })],
    cookingTimers := [("平底锅", 1)],
    intervals := [(1, "平底锅")],
    nextTimerId := 2 }

/-- The ledger entry of a pan that holds an egg (heating 40) and rice (heating 60). -/
def eggAndRice : ToolContent :=
  { items := [{ name := "鸡蛋", size := 100 }, { name := "米饭", size := 120 }],
    usedCapacity := 220, maxCapacity := 250 }

/-- The ledger entry of a bowl that holds one egg. -/
def oneEgg : ToolContent :=
  { items := [{ name := "鸡蛋", size := 100 }], usedCapacity := 100, maxCapacity := 500 }

/-- The stage `demoStage` with egg and rice in the pan and an egg in the bowl, nothing
started yet. -/
def panEggRice : GameState :=
  { demoStage with toolContents := [("平底锅", eggAndRice), ("碗", oneEgg)] }

/-- A recipe of the stage: two eggs in the pan give one fried egg. -/
def panFriedEgg : Recipe :=
  { name := "煎蛋", input := [("鸡蛋", 2)], tool := ["平底锅"], output := [("煎蛋", 1)] }

/-- The stage `panWithTwoEggs` with `panFriedEgg` in its catalog, so that the contents of
the pan match a recipe. -/
def panMatching : GameState :=
  { panWithTwoEggs with recipes := some [panFriedEgg] }

/-- The stage `panMatching` with the pan started and 1 of its 20 seconds left. -/
def panMatchingLastSecond : GameState :=
  { panMatching with
    cookingProgress := [("平底锅", { totalTime := .fin 20, remainingTime := .fin 1, isCooking := true })],
    cookingTimers := [("平底锅", 1)],
    intervals := [(1, "平底锅")],
    nextTimerId := 2 }

/-- The match `checkRecipeMatch` finds for rice and beef in a wok. -/
def friedRiceMatch : MatchedRecipe :=
  { recipe := friedRiceRecipe, wildcardMap := some [("\x7bmeat\x7d", "beef")] }

/-- The drag payload of the salt card of `demoStage`, whose quantity is the ample marker. -/
def saltDrag : DragData := { index := 1, name := "盐", size := 10 }

/-- The stage `panWithTwoEggs` after its last egg was dropped into the bowl. -/
def eggInBowl : GameState := LedgerEvent.apply panWithTwoEggs (.drop eggDrag 1)

/-- A stage with two targets whose first dish is already made (progress 50), the pan
holding one egg. -/
def dishServed : GameState :=
  { demoStage with
    ingredients := [{ name := "鸡蛋", quantity := .num 1 }, { name := "煎蛋", quantity := .num 1 }],
    targets := some ["煎蛋", "蛋炒饭"],
    progress := .frac 100 2,
    toolContents := [("平底锅", { items := [{ name := "鸡蛋", size := 100 }], usedCapacity := 100,
                                  maxCapacity := 250 }),
                     ("碗", { items := [], usedCapacity := 0, maxCapacity := 500 })] }

/-- The drag payload of the dish card of `dishServed`. -/
def dishDrag : DragData := { index := 1, name := "煎蛋", size := 100 }

/-- The stage `dishServed` after the dish was dropped into the bowl; the placement
recomputed the progress to 0. -/
def dishInBowl : GameState := LedgerEvent.apply dishServed (.drop dishDrag 1)

/-- The stage `dishInBowl` after the bowl ran out of time and returned the dish raw. -/
def dishReturned : GameState := finishToolCooking "碗" 2 dishInBowl

/-- The stage `panMatching` with two seconds on the stage clock, which `startTimer` has
started. -/
def clockStage : GameState := startTimer { panMatching with timeLeft := 2 }

/-- The stage `clockStage` after the pan resolved as cooked: the fried egg is made and
the only target is met. -/
def clockStageDone : GameState := finishToolCooking "平底锅" 1 clockStage

/-- The stage `panWithTwoEggs` for a player whose stored health is 0. -/
def healthZero : GameState := { panWithTwoEggs with health := some 0 }

/-- Two units of onion. -/
def onionItems : List Item := [{ name := "onion", size := 50 }, { name := "onion", size := 50 }]

/-- A stage whose wok holds rice, beef and two onions, with `friedRiceRecipe` as the only
recipe of the catalog. -/
def wokWithLeftover : GameState :=
  { tools := ["wok"],
    recipes := some [friedRiceRecipe],
    toolContents := [("wok", { items := riceBeefItems ++ onionItems, usedCapacity := 370,
                               maxCapacity := 1000 })] }

/-- An abstract recipe with two wildcards that require different counts: one unit of
one ingredient, one water and two units of another ingredient in a pot. -/
def stewRecipe : Recipe :=
  { name := "\x7ba\x7d and \x7bb\x7d stew",
    input := [("\x7ba\x7d", 1), ("water", 1), ("\x7bb\x7d", 2)],
    tool := ["pot"], output := [("\x7ba\x7d and \x7bb\x7d stew", 1)], abstract := true }

/-- The recipe `stewRecipe` with its inputs declared in the opposite order. -/
def stewRecipeReversed : Recipe :=
  { stewRecipe with input := [("\x7bb\x7d", 2), ("water", 1), ("\x7ba\x7d", 1)] }

/-- Tool contents: two carrots, one beef and one water. -/
def stewItems : List Item :=
  [{ name := "carrot", size := 60 }, { name := "beef", size := 150 },
   { name := "water", size := 100 }, { name := "carrot", size := 60 }]

/-! ## Objects as association lists -/
theorem objGet_objSet {α : Type} (o : JsObj α) (k k' : String) (v : α) :
    objGet (objSet o k v) k' = if k = k' then some v else objGet o k' := by
  induction o with
  | nil => simp [objSet, objGet]
  | cons p rest ih =>
    obtain ⟨a, b⟩ := p
    by_cases h : a = k
    · subst h
      by_cases h' : a = k' <;> simp [objSet, objGet, h']
    · by_cases h' : a = k'
      · subst h'
        simp [objSet, objGet, h, Ne.symm h]
      · simp [objSet, objGet, h, h', ih]

theorem objGet_objSet_self {α : Type} (o : JsObj α) (k : String) (v : α) :
    objGet (objSet o k v) k = some v := by
  simp [objGet_objSet]

theorem objGet_objSet_ne {α : Type} (o : JsObj α) (k k' : String) (v : α) (h : k ≠ k') :
    objGet (objSet o k v) k' = objGet o k' := by
  simp [objGet_objSet, h]

theorem objGet_objDelete {α : Type} (o : JsObj α) (k k' : String) :
    objGet (objDelete o k) k' = if k' = k then none else objGet o k' := by
  induction o with
  | nil => simp [objDelete, objGet]
  | cons p rest ih =>
    obtain ⟨a, b⟩ := p
    simp only [objDelete] at ih ⊢
    by_cases h : a = k
    · subst h
      by_cases h' : k' = a
      · subst h'; simpa [objGet] using ih
      · simp [objGet, ih, h', Ne.symm h']
    · by_cases h' : k' = k
      · subst h'
        simp [List.filter_cons, h, objGet, ih]
      · simp [List.filter_cons, h, objGet, ih, h']

theorem mem_objKeys {α : Type} (o : JsObj α) (k : String) :
    k ∈ objKeys o ↔ ∃ v, objGet o k = some v := by
  induction o with
  | nil => simp [objKeys, objGet]
  | cons p rest ih =>
    obtain ⟨a, b⟩ := p
    by_cases h : a = k
    · subst h; simp [objKeys, objGet]
    · simp [objKeys, objGet, h, ih, List.mem_filter, Ne.symm h]


theorem objKeys_nodup {α : Type} (o : JsObj α) : (objKeys o).Nodup := by
  induction o with
  | nil => simp [objKeys]
  | cons p rest ih =>
    obtain ⟨a, b⟩ := p
    simp only [objKeys, List.nodup_cons, List.mem_filter]
    exact ⟨by simp, ih.filter _⟩


/-! ## Fields the progress and resolver methods leave alone -/

theorem showCompletionModal_frame (s : GameState) :
    (showCompletionModal s).toolContents = s.toolContents ∧
    (showCompletionModal s).ingredients = s.ingredients ∧
    (showCompletionModal s).health = s.health ∧
    (showCompletionModal s).tools = s.tools ∧
    (showCompletionModal s).alerts = s.alerts := by
  unfold showCompletionModal
  cases s.progress.round <;> cases recipeBookOf s.reward <;> simp
  split <;> simp

theorem updateProgress_frame (s : GameState) :
    (updateProgress s).toolContents = s.toolContents ∧
    (updateProgress s).ingredients = s.ingredients ∧
    (updateProgress s).health = s.health ∧
    (updateProgress s).tools = s.tools ∧
    (updateProgress s).alerts = s.alerts := by
  unfold updateProgress
  split
  · simp
  · simp only
    split
    · exact showCompletionModal_frame _
    · simp

theorem foldl_toolContents {β : Type} (g : GameState → β → GameState)
    (hg : ∀ st x, (g st x).toolContents = st.toolContents) (l : List β) (s : GameState) :
    (l.foldl g s).toolContents = s.toolContents := by
  induction l generalizing s with
  | nil => rfl
  | cons x xs ih => simp only [List.foldl_cons]; rw [ih, hg]

theorem returnRecipeOutput_toolContents (m : MatchedRecipe) (s : GameState) :
    (returnRecipeOutput m s).toolContents = s.toolContents := by
  unfold returnRecipeOutput
  simp only
  rw [(updateProgress_frame _).1]
  apply foldl_toolContents
  intro st x
  split <;> rfl

theorem returnCookedIngredients_toolContents (items : List Item) (s : GameState) :
    (returnCookedIngredients items s).toolContents = s.toolContents := by
  unfold returnCookedIngredients
  simp only
  rw [(updateProgress_frame _).1]
  apply foldl_toolContents
  intro st x
  rfl

theorem returnRawIngredients_toolContents (items : List Item) (s : GameState) :
    (returnRawIngredients items s).toolContents = s.toolContents := by
  unfold returnRawIngredients
  simp only
  apply foldl_toolContents
  intro st x
  rfl

theorem clearCookingTimer_toolContents (toolName : String) (s : GameState) :
    (clearCookingTimer toolName s).toolContents = s.toolContents := by
  unfold clearCookingTimer
  split
  · split <;> rfl
  · rfl

theorem returnOutcome_toolContents (toolName : String) (isCooked : Int) (items : List Item)
    (s : GameState) : (returnOutcome toolName isCooked items s).toolContents = s.toolContents := by
  unfold returnOutcome
  split
  · split
    · exact returnRecipeOutput_toolContents _ _
    · exact returnCookedIngredients_toolContents _ _
  · split
    · split
      · exact returnRecipeOutput_toolContents _ _
      · exact returnRawIngredients_toolContents _ _
    · rfl

theorem finishToolCooking_toolContents (toolName : String) (isCooked : Int) (s : GameState) :
    (finishToolCooking toolName isCooked s).toolContents =
      match objGet s.toolContents toolName with
      | none => s.toolContents
      | some tc =>
        objSet s.toolContents toolName
          { items := [], usedCapacity := 0, maxCapacity := tc.maxCapacity } := by
  unfold finishToolCooking
  simp only [clearCookingTimer_toolContents]
  cases hget : objGet s.toolContents toolName with
  | none => simp [clearCookingTimer_toolContents]
  | some tc => simp [returnOutcome_toolContents, clearCookingTimer_toolContents]

/-! ## The tool ledger -/

theorem addNutrition_frame (name : String) (s : GameState) :
    (addNutrition name s).toolContents = s.toolContents ∧
    (addNutrition name s).ingredients = s.ingredients ∧
    (addNutrition name s).tools = s.tools ∧
    (addNutrition name s).alerts = s.alerts := by
  unfold addNutrition
  split
  · split
    · split <;> simp
    · simp
  · simp

theorem updateToolCapacity_toolContents (toolName name : String) (size : Int) (s : GameState) :
    (updateToolCapacity toolName name size s).toolContents =
      match objGet s.toolContents toolName with
      | none => s.toolContents
      | some tc =>
        objSet s.toolContents toolName
          { tc with items := tc.items ++ [{ name := name, size := size }],
                    usedCapacity := tc.usedCapacity + size } := by
  unfold updateToolCapacity
  cases hget : objGet s.toolContents toolName with
  | none => rfl
  | some tc => simp [(addNutrition_frame _ _).1]

theorem addIngredientToTool_toolContents (i t : Nat) (size : Int) (s s' : GameState)
    (h : addIngredientToTool i t size s = .ok s') :
    s'.toolContents = s.toolContents ∨
    ∃ tc name, objGet s.toolContents ((s.tools[t]?).getD "undefined") = some tc ∧
      s'.toolContents = objSet s.toolContents ((s.tools[t]?).getD "undefined")
        { tc with items := tc.items ++ [{ name := name, size := size }],
                  usedCapacity := tc.usedCapacity + size } := by
  unfold addIngredientToTool at h
  split at h
  · cases h
  · rename_i ingredient _
    simp only at h
    split at h
    · cases h; left; rfl
    · cases h
      rw [(updateProgress_frame _).1, updateToolCapacity_toolContents]
      cases hget : objGet s.toolContents ((s.tools[t]?).getD "undefined") with
      | none => left; simp [hget]
      | some tc => right; exact ⟨tc, ingredient.name, rfl, by simp [hget]⟩

theorem LedgerOk_of_toolContents (cap : Int) (toolName : String) (s s' : GameState)
    (h : s'.toolContents = s.toolContents) (hok : LedgerOk cap toolName s) :
    LedgerOk cap toolName s' := by
  unfold LedgerOk at *
  rw [h]; exact hok

theorem handleDrop_ledgerOk (cap : Int) (toolName : String) (data : DragData) (toolIndex : Nat)
    (target : String) (s s' : GameState) (htarget : s.tools[toolIndex]? = some target)
    (h : handleDrop data toolIndex target s = .ok s') (hok : LedgerOk cap toolName s) :
    LedgerOk cap toolName s' := by
  unfold handleDrop at h
  split at h
  · split at h
    · rename_i toolContent hget
      split at h
      · rename_i hfit
        rcases addIngredientToTool_toolContents _ _ _ _ _ h with h' | ⟨tc, name, hget', h'⟩
        · exact LedgerOk_of_toolContents _ _ _ _ h' hok
        · simp only [htarget, Option.getD_some] at hget' h'
          rw [hget] at hget'
          cases hget'
          obtain ⟨tc0, h0, hsum, hle, hmax⟩ := hok
          by_cases hname : target = toolName
          · subst hname
            rw [hget] at h0
            cases h0
            refine ⟨{ toolContent with
                items := toolContent.items ++ [{ name := name, size := data.size }],
                usedCapacity := toolContent.usedCapacity + data.size },
              by rw [h', objGet_objSet_self], ?_, hfit, hmax⟩
            simp only [sumSizes, List.map_append, List.sum_append, List.map_cons, List.map_nil,
              List.sum_cons, List.sum_nil, add_zero]
            rw [hsum]; rfl
          · exact ⟨tc0, by rw [h', objGet_objSet_ne _ _ _ _ hname]; exact h0, hsum, hle, hmax⟩
      · cases h; exact LedgerOk_of_toolContents _ _ _ _ rfl hok
    · cases h; exact LedgerOk_of_toolContents _ _ _ _ rfl hok
  · cases h; exact hok

theorem finishToolCooking_ledgerOk (cap : Int) (hcap : 0 ≤ cap) (toolName target : String)
    (isCooked : Int) (s : GameState) (hok : LedgerOk cap toolName s) :
    LedgerOk cap toolName (finishToolCooking target isCooked s) := by
  obtain ⟨tc0, h0, hsum, hle, hmax⟩ := hok
  unfold LedgerOk
  rw [finishToolCooking_toolContents]
  cases hget : objGet s.toolContents target with
  | none => exact ⟨tc0, h0, hsum, hle, hmax⟩
  | some tc =>
    simp only
    by_cases hname : target = toolName
    · subst hname
      rw [hget] at h0
      cases h0
      refine ⟨{ items := [], usedCapacity := 0, maxCapacity := tc0.maxCapacity },
        objGet_objSet_self _ _ _, ?_, ?_, hmax⟩
      · simp [sumSizes]
      · simp only; rw [hmax]; exact hcap
    · exact ⟨tc0, by rw [objGet_objSet_ne _ _ _ _ hname]; exact h0, hsum, hle, hmax⟩

theorem LedgerEvent_apply_ledgerOk (cap : Int) (hcap : 0 ≤ cap) (toolName : String)
    (e : LedgerEvent) (s : GameState) (hok : LedgerOk cap toolName s) :
    LedgerOk cap toolName (e.apply s) := by
  cases e with
  | drop data toolIndex =>
    simp only [LedgerEvent.apply]
    cases htarget : s.tools[toolIndex]? with
    | none => exact hok
    | some target =>
      simp only
      cases hdrop : handleDrop data toolIndex target s with
      | error e => exact hok
      | ok s' => exact handleDrop_ledgerOk cap toolName data toolIndex target s s' htarget hdrop hok
  | finish target isCooked => exact finishToolCooking_ledgerOk cap hcap toolName target isCooked s hok

theorem runLedger_ledgerOk (cap : Int) (hcap : 0 ≤ cap) (toolName : String)
    (events : List LedgerEvent) (s : GameState) (hok : LedgerOk cap toolName s) :
    LedgerOk cap toolName (runLedger s events) := by
  induction events generalizing s with
  | nil => exact hok
  | cons e es ih =>
    simp only [runLedger, List.foldl_cons]
    exact ih _ (LedgerEvent_apply_ledgerOk cap hcap toolName e s hok)

theorem initToolContent_allItemsData (s : GameState) (toolName : String) :
    (initToolContent s toolName).allItemsData = s.allItemsData := by
  unfold initToolContent
  split
  · rfl
  · split <;> rfl

theorem initToolContent_keeps (s : GameState) (toolName k : String) (tc : ToolContent)
    (h : objGet s.toolContents k = some tc) :
    objGet (initToolContent s toolName).toolContents k = some tc := by
  unfold initToolContent
  split
  · exact h
  · split
    · exact h
    · rename_i hnone
      by_cases hk : toolName = k
      · subst hk; rw [h] at hnone; cases hnone
      · simp only; rw [objGet_objSet_ne _ _ _ _ hk]; exact h

theorem initToolContent_fresh (s : GameState) (toolName k : String) (tc : ToolContent)
    (hOld : ∀ k tc, objGet s.toolContents k = some tc →
      ∃ td, s.allItemsData.tools.find? (fun t => decide (t.name = k)) = some td ∧
        tc = freshToolContent td)
    (h : objGet (initToolContent s toolName).toolContents k = some tc) :
    ∃ td, s.allItemsData.tools.find? (fun t => decide (t.name = k)) = some td ∧
      tc = freshToolContent td := by
  unfold initToolContent at h
  split at h
  · exact hOld k tc h
  · rename_i toolData hfind
    split at h
    · exact hOld k tc h
    · by_cases hk : toolName = k
      · subst hk
        simp only [objGet_objSet_self] at h
        cases h
        exact ⟨toolData, hfind, rfl⟩
      · simp only [objGet_objSet_ne _ _ _ _ hk] at h
        exact hOld k tc h

theorem initToolContent_creates (s : GameState) (toolName : String) (td : ToolData)
    (hfind : s.allItemsData.tools.find? (fun t => decide (t.name = toolName)) = some td) :
    ∃ tc, objGet (initToolContent s toolName).toolContents toolName = some tc := by
  unfold initToolContent
  rw [hfind]
  simp only
  cases hget : objGet s.toolContents toolName with
  | some tc => exact ⟨tc, by simp [hget]⟩
  | none => exact ⟨freshToolContent td, by simp [objGet_objSet_self]⟩

theorem foldl_initToolContent_fresh (cat : AllItemsData) (l : List String) (s : GameState)
    (hcat : s.allItemsData = cat)
    (hOld : ∀ k tc, objGet s.toolContents k = some tc →
      ∃ td, cat.tools.find? (fun t => decide (t.name = k)) = some td ∧ tc = freshToolContent td)
    (toolName : String) (td : ToolData)
    (hfind : cat.tools.find? (fun t => decide (t.name = toolName)) = some td)
    (hmem : toolName ∈ l ∨ ∃ tc, objGet s.toolContents toolName = some tc) :
    objGet (l.foldl initToolContent s).toolContents toolName = some (freshToolContent td) := by
  induction l generalizing s with
  | nil =>
    rcases hmem with hmem | ⟨tc, htc⟩
    · cases hmem
    · obtain ⟨td', hfind', htc'⟩ := hOld _ _ htc
      rw [hfind] at hfind'
      cases hfind'
      simpa [htc'] using htc
  | cons x xs ih =>
    simp only [List.foldl_cons]
    apply ih
    · rw [initToolContent_allItemsData, hcat]
    · intro k tc h
      subst hcat
      exact initToolContent_fresh s x k tc hOld h
    · rcases hmem with hmem | ⟨tc, htc⟩
      · rcases List.mem_cons.mp hmem with hx | hxs
        · subst hx
          right
          subst hcat
          exact initToolContent_creates s toolName td hfind
        · left; exact hxs
      · right; exact ⟨tc, initToolContent_keeps s x toolName tc htc⟩

theorem renderTools_fresh (s : GameState) (toolName : String) (toolData : ToolData)
    (hempty : s.toolContents = []) (hstage : toolName ∈ s.tools)
    (hcat : s.allItemsData.tools.find? (fun t => decide (t.name = toolName)) = some toolData) :
    objGet (renderTools s).toolContents toolName = some (freshToolContent toolData) := by
  unfold renderTools
  apply foldl_initToolContent_fresh s.allItemsData s.tools s rfl _ toolName toolData hcat
    (Or.inl hstage)
  intro k tc h
  rw [hempty] at h
  simp [objGet] at h

/-! ## C1: the capacity invariant -/

/-- Claim C1.  Start from the ledger `renderTools` builds on an empty `toolContents`, for a
stage tool whose catalog capacity is not negative.  After every finite sequence of drops
(on any tool element, with any payload) and resolutions (of any tool, with any
classification) the tool still has its ledger entry, its `usedCapacity` is the sum of the
sizes of its items, `usedCapacity` is at most `maxCapacity`, and `maxCapacity` is still
the catalog capacity (1000 for a capacity of 0). -/
theorem capacity_invariant (s0 : GameState) (events : List LedgerEvent) (toolName : String)
    (toolData : ToolData) (hempty : s0.toolContents = []) (hstage : toolName ∈ s0.tools)
    (hcat : s0.allItemsData.tools.find? (fun t => decide (t.name = toolName)) = some toolData)
    (hcap : 0 ≤ toolData.capacity) :
    ∃ tc, objGet (runLedger (renderTools s0) events).toolContents toolName = some tc ∧
      tc.usedCapacity = sumSizes tc.items ∧
      tc.usedCapacity ≤ tc.maxCapacity ∧
      tc.maxCapacity = (if toolData.capacity = 0 then 1000 else toolData.capacity) := by
  have hcap' : (0 : Int) ≤ (if toolData.capacity = 0 then 1000 else toolData.capacity) := by
    split
    · decide
    · exact hcap
  apply runLedger_ledgerOk _ hcap' toolName events (renderTools s0)
  refine ⟨freshToolContent toolData, renderTools_fresh s0 toolName toolData hempty hstage hcat,
    ?_, ?_, rfl⟩
  · simp [freshToolContent, sumSizes]
  · simpa [freshToolContent] using hcap'

theorem capacity_invariant_witness :
    (demoStage.toolContents = [] ∧ "平底锅" ∈ demoStage.tools ∧
      demoStage.allItemsData.tools.find? (fun t => decide (t.name = "平底锅")) =
        some { name := "平底锅", capacity := 250, fire := 2 } ∧ (0 : Int) ≤ 250) ∧
    ∃ tc, objGet (runLedger (renderTools demoStage) demoEvents).toolContents "平底锅" = some tc ∧
      tc.usedCapacity = sumSizes tc.items ∧
      tc.usedCapacity ≤ tc.maxCapacity ∧
      tc.maxCapacity = 250 :=
  ⟨by decide,
   capacity_invariant demoStage demoEvents "平底锅" { name := "平底锅", capacity := 250, fire := 2 }
     (by decide) (by decide) (by decide) (by decide)⟩

/-! ## C2: a drop beyond the capacity is rejected atomically -/

theorem addIngredientToTool_ne_capacityExceeded (i t : Nat) (size : Int) (s : GameState) :
    addIngredientToTool i t size s ≠
      .ok { s with alerts := s.alerts ++ [.capacityExceeded] } := by
  intro h
  unfold addIngredientToTool at h
  split at h
  · cases h
  · simp only at h
    split at h
    · have h' := congrArg (fun r => r.toOption.map (fun st => st.alerts)) h
      simp [Except.toOption] at h'
    · have h' := congrArg (fun r => r.toOption.map (fun st => st.alerts)) h
      simp only [Except.toOption, Option.map_some'] at h'
      rw [(updateProgress_frame _).2.2.2.2, updateToolCapacity] at h'
      revert h'
      split
      · simp
      · simp [(addNutrition_frame _ _).2.2.2]

/-- Claim C2.  For a drop of an ingredient payload on a tool that has a ledger entry:
when `usedCapacity + size` exceeds `maxCapacity` the handler only raises the capacity
alert, so the ledger (items, `usedCapacity`, `maxCapacity` of every tool), the stage
ingredients and the stored health are unchanged; when it does not, the handler is exactly
`addIngredientToTool`; and the drop is rejected for capacity iff
`usedCapacity + size > maxCapacity`. -/
theorem handleDrop_capacity (s : GameState) (data : DragData) (toolIndex : Nat)
    (toolName : String) (tc : ToolContent) (htype : data.type = "ingredient")
    (hget : objGet s.toolContents toolName = some tc) :
    (tc.maxCapacity < tc.usedCapacity + data.size →
      handleDrop data toolIndex toolName s =
        .ok { s with alerts := s.alerts ++ [.capacityExceeded] }) ∧
    (tc.usedCapacity + data.size ≤ tc.maxCapacity →
      handleDrop data toolIndex toolName s =
        addIngredientToTool data.index toolIndex data.size s) ∧
    (handleDrop data toolIndex toolName s =
        .ok { s with alerts := s.alerts ++ [.capacityExceeded] } ↔
      tc.maxCapacity < tc.usedCapacity + data.size) := by
  have hover : tc.maxCapacity < tc.usedCapacity + data.size →
      handleDrop data toolIndex toolName s =
        .ok { s with alerts := s.alerts ++ [.capacityExceeded] } := by
    intro h
    unfold handleDrop
    simp [htype, hget, not_le.mpr h]
  have hfit : tc.usedCapacity + data.size ≤ tc.maxCapacity →
      handleDrop data toolIndex toolName s =
        addIngredientToTool data.index toolIndex data.size s := by
    intro h
    unfold handleDrop
    simp [htype, hget, h]
  refine ⟨hover, hfit, ?_, hover⟩
  intro h
  by_contra hnot
  rw [hfit (not_lt.mp hnot)] at h
  exact addIngredientToTool_ne_capacityExceeded _ _ _ _ h

theorem handleDrop_capacity_witness :
    (eggDrag.type = "ingredient" ∧ objGet panWithTwoEggs.toolContents "平底锅" = some twoEggs) ∧
    ((twoEggs.maxCapacity < twoEggs.usedCapacity + eggDrag.size →
      handleDrop eggDrag 0 "平底锅" panWithTwoEggs =
        .ok { panWithTwoEggs with alerts := panWithTwoEggs.alerts ++ [.capacityExceeded] }) ∧
    (twoEggs.usedCapacity + eggDrag.size ≤ twoEggs.maxCapacity →
      handleDrop eggDrag 0 "平底锅" panWithTwoEggs =
        addIngredientToTool eggDrag.index 0 eggDrag.size panWithTwoEggs) ∧
    (handleDrop eggDrag 0 "平底锅" panWithTwoEggs =
        .ok { panWithTwoEggs with alerts := panWithTwoEggs.alerts ++ [.capacityExceeded] } ↔
      twoEggs.maxCapacity < twoEggs.usedCapacity + eggDrag.size)) :=
  ⟨by decide, handleDrop_capacity panWithTwoEggs eggDrag 0 "平底锅" twoEggs (by decide) (by decide)⟩

/-! ## C3: the quantity check of `addIngredientToTool` -/

/-- Claim C3.  For a stage ingredient whose quantity is a number `q`: when `q <= 0`,
`addIngredientToTool` only raises the quantity alert (no quantity, ledger entry or health
value changes); when `q >= 1` and the target tool has a ledger entry, the call succeeds,
the quantity becomes exactly `q - 1` (the other stage ingredients are untouched) and the
entry of the target tool gets exactly one more item, `{name, size}`, at the end (the
entries of the other tools are untouched). -/
theorem addIngredientToTool_quantity (s : GameState) (ingredientIndex toolIndex : Nat)
    (size : Int) (ingredient : StageIngredient) (q : Int)
    (hing : s.ingredients[ingredientIndex]? = some ingredient)
    (hq : ingredient.quantity = .num q) :
    (q ≤ 0 →
      addIngredientToTool ingredientIndex toolIndex size s =
        .ok { s with alerts := s.alerts ++ [.insufficientQuantity] }) ∧
    (1 ≤ q → ∀ toolName tc, s.tools[toolIndex]? = some toolName →
      objGet s.toolContents toolName = some tc →
      ∃ s', addIngredientToTool ingredientIndex toolIndex size s = .ok s' ∧
        s'.ingredients =
          s.ingredients.set ingredientIndex { ingredient with quantity := .num (q - 1) } ∧
        s'.toolContents = objSet s.toolContents toolName
          { tc with items := tc.items ++ [{ name := ingredient.name, size := size }],
                    usedCapacity := tc.usedCapacity + size }) := by
  constructor
  · intro hle
    unfold addIngredientToTool
    simp [hing, hq, currentQuantity, hle]
  · intro hpos toolName tc htool hget
    unfold addIngredientToTool
    have hnot : ¬ q ≤ 0 := by omega
    simp only [hing, hq, currentQuantity, hnot, if_false, htool, Option.getD_some]
    refine ⟨_, rfl, ?_, ?_⟩
    · rw [(updateProgress_frame _).2.1]
      unfold updateToolCapacity
      simp only [hget]
      rw [(addNutrition_frame _ _).2.1]
      simp [decrementQuantity]
    · rw [(updateProgress_frame _).1, updateToolCapacity_toolContents]
      simp [hget]

theorem addIngredientToTool_quantity_witness :
    (panWithTwoEggs.ingredients[0]? = some { name := "鸡蛋", quantity := .num 1 } ∧
      panWithTwoEggs.ingredients[2]? = some { name := "米饭", quantity := .num 0 }) ∧
    (((0 : Int) ≤ 0 →
      addIngredientToTool 2 1 120 panWithTwoEggs =
        .ok { panWithTwoEggs with alerts := panWithTwoEggs.alerts ++ [.insufficientQuantity] }) ∧
    ((1 : Int) ≤ 1 → ∀ toolName tc, panWithTwoEggs.tools[1]? = some toolName →
      objGet panWithTwoEggs.toolContents toolName = some tc →
      ∃ s', addIngredientToTool 0 1 100 panWithTwoEggs = .ok s' ∧
        s'.ingredients = panWithTwoEggs.ingredients.set 0 { name := "鸡蛋", quantity := .num (1 - 1) } ∧
        s'.toolContents = objSet panWithTwoEggs.toolContents toolName
          { tc with items := tc.items ++ [{ name := "鸡蛋", size := 100 }],
                    usedCapacity := tc.usedCapacity + 100 })) :=
  ⟨by decide,
   (addIngredientToTool_quantity panWithTwoEggs 2 1 120 { name := "米饭", quantity := .num 0 } 0
      (by decide) rfl).1,
   (addIngredientToTool_quantity panWithTwoEggs 0 1 100 { name := "鸡蛋", quantity := .num 1 } 1
      (by decide) rfl).2⟩

/-! ## The ingredient counts of `checkRecipeMatch` -/

theorem foldl_count_get (items : List Item) (acc : JsObj Int) (name : String) :
    objGet (items.foldl (fun acc item =>
        objSet acc item.name ((objGet acc item.name).getD 0 + 1)) acc) name =
      if (items.map (fun i => i.name)).count name = 0 then objGet acc name
      else some ((objGet acc name).getD 0 + ((items.map (fun i => i.name)).count name : Int)) := by
  induction items generalizing acc with
  | nil => simp
  | cons i rest ih =>
    simp only [List.foldl_cons, List.map_cons]
    rw [ih, objGet_objSet]
    by_cases hi : i.name = name
    · subst hi
      simp only [List.count_cons_self, if_true, Option.getD_some]
      by_cases hc : List.count i.name (rest.map (fun i => i.name)) = 0
      · simp [hc]
      · simp only [hc, if_false, Nat.succ_ne_zero, Nat.cast_add, Nat.cast_one]
        congr 1; ring
    · simp only [hi, if_false]
      rw [List.count_cons_of_ne (fun h => hi h.symm)]

theorem toolIngredientsOf_get (items : List Item) (name : String) :
    objGet (toolIngredientsOf items) name =
      if (items.map (fun i => i.name)).count name = 0 then none
      else some ((items.map (fun i => i.name)).count name : Int) := by
  unfold toolIngredientsOf
  rw [foldl_count_get]
  simp [objGet]

theorem toolIngredientsOf_get_eq_some (items : List Item) (name : String) (c : Int) :
    objGet (toolIngredientsOf items) name = some c ↔
      ((items.map (fun i => i.name)).count name : Int) = c ∧ name ∈ items.map (fun i => i.name) := by
  rw [toolIngredientsOf_get]
  by_cases hc : (items.map (fun i => i.name)).count name = 0
  · simp only [hc, if_true]
    have : name ∉ items.map (fun i => i.name) := List.count_eq_zero.mp hc
    simp [this]
  · simp only [hc, if_false]
    have : name ∈ items.map (fun i => i.name) := by
      by_contra h
      exact hc (List.count_eq_zero.mpr h)
    simp [this]

theorem mem_objKeys_toolIngredientsOf (items : List Item) (name : String) :
    name ∈ objKeys (toolIngredientsOf items) ↔ name ∈ items.map (fun i => i.name) := by
  rw [mem_objKeys]
  constructor
  · rintro ⟨v, hv⟩
    exact ((toolIngredientsOf_get_eq_some items name v).mp hv).2
  · intro h
    exact ⟨_, (toolIngredientsOf_get_eq_some items name _).mpr ⟨rfl, h⟩⟩

theorem objKeys_toolIngredientsOf_length (items : List Item) :
    (objKeys (toolIngredientsOf items)).length = (items.map (fun i => i.name)).toFinset.card := by
  rw [← List.toFinset_card_of_nodup (objKeys_nodup _)]
  congr 1
  ext name
  simp only [List.mem_toFinset]
  exact mem_objKeys_toolIngredientsOf items name

theorem objGet_mem {α : Type} (o : JsObj α) (k : String) (v : α) (h : objGet o k = some v) :
    (k, v) ∈ o := by
  induction o with
  | nil => simp [objGet] at h
  | cons p rest ih =>
    obtain ⟨a, b⟩ := p
    by_cases hk : a = k
    · subst hk
      simp [objGet] at h
      subst h
      exact List.mem_cons_self _ _
    · simp [objGet, hk] at h
      exact List.mem_cons_of_mem _ (ih h)


/-! ## C4: ordinary recipes match on exact multiset equality -/

theorem exactMatch_iff (items : List Item) (recipe : Recipe)
    (hpos : ∀ p ∈ recipe.input, 1 ≤ p.2) :
    exactMatch (toolIngredientsOf items) recipe = true ↔
      ((items.map (fun i => i.name)).toFinset.card = (objKeys recipe.input).length ∧
        ∀ name ∈ objKeys recipe.input,
          objGet recipe.input name = some ((items.map (fun i => i.name)).count name : Int)) := by
  unfold exactMatch
  simp only [Bool.and_eq_true, decide_eq_true_eq, List.all_eq_true,
    objKeys_toolIngredientsOf_length]
  apply and_congr_right
  intro _
  apply forall_congr'
  intro name
  apply imp_congr_right
  intro hname
  obtain ⟨c, hc⟩ := (mem_objKeys _ _).mp hname
  have hc1 : 1 ≤ c := hpos (name, c) (objGet_mem _ _ _ hc)
  rw [hc, toolIngredientsOf_get_eq_some]
  constructor
  · rintro ⟨h, _⟩; rw [h]
  · intro h
    have h' : ((items.map (fun i => i.name)).count name : Int) = c := (Option.some.inj h).symm
    refine ⟨h', ?_⟩
    by_contra hmem
    rw [List.count_eq_zero.mpr hmem] at h'
    simp at h'
    omega

theorem exact_condition_iff_multiset (names : List String) (input : JsObj Int)
    (hpos : ∀ p ∈ input, 1 ≤ p.2) :
    (names.toFinset.card = (objKeys input).length ∧
        ∀ name ∈ objKeys input, objGet input name = some (names.count name : Int)) ↔
      ∀ name, (names.count name : Int) = (objGet input name).getD 0 := by
  have hkeys : ∀ name, name ∉ objKeys input → objGet input name = none := by
    intro name h
    cases hg : objGet input name with
    | none => rfl
    | some v => exact absurd ((mem_objKeys _ _).mpr ⟨v, hg⟩) h
  constructor
  · rintro ⟨hcard, hall⟩ name
    have hsub : (objKeys input).toFinset ⊆ names.toFinset := by
      intro k hk
      rw [List.mem_toFinset] at hk ⊢
      obtain ⟨c, hc⟩ := (mem_objKeys _ _).mp hk
      have hc1 : 1 ≤ c := hpos (k, c) (objGet_mem _ _ _ hc)
      have := hall k hk
      rw [hc] at this
      have h' : (names.count k : Int) = c := (Option.some.inj this).symm
      by_contra hmem
      rw [List.count_eq_zero.mpr hmem] at h'
      simp at h'
      omega
    have heq : (objKeys input).toFinset = names.toFinset := by
      apply Finset.eq_of_subset_of_card_le hsub
      rw [List.toFinset_card_of_nodup (objKeys_nodup _), hcard]
    by_cases hk : name ∈ objKeys input
    · rw [hall name hk]; rfl
    · rw [hkeys name hk]
      have : name ∉ names := by
        intro hmem
        have : name ∈ names.toFinset := List.mem_toFinset.mpr hmem
        rw [← heq] at this
        exact hk (List.mem_toFinset.mp this)
      simp [List.count_eq_zero.mpr this]
  · intro h
    have hmem : ∀ name, name ∈ objKeys input ↔ name ∈ names := by
      intro name
      constructor
      · intro hk
        obtain ⟨c, hc⟩ := (mem_objKeys _ _).mp hk
        have hc1 : 1 ≤ c := hpos (name, c) (objGet_mem _ _ _ hc)
        have := h name
        rw [hc] at this
        by_contra hmem
        rw [List.count_eq_zero.mpr hmem] at this
        simp at this
        omega
      · intro hn
        by_contra hk
        have := h name
        rw [hkeys name hk] at this
        have hpos' : 0 < names.count name := List.count_pos_iff.mpr hn
        simp at this
        omega
    constructor
    · rw [← List.toFinset_card_of_nodup (objKeys_nodup input)]
      congr 1
      ext name
      simp only [List.mem_toFinset]
      exact (hmem name).symm
    · intro name hk
      obtain ⟨c, hc⟩ := (mem_objKeys _ _).mp hk
      rw [hc, h name, hc]; rfl

/-- Claim C4.  For a recipe that is not abstract, lists `toolName` among its tools and
requires every input at least once: the test `checkRecipeMatch` applies to it holds iff
the number of distinct item names equals the number of input names and every input name
occurs among the items exactly its required number of times; the matcher run on the
catalog holding just this recipe returns it under the same condition; and the condition
is the equality of the two multisets (every name occurs among the items as often as the
input requires, names that are no input not at all). -/
theorem exact_match_multiset (items : List Item) (recipe : Recipe) (toolName : String)
    (habs : recipe.abstract = false) (htool : toolName ∈ recipe.tool)
    (hpos : ∀ p ∈ recipe.input, 1 ≤ p.2) :
    (exactMatch (toolIngredientsOf items) recipe = true ↔
      ((items.map (fun i => i.name)).toFinset.card = (objKeys recipe.input).length ∧
        ∀ name ∈ objKeys recipe.input,
          objGet recipe.input name = some ((items.map (fun i => i.name)).count name : Int))) ∧
    (checkRecipeMatch (some [recipe]) items toolName = some { recipe := recipe } ↔
      ((items.map (fun i => i.name)).toFinset.card = (objKeys recipe.input).length ∧
        ∀ name ∈ objKeys recipe.input,
          objGet recipe.input name = some ((items.map (fun i => i.name)).count name : Int))) ∧
    (exactMatch (toolIngredientsOf items) recipe = true ↔
      ∀ name, ((items.map (fun i => i.name)).count name : Int) =
        (objGet recipe.input name).getD 0) := by
  have h1 := exactMatch_iff items recipe hpos
  refine ⟨h1, ?_, h1.trans (exact_condition_iff_multiset _ _ hpos)⟩
  rw [← h1]
  simp only [checkRecipeMatch, checkRecipes, htool, not_true_eq_false, if_false, habs]
  cases hex : exactMatch (toolIngredientsOf items) recipe <;> simp


theorem exact_match_multiset_witness :
    (friedEggRecipe.abstract = false ∧ "pan" ∈ friedEggRecipe.tool ∧
      ∀ p ∈ friedEggRecipe.input, 1 ≤ p.2) ∧
    checkRecipeMatch (some [friedEggRecipe]) eggSaltItems "pan" =
      some { recipe := friedEggRecipe } ∧
    checkRecipeMatch (some [friedEggRecipe])
      (eggSaltItems ++ [{ name := "oil", size := 5 }]) "pan" = none ∧
    (exactMatch (toolIngredientsOf eggSaltItems) friedEggRecipe = true ↔
      ∀ name, ((eggSaltItems.map (fun i => i.name)).count name : Int) =
        (objGet friedEggRecipe.input name).getD 0) :=
  ⟨by decide, by decide, by decide,
   (exact_match_multiset eggSaltItems friedEggRecipe "pan" (by decide) (by decide)
      (by decide)).2.2⟩


/-! ## C5: soundness of the wildcard binding -/

theorem foldl_objDelete_get {α : Type} (l : List String) (o : JsObj α) (k : String) :
    objGet (l.foldl objDelete o) k = if k ∈ l then none else objGet o k := by
  induction l generalizing o with
  | nil => simp
  | cons x xs ih =>
    simp only [List.foldl_cons]
    rw [ih, objGet_objDelete]
    by_cases h1 : k ∈ xs
    · simp [h1]
    · by_cases h2 : k = x
      · simp [h2]
      · simp [h1, h2]

theorem bindWildcards_sound (inputs : JsObj Int) (wkeys : List String) (hnd : wkeys.Nodup)
    (rem : JsObj Int) (wm res : JsObj String)
    (h : bindWildcards inputs wkeys rem wm = some res)
    (hfresh : ∀ k b, objGet wm k = some b → objGet rem b = none)
    (hinj : ∀ k1 k2 b, objGet wm k1 = some b → objGet wm k2 = some b → k1 = k2) :
    (∀ k, k ∉ wkeys → objGet res k = objGet wm k) ∧
    (∀ k ∈ wkeys, ∃ b c, objGet res k = some b ∧ objGet rem b = some c ∧
      objGet inputs k = some c) ∧
    (∀ k1 k2 b, objGet res k1 = some b → objGet res k2 = some b → k1 = k2) := by
  induction wkeys generalizing rem wm with
  | nil =>
    simp only [bindWildcards, Option.some.injEq] at h
    subst h
    exact ⟨fun _ _ => rfl, fun k hk => absurd hk (List.not_mem_nil k), hinj⟩
  | cons key rest ih =>
    simp only [bindWildcards] at h
    split at h
    · rename_i matched hfind
      split at h
      · cases h
      · have hmem := List.mem_of_find?_eq_some hfind
        have hprop := List.find?_some hfind
        simp only [Bool.and_eq_true, decide_eq_true_eq, Bool.not_eq_true',
          decide_eq_false_iff_not] at hprop
        obtain ⟨c, hc⟩ := (mem_objKeys _ _).mp hmem
        have hkey : objGet inputs key = some c := by rw [← hprop.1, hc]
        have hnd' := List.nodup_cons.mp hnd
        have hfresh' : ∀ k b, objGet (objSet wm key matched) k = some b →
            objGet (objDelete rem matched) b = none := by
          intro k b hk
          rw [objGet_objSet] at hk
          rw [objGet_objDelete]
          by_cases hkk : key = k
          · simp only [hkk, if_true, Option.some.injEq] at hk
            simp [hk]
          · simp only [hkk, if_false] at hk
            simp [hfresh k b hk]
        have hinj' : ∀ k1 k2 b, objGet (objSet wm key matched) k1 = some b →
            objGet (objSet wm key matched) k2 = some b → k1 = k2 := by
          intro k1 k2 b h1 h2
          rw [objGet_objSet] at h1 h2
          by_cases hk1 : key = k1
          · by_cases hk2 : key = k2
            · rw [← hk1, ← hk2]
            · simp only [hk1, if_true, Option.some.injEq] at h1
              simp only [hk2, if_false] at h2
              subst h1
              have := hfresh k2 matched h2
              rw [hc] at this
              cases this
          · by_cases hk2 : key = k2
            · simp only [hk2, if_true, Option.some.injEq] at h2
              simp only [hk1, if_false] at h1
              subst h2
              have := hfresh k1 matched h1
              rw [hc] at this
              cases this
            · simp only [hk1, if_false] at h1
              simp only [hk2, if_false] at h2
              exact hinj k1 k2 b h1 h2
        obtain ⟨ih1, ih2, ih3⟩ := ih hnd'.2 _ _ h hfresh' hinj'
        refine ⟨?_, ?_, ih3⟩
        · intro k hk
          rw [List.mem_cons, not_or] at hk
          rw [ih1 k hk.2, objGet_objSet_ne _ _ _ _ (fun h => hk.1 h.symm)]
        · intro k hk
          rcases List.mem_cons.mp hk with hk | hk
          · subst hk
            refine ⟨matched, c, ?_, hc, hkey⟩
            rw [ih1 k hnd'.1, objGet_objSet_self]
          · obtain ⟨b, c', hb, hrem, hin⟩ := ih2 k hk
            refine ⟨b, c', hb, ?_, hin⟩
            rw [objGet_objDelete] at hrem
            by_cases hbm : b = matched
            · simp [hbm] at hrem
            · simpa [hbm] using hrem
    · cases h

theorem abstractMatch_sound (toolIngredients : JsObj Int) (recipe : Recipe)
    (wildcardMap : JsObj String) (h : abstractMatch toolIngredients recipe = some wildcardMap) :
    (∀ name ∈ objKeys recipe.input, startsWithBrace name = false →
      objGet toolIngredients name = objGet recipe.input name) ∧
    (∀ key ∈ objKeys recipe.input, startsWithBrace key = true →
      ∃ bound c, objGet wildcardMap key = some bound ∧
        ¬ (bound ∈ objKeys recipe.input ∧ startsWithBrace bound = false) ∧
        objGet toolIngredients bound = some c ∧ objGet recipe.input key = some c) ∧
    (∀ key bound, objGet wildcardMap key = some bound →
      key ∈ objKeys recipe.input ∧ startsWithBrace key = true) ∧
    (∀ k1 k2 bound, objGet wildcardMap k1 = some bound → objGet wildcardMap k2 = some bound →
      k1 = k2) := by
  unfold abstractMatch at h
  simp only at h
  split at h
  · rename_i hall
    simp only [List.all_eq_true, List.mem_filter, Bool.not_eq_true', decide_eq_true_eq,
      and_imp] at hall
    have hnd : ((objKeys recipe.input).filter startsWithBrace).Nodup :=
      (objKeys_nodup _).filter _
    obtain ⟨h1, h2, h3⟩ := bindWildcards_sound recipe.input _ hnd _ [] wildcardMap h
      (by intro k b hk; simp [objGet] at hk) (by intro k1 k2 b hk; simp [objGet] at hk)
    refine ⟨hall, ?_, ?_, h3⟩
    · intro key hkey hbrace
      obtain ⟨b, c, hb, hrem, hin⟩ := h2 key (List.mem_filter.mpr ⟨hkey, hbrace⟩)
      rw [foldl_objDelete_get] at hrem
      refine ⟨b, c, hb, ?_, ?_, hin⟩
      · intro hlit
        have : b ∈ (objKeys recipe.input).filter (fun name => !startsWithBrace name) :=
          List.mem_filter.mpr ⟨hlit.1, by simp [hlit.2]⟩
        simp [this] at hrem
      · split at hrem
        · cases hrem
        · exact hrem
    · intro key bound hk
      by_contra hnot
      have hnotmem : key ∉ (objKeys recipe.input).filter startsWithBrace := by
        intro hm
        exact hnot (by simpa [List.mem_filter] using hm)
      rw [h1 key hnotmem] at hk
      simp [objGet] at hk
  · cases h


/-! ## The loop over the catalog -/

theorem checkRecipes_cons (toolIngredients : JsObj Int) (toolName : String) (r : Recipe)
    (rest : List Recipe) :
    checkRecipes toolIngredients toolName (r :: rest) =
      match recipeMatch toolIngredients toolName r with
      | some m => some m
      | none => checkRecipes toolIngredients toolName rest := by
  simp only [checkRecipes, recipeMatch]
  by_cases htool : toolName ∈ r.tool
  · simp only [htool, not_true_eq_false, if_false]
    by_cases habs : r.abstract = true
    · simp only [habs, if_true]
      cases abstractMatch toolIngredients r <;> rfl
    · simp only [habs]
      cases exactMatch toolIngredients r <;> rfl
  · simp [htool]

theorem checkRecipeMatch_eq_checkRecipes (recipes : List Recipe) (items : List Item)
    (toolName : String) :
    checkRecipeMatch (some recipes) items toolName =
      checkRecipes (toolIngredientsOf items) toolName recipes := by
  cases recipes with
  | nil => rfl
  | cons r rest => rfl

theorem checkRecipes_eq_none_iff (toolIngredients : JsObj Int) (toolName : String)
    (recipes : List Recipe) :
    checkRecipes toolIngredients toolName recipes = none ↔
      ∀ r ∈ recipes, recipeMatch toolIngredients toolName r = none := by
  induction recipes with
  | nil => simp [checkRecipes]
  | cons r rest ih =>
    rw [checkRecipes_cons]
    cases hr : recipeMatch toolIngredients toolName r with
    | none => simp [ih, hr]
    | some m => simp [hr]

theorem checkRecipes_eq_some_iff (toolIngredients : JsObj Int) (toolName : String)
    (recipes : List Recipe) (m : MatchedRecipe) :
    checkRecipes toolIngredients toolName recipes = some m ↔
      ∃ pre r post, recipes = pre ++ r :: post ∧
        recipeMatch toolIngredients toolName r = some m ∧
        ∀ r' ∈ pre, recipeMatch toolIngredients toolName r' = none := by
  induction recipes with
  | nil => simp [checkRecipes]
  | cons r rest ih =>
    rw [checkRecipes_cons]
    cases hr : recipeMatch toolIngredients toolName r with
    | none =>
      simp only
      rw [ih]
      constructor
      · rintro ⟨pre, r', post, hrec, hm, hpre⟩
        refine ⟨r :: pre, r', post, by simp [hrec], hm, ?_⟩
        intro x hx
        rcases List.mem_cons.mp hx with hx | hx
        · subst hx; exact hr
        · exact hpre x hx
      · rintro ⟨pre, r', post, hrec, hm, hpre⟩
        cases pre with
        | nil =>
          simp only [List.nil_append, List.cons.injEq] at hrec
          rw [← hrec.1, hr] at hm
          cases hm
        | cons p pre' =>
          simp only [List.cons_append, List.cons.injEq] at hrec
          exact ⟨pre', r', post, hrec.2, hm, fun x hx => hpre x (List.mem_cons_of_mem _ hx)⟩
    | some m' =>
      simp only [Option.some.injEq]
      constructor
      · intro h
        subst h
        exact ⟨[], r, rest, rfl, hr, fun x hx => absurd hx (List.not_mem_nil x)⟩
      · rintro ⟨pre, r', post, hrec, hm, hpre⟩
        cases pre with
        | nil =>
          simp only [List.nil_append, List.cons.injEq] at hrec
          rw [← hrec.1, hr] at hm
          exact Option.some.inj hm
        | cons p pre' =>
          simp only [List.cons_append, List.cons.injEq] at hrec
          have := hpre p (List.mem_cons_self _ _)
          rw [← hrec.1, hr] at this
          cases this

theorem recipeMatch_some (toolIngredients : JsObj Int) (toolName : String) (r : Recipe)
    (m : MatchedRecipe) (h : recipeMatch toolIngredients toolName r = some m) :
    m.recipe = r ∧ toolName ∈ r.tool ∧
    ((r.abstract = true ∧ ∃ wm, m.wildcardMap = some wm ∧
        abstractMatch toolIngredients r = some wm) ∨
      (r.abstract = false ∧ m.wildcardMap = none ∧ exactMatch toolIngredients r = true)) := by
  unfold recipeMatch at h
  split at h
  · cases h
  · rename_i htool
    rw [not_not] at htool
    split at h
    · rename_i habs
      cases hwm : abstractMatch toolIngredients r with
      | none => simp [hwm] at h
      | some wm =>
        simp only [hwm, Option.map_some', Option.some.injEq] at h
        subst h
        exact ⟨rfl, htool, Or.inl ⟨habs, wm, rfl, rfl⟩⟩
    · rename_i habs
      split at h
      · rename_i hex
        simp only [Option.some.injEq] at h
        subst h
        exact ⟨rfl, htool, Or.inr ⟨by simpa using habs, rfl, hex⟩⟩
      · cases h

/-- Claim C5.  Whenever `checkRecipeMatch` returns a recipe together with a `wildcardMap`:
the recipe is an abstract recipe of the catalog that lists the tool; (i) every input name
that does not start with a brace occurs among the items exactly its required number of
times; (ii) every input key that starts with a brace is bound, (iii) to a name that is
not a literal input, that is present among the items, and whose number of items is the
count the wildcard requires; the map binds nothing but wildcard keys; and (iv) no two
keys are bound to the same ingredient name. -/
theorem abstract_match_sound (recipes : Option (List Recipe)) (items : List Item)
    (toolName : String) (m : MatchedRecipe) (wildcardMap : JsObj String)
    (h : checkRecipeMatch recipes items toolName = some m)
    (hw : m.wildcardMap = some wildcardMap) :
    (m.recipe.abstract = true ∧ toolName ∈ m.recipe.tool ∧
      ∃ rs, recipes = some rs ∧ m.recipe ∈ rs) ∧
    (∀ name ∈ objKeys m.recipe.input, startsWithBrace name = false →
      objGet m.recipe.input name = some ((items.map (fun i => i.name)).count name : Int)) ∧
    (∀ key ∈ objKeys m.recipe.input, startsWithBrace key = true →
      ∃ bound, objGet wildcardMap key = some bound ∧
        ¬ (bound ∈ objKeys m.recipe.input ∧ startsWithBrace bound = false) ∧
        bound ∈ items.map (fun i => i.name) ∧
        objGet m.recipe.input key = some ((items.map (fun i => i.name)).count bound : Int)) ∧
    (∀ key bound, objGet wildcardMap key = some bound →
      key ∈ objKeys m.recipe.input ∧ startsWithBrace key = true) ∧
    (∀ k1 k2 bound, objGet wildcardMap k1 = some bound → objGet wildcardMap k2 = some bound →
      k1 = k2) := by
  cases recipes with
  | none => simp [checkRecipeMatch] at h
  | some rs =>
    rw [checkRecipeMatch_eq_checkRecipes, checkRecipes_eq_some_iff] at h
    obtain ⟨pre, r, post, hrs, hm, _⟩ := h
    obtain ⟨hrec, htool, hcase⟩ := recipeMatch_some _ _ _ _ hm
    subst hrec
    rcases hcase with ⟨habs, wm, hwm, hmatch⟩ | ⟨_, hnone, _⟩
    · rw [hw] at hwm
      cases hwm
      obtain ⟨h1, h2, h3, h4⟩ := abstractMatch_sound _ _ _ hmatch
      refine ⟨⟨habs, htool, rs, rfl, by simp [hrs]⟩, ?_, ?_, h3, h4⟩
      · intro name hname hlit
        obtain ⟨c, hc⟩ := (mem_objKeys _ _).mp hname
        have := h1 name hname hlit
        rw [hc, toolIngredientsOf_get_eq_some] at this
        rw [hc, this.1]
      · intro key hkey hbrace
        obtain ⟨bound, c, hb, hnot, hti, hin⟩ := h2 key hkey hbrace
        rw [toolIngredientsOf_get_eq_some] at hti
        exact ⟨bound, hb, hnot, hti.2, by rw [hin, hti.1]⟩
    · rw [hw] at hnone
      cases hnone

theorem abstract_match_sound_witness :
    (checkRecipeMatch (some [friedEggRecipe, friedRiceRecipe]) riceBeefItems "wok" =
        some { recipe := friedRiceRecipe, wildcardMap := some [("\x7bmeat\x7d", "beef")] }) ∧
    (∀ k1 k2 bound, objGet [("\x7bmeat\x7d", "beef")] k1 = some bound →
      objGet [("\x7bmeat\x7d", "beef")] k2 = some bound → k1 = k2) ∧
    (∀ key ∈ objKeys friedRiceRecipe.input, startsWithBrace key = true →
      ∃ bound, objGet [("\x7bmeat\x7d", "beef")] key = some bound ∧
        ¬ (bound ∈ objKeys friedRiceRecipe.input ∧ startsWithBrace bound = false) ∧
        bound ∈ riceBeefItems.map (fun i => i.name) ∧
        objGet friedRiceRecipe.input key =
          some ((riceBeefItems.map (fun i => i.name)).count bound : Int)) :=
  ⟨by decide,
   (abstract_match_sound (some [friedEggRecipe, friedRiceRecipe]) riceBeefItems "wok"
      { recipe := friedRiceRecipe, wildcardMap := some [("\x7bmeat\x7d", "beef")] }
      [("\x7bmeat\x7d", "beef")] (by decide) rfl).2.2.2.2,
   (abstract_match_sound (some [friedEggRecipe, friedRiceRecipe]) riceBeefItems "wok"
      { recipe := friedRiceRecipe, wildcardMap := some [("\x7bmeat\x7d", "beef")] }
      [("\x7bmeat\x7d", "beef")] (by decide) rfl).2.2.1⟩


/-! ## C6: catalog order and the tool filter -/

/-- Claim C6.  `checkRecipeMatch` returns `m` iff the catalog splits as
`pre ++ r :: post` where the test of the loop holds for `r` with value `m` and fails for
every recipe of `pre`: the first recipe in catalog order that passes wins, and recipes
that fail before it do not matter.  It returns `null` iff the test fails for every
recipe.  A returned recipe belongs to the catalog and lists `toolName`. -/
theorem checkRecipeMatch_first_in_catalog (recipes : List Recipe) (items : List Item)
    (toolName : String) :
    (∀ m, checkRecipeMatch (some recipes) items toolName = some m ↔
      ∃ pre r post, recipes = pre ++ r :: post ∧
        recipeMatch (toolIngredientsOf items) toolName r = some m ∧
        ∀ r' ∈ pre, recipeMatch (toolIngredientsOf items) toolName r' = none) ∧
    (checkRecipeMatch (some recipes) items toolName = none ↔
      ∀ r ∈ recipes, recipeMatch (toolIngredientsOf items) toolName r = none) ∧
    (∀ m, checkRecipeMatch (some recipes) items toolName = some m →
      m.recipe ∈ recipes ∧ toolName ∈ m.recipe.tool) := by
  refine ⟨?_, ?_, ?_⟩
  · intro m
    rw [checkRecipeMatch_eq_checkRecipes]
    exact checkRecipes_eq_some_iff _ _ _ _
  · rw [checkRecipeMatch_eq_checkRecipes]
    exact checkRecipes_eq_none_iff _ _ _
  · intro m h
    rw [checkRecipeMatch_eq_checkRecipes, checkRecipes_eq_some_iff] at h
    obtain ⟨pre, r, post, hrs, hm, _⟩ := h
    obtain ⟨hrec, htool, _⟩ := recipeMatch_some _ _ _ _ hm
    subst hrec
    exact ⟨by simp [hrs], htool⟩

theorem checkRecipeMatch_first_in_catalog_witness :
    checkRecipeMatch (some [friedEggRecipe, friedRiceRecipe]) riceBeefItems "wok" =
        some { recipe := friedRiceRecipe, wildcardMap := some [("\x7bmeat\x7d", "beef")] } ∧
    (friedRiceRecipe ∈ [friedEggRecipe, friedRiceRecipe] ∧ "wok" ∈ friedRiceRecipe.tool) :=
  ⟨by decide,
   (checkRecipeMatch_first_in_catalog [friedEggRecipe, friedRiceRecipe] riceBeefItems "wok").2.2
     { recipe := friedRiceRecipe, wildcardMap := some [("\x7bmeat\x7d", "beef")] } (by decide)⟩

/-! ## C7: an empty catalog never matches -/

/-- Claim C7.  With `recipes` still `null`, with the empty catalog, and in particular
with the catalog `loadRecipes` installs after a failed load, `checkRecipeMatch` returns
`null` for every item list and tool name; so it does for any catalog none of whose
recipes lists `toolName`.  The function is total: no input makes it raise. -/
theorem checkRecipeMatch_empty_catalog (items : List Item) (toolName : String) :
    checkRecipeMatch none items toolName = none ∧
    checkRecipeMatch (some []) items toolName = none ∧
    (∀ s, checkRecipeMatch (loadRecipes none s).recipes items toolName = none) ∧
    (∀ recipes : List Recipe, (∀ r ∈ recipes, toolName ∉ r.tool) →
      checkRecipeMatch (some recipes) items toolName = none) := by
  refine ⟨rfl, rfl, fun _ => rfl, ?_⟩
  intro recipes hall
  rw [checkRecipeMatch_eq_checkRecipes, checkRecipes_eq_none_iff]
  intro r hr
  simp [recipeMatch, hall r hr]

theorem checkRecipeMatch_empty_catalog_witness :
    (∀ r ∈ [friedEggRecipe, friedRiceRecipe], "bowl" ∉ r.tool) ∧
    checkRecipeMatch (some [friedEggRecipe, friedRiceRecipe]) eggSaltItems "bowl" = none :=
  ⟨by decide,
   (checkRecipeMatch_empty_catalog eggSaltItems "bowl").2.2.2 [friedEggRecipe, friedRiceRecipe]
     (by decide)⟩


/-! ## Cooking time -/

theorem startToolCooking_started (s : GameState) (toolName : String) (toolData : ToolData)
    (toolContents : ToolContent) (item : Item) (rest : List Item)
    (hfind : s.allItemsData.tools.find? (fun t => decide (t.name = toolName)) = some toolData)
    (hget : objGet s.toolContents toolName = some toolContents)
    (hitems : toolContents.items = item :: rest) :
    startToolCooking toolName s =
      { s with
        cookingProgress := objSet s.cookingProgress toolName
          { totalTime := cookingTimeOf s.allItemsData toolData item rest,
            remainingTime := cookingTimeOf s.allItemsData toolData item rest,
            isCooking := true },
        cookingTimers := objSet s.cookingTimers toolName s.nextTimerId,
        intervals := s.intervals ++ [(s.nextTimerId, toolName)],
        nextTimerId := s.nextTimerId + 1 } := by
  unfold startToolCooking
  simp only [hfind, hget, hitems]

theorem startToolCooking_empty (s : GameState) (toolName : String)
    (h : ∀ tc, objGet s.toolContents toolName = some tc → tc.items = []) :
    startToolCooking toolName s = s := by
  unfold startToolCooking
  split
  · rename_i toolData toolContents hfind hget
    rw [h toolContents hget]
  · rfl

theorem foldl_min_le_init (l : List Int) (a : Int) : l.foldl min a ≤ a := by
  induction l generalizing a with
  | nil => exact le_refl _
  | cons x xs ih => exact le_trans (ih _) (min_le_left _ _)

theorem foldl_min_le_mem (l : List Int) (a : Int) : ∀ x ∈ l, l.foldl min a ≤ x := by
  induction l generalizing a with
  | nil => intro x hx; cases hx
  | cons y ys ih =>
    intro x hx
    rcases List.mem_cons.mp hx with hx | hx
    · subst hx
      simp only [List.foldl_cons]
      exact le_trans (foldl_min_le_init _ _) (min_le_right _ _)
    · simp only [List.foldl_cons]
      exact ih _ x hx

theorem foldl_min_mem (l : List Int) (a : Int) : l.foldl min a = a ∨ l.foldl min a ∈ l := by
  induction l generalizing a with
  | nil => left; rfl
  | cons y ys ih =>
    simp only [List.foldl_cons]
    rcases ih (min a y) with h | h
    · rcases min_choice a y with h' | h'
      · left; rw [h, h']
      · right; rw [h, h']; exact List.mem_cons_self _ _
    · right; exact List.mem_cons_of_mem _ h

theorem minHeating_spec (cat : AllItemsData) (item : Item) (rest : List Item) :
    (∃ i ∈ item :: rest, heatingOf cat i = minHeating cat item rest) ∧
    (∀ i ∈ item :: rest, minHeating cat item rest ≤ heatingOf cat i) := by
  unfold minHeating
  constructor
  · rcases foldl_min_mem (rest.map (heatingOf cat)) (heatingOf cat item) with h | h
    · exact ⟨item, List.mem_cons_self _ _, h.symm⟩
    · obtain ⟨i, hi, hh⟩ := List.mem_map.mp h
      exact ⟨i, List.mem_cons_of_mem _ hi, hh⟩
  · intro i hi
    rcases List.mem_cons.mp hi with hi | hi
    · subst hi; exact foldl_min_le_init _ _
    · exact foldl_min_le_mem _ _ _ (List.mem_map_of_mem _ hi)

theorem round_pos_spec (a b : Int) (hb : 0 < b) :
    (((2 * a + b) / (2 * b) : Int) : ℚ) - 1 / 2 ≤ (a : ℚ) / b ∧
    (a : ℚ) / b < (((2 * a + b) / (2 * b) : Int) : ℚ) + 1 / 2 := by
  have hd : (0 : Int) < 2 * b := by omega
  have h1 : 2 * b * ((2 * a + b) / (2 * b)) ≤ 2 * a + b := Int.mul_ediv_self_le (ne_of_gt hd)
  have h2 : 2 * a + b < 2 * b * ((2 * a + b) / (2 * b)) + 2 * b := by
    have := Int.lt_ediv_add_one_mul_self (2 * a + b) hd
    linarith
  generalize (2 * a + b) / (2 * b) = r at h1 h2
  have hbq : (0 : ℚ) < b := by exact_mod_cast hb
  have h1q : (2 : ℚ) * b * r ≤ 2 * a + b := by exact_mod_cast h1
  have h2q : (2 : ℚ) * a + b < 2 * b * r + 2 * b := by exact_mod_cast h2
  constructor
  · rw [le_div_iff₀ hbq]
    linarith
  · rw [div_lt_iff₀ hbq]
    linarith

theorem mathRoundDiv_spec (a b : Int) (hb : b ≠ 0) :
    ∃ r : Int, mathRoundDiv a b = .fin r ∧
      (r : ℚ) - 1 / 2 ≤ (a : ℚ) / b ∧ (a : ℚ) / b < (r : ℚ) + 1 / 2 := by
  unfold mathRoundDiv
  simp only [hb, if_false]
  by_cases hpos : 0 < b
  · simp only [hpos, if_true]
    exact ⟨_, rfl, round_pos_spec a b hpos⟩
  · simp only [hpos, if_false]
    have hneg : 0 < -b := by omega
    refine ⟨_, rfl, ?_⟩
    have := round_pos_spec (-a) (-b) hneg
    have hq : ((-a : Int) : ℚ) / ((-b : Int) : ℚ) = (a : ℚ) / b := by
      push_cast
      rw [neg_div_neg_eq]
    rw [hq] at this
    exact this


/-! ## C8: a tool without a heat source cooks for ten seconds -/

/-- Claim C8.  For a catalog tool whose `fire` is -1 and whose ledger entry holds at least
one item, whatever the items are: `startToolCooking` records
`totalTime = remainingTime = 10` with `isCooking = true` for the tool, registers one new
interval for it under a fresh handle, and leaves the ledger as it is. -/
theorem startToolCooking_nonHeating (s : GameState) (toolName : String) (toolData : ToolData)
    (toolContents : ToolContent)
    (hfind : s.allItemsData.tools.find? (fun t => decide (t.name = toolName)) = some toolData)
    (hfire : toolData.fire = -1)
    (hget : objGet s.toolContents toolName = some toolContents)
    (hne : toolContents.items ≠ []) :
    objGet (startToolCooking toolName s).cookingProgress toolName =
      some { totalTime := .fin 10, remainingTime := .fin 10, isCooking := true } ∧
    objGet (startToolCooking toolName s).cookingTimers toolName = some s.nextTimerId ∧
    (startToolCooking toolName s).intervals = s.intervals ++ [(s.nextTimerId, toolName)] ∧
    (startToolCooking toolName s).toolContents = s.toolContents := by
  cases hitems : toolContents.items with
  | nil => exact absurd hitems hne
  | cons item rest =>
    rw [startToolCooking_started s toolName toolData toolContents item rest hfind hget hitems]
    simp [objGet_objSet_self, cookingTimeOf, hfire]

theorem startToolCooking_nonHeating_witness :
    (panEggRice.allItemsData.tools.find? (fun t => decide (t.name = "碗")) =
        some { name := "碗", capacity := 500, fire := -1 } ∧
      objGet panEggRice.toolContents "碗" = some oneEgg ∧ oneEgg.items ≠ []) ∧
    (objGet (startToolCooking "碗" panEggRice).cookingProgress "碗" =
      some { totalTime := .fin 10, remainingTime := .fin 10, isCooking := true } ∧
    objGet (startToolCooking "碗" panEggRice).cookingTimers "碗" = some panEggRice.nextTimerId ∧
    (startToolCooking "碗" panEggRice).intervals =
      panEggRice.intervals ++ [(panEggRice.nextTimerId, "碗")] ∧
    (startToolCooking "碗" panEggRice).toolContents = panEggRice.toolContents) :=
  ⟨by decide,
   startToolCooking_nonHeating panEggRice "碗" { name := "碗", capacity := 500, fire := -1 } oneEgg
     (by decide) (by decide) (by decide) (by decide)⟩

/-! ## C9: a heating tool cooks for the rounded quotient of the least heating constant -/

/-- Claim C9.  For a catalog tool whose `fire` is not -1 and whose ledger entry holds at
least one item, `startToolCooking` records `totalTime = remainingTime = t` with
`isCooking = true`, where `t` is `Math.round(m / fire)` and `m` is the least heating
constant of the items: `m` is the constant of some item and no item has a smaller one,
an item counting with the `heating` of its entry in `allItemsData.ingredients` and with
30 when it has no entry.  For `fire` other than 0, `t` is the integer `r` with
`r - 1/2 <= m / fire < r + 1/2`; for `fire = 0` it is the infinity of the sign of `m`,
or `NaN` when `m = 0`. -/
theorem startToolCooking_heating (s : GameState) (toolName : String) (toolData : ToolData)
    (toolContents : ToolContent)
    (hfind : s.allItemsData.tools.find? (fun t => decide (t.name = toolName)) = some toolData)
    (hfire : toolData.fire ≠ -1)
    (hget : objGet s.toolContents toolName = some toolContents)
    (hne : toolContents.items ≠ []) :
    ∃ (m : Int) (t : JsNum),
      objGet (startToolCooking toolName s).cookingProgress toolName =
        some { totalTime := t, remainingTime := t, isCooking := true } ∧
      (∃ i ∈ toolContents.items, heatingOf s.allItemsData i = m) ∧
      (∀ i ∈ toolContents.items, m ≤ heatingOf s.allItemsData i) ∧
      (∀ i : Item,
        (s.allItemsData.ingredients.find? (fun d => decide (d.name = i.name)) = none →
          heatingOf s.allItemsData i = 30) ∧
        (∀ d, s.allItemsData.ingredients.find? (fun d => decide (d.name = i.name)) = some d →
          heatingOf s.allItemsData i = d.heating)) ∧
      t = mathRoundDiv m toolData.fire ∧
      (toolData.fire ≠ 0 → ∃ r : Int, t = .fin r ∧
        (r : ℚ) - 1 / 2 ≤ (m : ℚ) / toolData.fire ∧ (m : ℚ) / toolData.fire < (r : ℚ) + 1 / 2) ∧
      (toolData.fire = 0 →
        t = if 0 < m then .posInf else if m < 0 then .negInf else .nan) := by
  cases hitems : toolContents.items with
  | nil => exact absurd hitems hne
  | cons item rest =>
    obtain ⟨hmem, hle⟩ := minHeating_spec s.allItemsData item rest
    refine ⟨minHeating s.allItemsData item rest,
      mathRoundDiv (minHeating s.allItemsData item rest) toolData.fire, ?_, hmem, hle, ?_, rfl,
      ?_, ?_⟩
    · rw [startToolCooking_started s toolName toolData toolContents item rest hfind hget hitems]
      simp [objGet_objSet_self, cookingTimeOf, hfire]
    · intro i
      constructor
      · intro h; simp [heatingOf, h]
      · intro d h; simp [heatingOf, h]
    · intro h0
      exact mathRoundDiv_spec _ _ h0
    · intro h0
      simp [mathRoundDiv, h0]

theorem startToolCooking_heating_witness :
    (panEggRice.allItemsData.tools.find? (fun t => decide (t.name = "平底锅")) =
        some { name := "平底锅", capacity := 250, fire := 2 } ∧
      (2 : Int) ≠ -1 ∧ objGet panEggRice.toolContents "平底锅" = some eggAndRice ∧
      eggAndRice.items ≠ [] ∧
      eggAndRice.items.map (heatingOf panEggRice.allItemsData) = [40, 60]) ∧
    objGet (startToolCooking "平底锅" panEggRice).cookingProgress "平底锅" =
      some { totalTime := .fin 20, remainingTime := .fin 20, isCooking := true } ∧
    (∃ (m : Int) (t : JsNum),
      objGet (startToolCooking "平底锅" panEggRice).cookingProgress "平底锅" =
        some { totalTime := t, remainingTime := t, isCooking := true } ∧
      (∃ i ∈ eggAndRice.items, heatingOf panEggRice.allItemsData i = m) ∧
      (∀ i ∈ eggAndRice.items, m ≤ heatingOf panEggRice.allItemsData i) ∧
      t = mathRoundDiv m 2) :=
  ⟨by decide, by decide,
   match startToolCooking_heating panEggRice "平底锅" { name := "平底锅", capacity := 250, fire := 2 }
      eggAndRice (by decide) (by decide) (by decide) (by decide) with
   | ⟨m, t, h1, h2, h3, _, h5, _⟩ => ⟨m, t, h1, h2, h3, h5⟩⟩

/-! ## C10: starting a tool that is already cooking -/

/-- The guard `startToolCooking` does have: on a tool without a ledger entry or with an
empty one it changes nothing. -/
theorem startToolCooking_noop_when_empty (s : GameState) (toolName : String) :
    (objGet s.toolContents toolName = none → startToolCooking toolName s = s) ∧
    (∀ tc, objGet s.toolContents toolName = some tc → tc.items = [] →
      startToolCooking toolName s = s) := by
  constructor
  · intro h
    exact startToolCooking_empty s toolName (by intro tc htc; rw [h] at htc; cases htc)
  · intro tc htc hempty
    exact startToolCooking_empty s toolName
      (by intro tc' htc'; rw [htc] at htc'; cases htc'; exact hempty)

/-- Claim C10 fails on the code.  The state `panCooking` is reached from
`panWithTwoEggs` by starting the pan and letting its interval fire fifteen times: the pan
is cooking, 5 of its 20 seconds are left, its timer has handle 1.  `startToolCooking` on
it resets `remainingTime` from 5 to 20, registers a second interval (handle 2) and
overwrites the stored handle, so the first interval is never cleared; `startAllCooking`,
which tests `!this.cookingTimers[toolName]` first, leaves the same state untouched. -/
theorem startToolCooking_restarts_cooking_tool :
    Nat.iterate (updateToolCooking "平底锅") 15 (startToolCooking "平底锅" panWithTwoEggs) =
      panCooking ∧
    objGet panCooking.cookingProgress "平底锅" =
      some { totalTime := .fin 20, remainingTime := .fin 5, isCooking := true } ∧
    objGet panCooking.cookingTimers "平底锅" = some 1 ∧
    panCooking.intervals = [(1, "平底锅")] ∧
    objGet (startToolCooking "平底锅" panCooking).cookingProgress "平底锅" =
      some { totalTime := .fin 20, remainingTime := .fin 20, isCooking := true } ∧
    objGet (startToolCooking "平底锅" panCooking).cookingTimers "平底锅" = some 2 ∧
    (startToolCooking "平底锅" panCooking).intervals = [(1, "平底锅"), (2, "平底锅")] ∧
    startToolCooking "平底锅" panCooking ≠ panCooking ∧
    startAllCooking panCooking = panCooking := by
  decide

/-! ## Fields a resolution leaves alone -/

theorem showCompletionModal_cookingProgress (s : GameState) :
    (showCompletionModal s).cookingProgress = s.cookingProgress ∧
    (showCompletionModal s).recipes = s.recipes ∧
    (showCompletionModal s).allItemsData = s.allItemsData := by
  unfold showCompletionModal
  cases s.progress.round <;> cases recipeBookOf s.reward <;> simp
  split <;> simp

theorem updateProgress_cookingProgress (s : GameState) :
    (updateProgress s).cookingProgress = s.cookingProgress ∧
    (updateProgress s).recipes = s.recipes ∧
    (updateProgress s).allItemsData = s.allItemsData := by
  unfold updateProgress
  split
  · simp
  · simp only
    split
    · exact showCompletionModal_cookingProgress _
    · simp

theorem foldl_cookingProgress {β : Type} (g : GameState → β → GameState)
    (hg : ∀ st x, (g st x).cookingProgress = st.cookingProgress) (l : List β) (s : GameState) :
    (l.foldl g s).cookingProgress = s.cookingProgress := by
  induction l generalizing s with
  | nil => rfl
  | cons x xs ih => simp only [List.foldl_cons]; rw [ih, hg]

theorem returnOutcome_cookingProgress (toolName : String) (isCooked : Int) (items : List Item)
    (s : GameState) :
    (returnOutcome toolName isCooked items s).cookingProgress = s.cookingProgress := by
  have hrecipe : ∀ m, (returnRecipeOutput m s).cookingProgress = s.cookingProgress := by
    intro m
    unfold returnRecipeOutput
    simp only
    rw [(updateProgress_cookingProgress _).1]
    apply foldl_cookingProgress
    intro st x
    split <;> rfl
  unfold returnOutcome
  split
  · split
    · exact hrecipe _
    · unfold returnCookedIngredients
      simp only
      rw [(updateProgress_cookingProgress _).1]
      apply foldl_cookingProgress
      intro st x
      rfl
  · split
    · split
      · exact hrecipe _
      · unfold returnRawIngredients
        simp only
        apply foldl_cookingProgress
        intro st x
        rfl
    · rfl

theorem finishToolCooking_cookingProgress (toolName : String) (isCooked : Int) (s : GameState) :
    (finishToolCooking toolName isCooked s).cookingProgress = s.cookingProgress := by
  have hclear : (clearCookingTimer toolName s).cookingProgress = s.cookingProgress := by
    unfold clearCookingTimer
    split
    · split <;> rfl
    · rfl
  unfold finishToolCooking
  simp only
  split
  · exact hclear
  · simp only
    rw [returnOutcome_cookingProgress, hclear]

/-! ## C11: one tick of a cooking tool -/

/-- Claim C11.  For a tool whose cooking-progress record is marked as cooking and has a
finite `remainingTime = r`: `updateToolCooking` stores `remainingTime = r - 1` and leaves
`totalTime` and `isCooking` as they are.  When `r - 1 <= 0` the call is the resolution
`finishToolCooking` of the tool, with code 2 (raw) if the catalog entry of the tool has
`fire = -1` and with code 0 (burned) otherwise; when `r - 1 > 0` nothing else changes, so
the ledger and the stage ingredients are those of before. -/
theorem updateToolCooking_tick (s : GameState) (toolName : String) (progress : CookingProgress)
    (r : Int) (hget : objGet s.cookingProgress toolName = some progress)
    (hcooking : progress.isCooking = true) (hr : progress.remainingTime = .fin r) :
    objGet (updateToolCooking toolName s).cookingProgress toolName =
      some ⟨progress.totalTime, .fin (r - 1), true⟩ ∧
    (r - 1 ≤ 0 →
      (∀ toolData, s.allItemsData.tools.find? (fun t => decide (t.name = toolName)) =
          some toolData → toolData.fire = -1 →
        updateToolCooking toolName s = finishToolCooking toolName 2
          { s with cookingProgress :=
                objSet s.cookingProgress toolName ⟨progress.totalTime, .fin (r - 1), true⟩ }) ∧
      ((∀ toolData, s.allItemsData.tools.find? (fun t => decide (t.name = toolName)) =
          some toolData → toolData.fire ≠ -1) →
        updateToolCooking toolName s = finishToolCooking toolName 0
          { s with cookingProgress :=
                objSet s.cookingProgress toolName ⟨progress.totalTime, .fin (r - 1), true⟩ })) ∧
    (0 < r - 1 →
      updateToolCooking toolName s =
        { s with cookingProgress :=
                objSet s.cookingProgress toolName ⟨progress.totalTime, .fin (r - 1), true⟩ } ∧
      (updateToolCooking toolName s).toolContents = s.toolContents ∧
      (updateToolCooking toolName s).ingredients = s.ingredients) := by
  have hdec : progress.remainingTime.decrement = .fin (r - 1) := by rw [hr]; rfl
  have hrec : ({ progress with remainingTime := .fin (r - 1) } : CookingProgress) =
      ⟨progress.totalTime, .fin (r - 1), true⟩ := by
    rw [← hcooking]
  refine ⟨?_, ?_, ?_⟩
  · unfold updateToolCooking
    simp only [hget, hcooking, if_true, hdec]
    split
    · rw [finishToolCooking_cookingProgress]
      simp only [objGet_objSet_self, hrec]
    · simp only [objGet_objSet_self, hrec]
  · intro hle
    have hz : (JsNum.fin (r - 1)).leZero = true := by simp [JsNum.leZero, hle]
    constructor
    · intro toolData hfind hfire
      unfold updateToolCooking
      simp [hget, hcooking, hdec, hz, hfind, hfire]
    · intro hall
      unfold updateToolCooking
      simp only [hget, hcooking, if_true, hdec, hz]
      cases hfind : s.allItemsData.tools.find? (fun t => decide (t.name = toolName)) with
      | none => simp
      | some toolData => simp [hall toolData hfind]
  · intro hpos
    have hz : (JsNum.fin (r - 1)).leZero = false := by
      simp [JsNum.leZero]; omega
    have heq : updateToolCooking toolName s =
        { s with cookingProgress :=
                objSet s.cookingProgress toolName ⟨progress.totalTime, .fin (r - 1), true⟩ } := by
      unfold updateToolCooking
      simp [hget, hcooking, hdec, hz]
    exact ⟨heq, by rw [heq], by rw [heq]⟩

theorem updateToolCooking_tick_witness :
    (objGet panCooking.cookingProgress "平底锅" = some ⟨.fin 20, .fin 5, true⟩ ∧
      objGet panMatchingLastSecond.cookingProgress "平底锅" = some ⟨.fin 20, .fin 1, true⟩) ∧
    (updateToolCooking "平底锅" panCooking =
        { panCooking with cookingProgress := [("平底锅", ⟨.fin 20, .fin 4, true⟩)] } ∧
      (updateToolCooking "平底锅" panCooking).toolContents = panCooking.toolContents ∧
      (updateToolCooking "平底锅" panCooking).ingredients = panCooking.ingredients) ∧
    updateToolCooking "平底锅" panMatchingLastSecond =
      finishToolCooking "平底锅" 0
        { panMatchingLastSecond with cookingProgress := [("平底锅", ⟨.fin 20, .fin 0, true⟩)] } :=
  ⟨by decide,
   (updateToolCooking_tick panCooking "平底锅" ⟨.fin 20, .fin 5, true⟩ 5 (by decide) rfl rfl).2.2
     (by decide),
   ((updateToolCooking_tick panMatchingLastSecond "平底锅" ⟨.fin 20, .fin 1, true⟩ 1 (by decide)
     rfl rfl).2.1 (by decide)).2
     (by
       intro toolData h
       have hpan : panMatchingLastSecond.allItemsData.tools.find?
           (fun t => decide (t.name = "平底锅")) =
           some { name := "平底锅", capacity := 250, fire := 2 } := by decide
       rw [hpan] at h
       cases h
       decide)⟩

/-! ## C12: the classification of an interruption -/

theorem percent_ratio_atLeast30 (r t : Int) (ht : 0 < t) :
    (30 : ℚ) ≤ (r : ℚ) / t * 100 ↔ 30 * t ≤ 100 * r := by
  have htq : (0 : ℚ) < t := by exact_mod_cast ht
  rw [div_mul_eq_mul_div, le_div_iff₀ htq]
  constructor
  · intro h
    have : ((30 * t : Int) : ℚ) ≤ ((100 * r : Int) : ℚ) := by push_cast; linarith
    exact_mod_cast this
  · intro h
    have : ((30 * t : Int) : ℚ) ≤ ((100 * r : Int) : ℚ) := by exact_mod_cast h
    push_cast at this
    linarith

theorem percent_ratio_positive (r t : Int) (ht : 0 < t) :
    (0 : ℚ) < (r : ℚ) / t * 100 ↔ 0 < r := by
  have htq : (0 : ℚ) < t := by exact_mod_cast ht
  rw [div_mul_eq_mul_div, lt_div_iff₀ htq]
  constructor
  · intro h
    have : (0 : ℚ) < (r : ℚ) := by linarith
    exact_mod_cast this
  · intro h
    have : (0 : ℚ) < (r : ℚ) := by exact_mod_cast h
    linarith

/-- Claim C12.  For a tool marked as cooking with finite `remainingTime = r` and
`totalTime = t > 0`, and `p = r / t * 100`: `dumpToolIngredients` is the resolution
`finishToolCooking` with the code computed from `p`, and that code is 2 (raw) iff
`p >= 30`, 1 (cooked) iff `0 < p < 30`, and 0 (burned) iff `p <= 0`; the three conditions
exclude one another and one of them always holds. -/
theorem dumpToolIngredients_classification (s : GameState) (toolName : String)
    (progress : CookingProgress) (r t : Int)
    (hget : objGet s.cookingProgress toolName = some progress)
    (hcooking : progress.isCooking = true) (hr : progress.remainingTime = .fin r)
    (ht : progress.totalTime = .fin t) (htpos : 0 < t) :
    dumpToolIngredients toolName s =
      finishToolCooking toolName (dumpClassification (percentRemaining (.fin r) (.fin t))) s ∧
    (dumpClassification (percentRemaining (.fin r) (.fin t)) = 2 ↔
      (30 : ℚ) ≤ (r : ℚ) / t * 100) ∧
    (dumpClassification (percentRemaining (.fin r) (.fin t)) = 1 ↔
      (0 : ℚ) < (r : ℚ) / t * 100 ∧ (r : ℚ) / t * 100 < 30) ∧
    (dumpClassification (percentRemaining (.fin r) (.fin t)) = 0 ↔
      (r : ℚ) / t * 100 ≤ 0) := by
  have hp : percentRemaining (.fin r) (.fin t) = .ratio (100 * r) t := by
    simp [percentRemaining, ne_of_gt htpos, htpos]
  have h30 := percent_ratio_atLeast30 r t htpos
  have h0 := percent_ratio_positive r t htpos
  have hlt : (r : ℚ) / t * 100 < 30 ↔ ¬ 30 * t ≤ 100 * r := by rw [← h30, not_le]
  have hle : (r : ℚ) / t * 100 ≤ 0 ↔ ¬ 0 < r := by rw [← h0, not_lt]
  refine ⟨?_, ?_, ?_, ?_⟩
  · unfold dumpToolIngredients
    simp [hget, hcooking, hr, ht]
  · rw [hp, h30]
    simp only [dumpClassification, Percent.atLeast30, Percent.below30, Percent.positive]
    by_cases h1 : 30 * t ≤ 100 * r
    · simp [h1]
    · by_cases h2 : 0 < r
      · have h3 : 100 * r < 30 * t := by omega
        simp [h1, h2, h3]
      · simp [h1, h2]
  · rw [hp, h0, hlt]
    simp only [dumpClassification, Percent.atLeast30, Percent.below30, Percent.positive]
    by_cases h1 : 30 * t ≤ 100 * r
    · simp [h1]
    · by_cases h2 : 0 < r
      · have h3 : 100 * r < 30 * t := by omega
        simp [h1, h2, h3]
      · simp [h1, h2]
  · rw [hp, hle]
    simp only [dumpClassification, Percent.atLeast30, Percent.below30, Percent.positive]
    by_cases h1 : 30 * t ≤ 100 * r
    · have h2 : 0 < r := by omega
      simp [h1, h2]
    · by_cases h2 : 0 < r
      · have h3 : 100 * r < 30 * t := by omega
        simp [h1, h2, h3]
      · simp [h1, h2]

theorem dumpToolIngredients_classification_witness :
    (objGet panCooking.cookingProgress "平底锅" = some ⟨.fin 20, .fin 5, true⟩ ∧ (0 : Int) < 20) ∧
    (dumpClassification (percentRemaining (.fin 6) (.fin 20)) = 2 ∧
      dumpClassification (percentRemaining (.fin 5) (.fin 20)) = 1 ∧
      dumpClassification (percentRemaining (.fin 0) (.fin 20)) = 0) ∧
    dumpToolIngredients "平底锅" panCooking =
      finishToolCooking "平底锅" (dumpClassification (percentRemaining (.fin 5) (.fin 20)))
        panCooking :=
  ⟨by decide, by decide,
   (dumpToolIngredients_classification panCooking "平底锅" ⟨.fin 20, .fin 5, true⟩ 5 20
     (by decide) rfl rfl rfl (by decide)).1⟩

/-! ## C13: a dump after the tool has resolved -/

/-- The guard `dumpToolIngredients` does have: a tool without a cooking-progress record,
or with a record not marked as cooking, is left alone. -/
theorem dumpToolIngredients_noop_without_progress (s : GameState) (toolName : String) :
    (objGet s.cookingProgress toolName = none → dumpToolIngredients toolName s = s) ∧
    (∀ progress, objGet s.cookingProgress toolName = some progress →
      progress.isCooking = false → dumpToolIngredients toolName s = s) := by
  constructor
  · intro h
    simp [dumpToolIngredients, h]
  · intro progress h hcooking
    simp [dumpToolIngredients, h, hcooking]

/-- Claim C13 fails on the code.  From `panWithTwoEggs` the pan is started and its interval
fires twenty times, which resolves it (burned) and clears its timer; the record
`cookingProgress["平底锅"]` is still there and still says `isCooking: true`.  After one
more egg is dropped into the pan, `dumpToolIngredients` is not a no-op: it resolves the pan
again on the stale record (0 of 20 seconds left, burned), empties the pan and turns the new
egg into a third unit of burned food. -/
theorem dumpToolIngredients_after_resolution :
    objGet (Nat.iterate (updateToolCooking "平底锅") 20
        (startToolCooking "平底锅" panWithTwoEggs)).cookingTimers "平底锅" = none ∧
    objGet (Nat.iterate (updateToolCooking "平底锅") 20
        (startToolCooking "平底锅" panWithTwoEggs)).toolContents "平底锅" =
      some { items := [], usedCapacity := 0, maxCapacity := 250 } ∧
    objGet (Nat.iterate (updateToolCooking "平底锅") 20
        (startToolCooking "平底锅" panWithTwoEggs)).cookingProgress "平底锅" =
      some ⟨.fin 20, .fin 0, true⟩ ∧
    objGet (LedgerEvent.apply (Nat.iterate (updateToolCooking "平底锅") 20
        (startToolCooking "平底锅" panWithTwoEggs)) (.drop eggDrag 0)).toolContents "平底锅" =
      some { items := [{ name := "鸡蛋", size := 100 }], usedCapacity := 100, maxCapacity := 250 } ∧
    quantityOf (LedgerEvent.apply (Nat.iterate (updateToolCooking "平底锅") 20
        (startToolCooking "平底锅" panWithTwoEggs)) (.drop eggDrag 0)).ingredients "烤焦的食物" =
      some (.num 2) ∧
    objGet (dumpToolIngredients "平底锅" (LedgerEvent.apply
        (Nat.iterate (updateToolCooking "平底锅") 20 (startToolCooking "平底锅" panWithTwoEggs))
        (.drop eggDrag 0))).toolContents "平底锅" =
      some { items := [], usedCapacity := 0, maxCapacity := 250 } ∧
    quantityOf (dumpToolIngredients "平底锅" (LedgerEvent.apply
        (Nat.iterate (updateToolCooking "平底锅") 20 (startToolCooking "平底锅" panWithTwoEggs))
        (.drop eggDrag 0))).ingredients "烤焦的食物" = some (.num 3) := by
  decide

/-! ## C20: a resolution clears the tool and no other -/

/-- Claim C20.  For every tool and every classification code, matched recipe or not:
when the tool has a ledger entry, after `finishToolCooking` that entry has no items,
`usedCapacity = 0` and the `maxCapacity` it had, and the entry of every other tool is the
one of before; when it has none, the ledger is left as it is. -/
theorem finishToolCooking_clears_tool (s : GameState) (toolName : String) (isCooked : Int) :
    (∀ tc, objGet s.toolContents toolName = some tc →
      objGet (finishToolCooking toolName isCooked s).toolContents toolName =
        some { items := [], usedCapacity := 0, maxCapacity := tc.maxCapacity } ∧
      (∀ other, other ≠ toolName →
        objGet (finishToolCooking toolName isCooked s).toolContents other =
          objGet s.toolContents other)) ∧
    (objGet s.toolContents toolName = none →
      (finishToolCooking toolName isCooked s).toolContents = s.toolContents) := by
  constructor
  · intro tc hget
    rw [finishToolCooking_toolContents, hget]
    simp only
    refine ⟨objGet_objSet_self _ _ _, ?_⟩
    intro other hne
    exact objGet_objSet_ne _ _ _ _ (Ne.symm hne)
  · intro hget
    rw [finishToolCooking_toolContents, hget]

theorem finishToolCooking_clears_tool_witness :
    objGet panMatching.toolContents "平底锅" = some twoEggs ∧
    (objGet (finishToolCooking "平底锅" 1 panMatching).toolContents "平底锅" =
      some { items := [], usedCapacity := 0, maxCapacity := twoEggs.maxCapacity } ∧
    (∀ other, other ≠ "平底锅" →
      objGet (finishToolCooking "平底锅" 1 panMatching).toolContents other =
        objGet panMatching.toolContents other)) :=
  ⟨by decide, (finishToolCooking_clears_tool panMatching "平底锅" 1).1 twoEggs (by decide)⟩

/-! ## Crediting a stage ingredient -/

theorem quantityOf_addStageIngredient_self (ings : List StageIngredient) (name : String)
    (k : Int) :
    quantityOf (addStageIngredient ings name k) name =
      some (match quantityOf ings name with
        | none => .num k
        | some q => q.orZeroPlus k) := by
  induction ings with
  | nil => simp [addStageIngredient, quantityOf]
  | cons i rest ih =>
    by_cases h : i.name = name
    · simp [addStageIngredient, quantityOf, h]
    · simp only [addStageIngredient, h, if_false]
      simp only [quantityOf, List.find?_cons, h, decide_False] at ih ⊢
      exact ih

theorem quantityOf_addStageIngredient_other (ings : List StageIngredient) (name other : String)
    (k : Int) (hne : other ≠ name) :
    quantityOf (addStageIngredient ings name k) other = quantityOf ings other := by
  induction ings with
  | nil => simp [addStageIngredient, quantityOf, Ne.symm hne]
  | cons i rest ih =>
    by_cases h : i.name = name
    · have h' : i.name ≠ other := by rw [h]; exact Ne.symm hne
      simp [addStageIngredient, quantityOf, h, h', Ne.symm hne]
    · simp only [addStageIngredient, h, if_false]
      by_cases h' : i.name = other
      · simp [quantityOf, h']
      · simp only [quantityOf, List.find?_cons, h', decide_False] at ih ⊢
        exact ih

theorem filter_addStageIngredient_other (ings : List StageIngredient) (name other : String)
    (k : Int) (hne : other ≠ name) :
    (addStageIngredient ings name k).filter (fun i => decide (i.name = other)) =
      ings.filter (fun i => decide (i.name = other)) := by
  induction ings with
  | nil => simp [addStageIngredient, Ne.symm hne]
  | cons i rest ih =>
    by_cases h : i.name = name
    · have h' : i.name ≠ other := by rw [h]; exact Ne.symm hne
      simp [addStageIngredient, h, h', Ne.symm hne]
    · simp only [addStageIngredient, h, if_false]
      by_cases h' : i.name = other
      · simp [List.filter_cons, h', ih]
      · simp [List.filter_cons, h', ih]

theorem addStageIngredient_absent (ings : List StageIngredient) (name : String) (k : Int)
    (h : quantityOf ings name = none) :
    addStageIngredient ings name k = ings ++ [{ name := name, quantity := .num k }] := by
  induction ings with
  | nil => rfl
  | cons i rest ih =>
    by_cases hi : i.name = name
    · simp [quantityOf, hi] at h
    · simp only [quantityOf, List.find?_cons, hi, decide_False] at h
      simp only [addStageIngredient, hi, if_false, List.cons_append]
      rw [ih h]

theorem addStageIngredient_present (pre post : List StageIngredient) (i : StageIngredient)
    (name : String) (k : Int) (hpre : ∀ j ∈ pre, j.name ≠ name) (hi : i.name = name) :
    addStageIngredient (pre ++ i :: post) name k =
      pre ++ { i with quantity := i.quantity.orZeroPlus k } :: post := by
  induction pre with
  | nil => simp [addStageIngredient, hi]
  | cons j rest ih =>
    have hj : j.name ≠ name := hpre j (List.mem_cons_self _ _)
    have ih' := ih (fun x hx => hpre x (List.mem_cons_of_mem _ hx))
    simp only [List.cons_append, addStageIngredient, hj, if_false]
    exact congrArg (List.cons j) ih'

theorem addStageIngredient_names (ings : List StageIngredient) (name : String) (k : Int)
    (q : Quantity) (h : quantityOf ings name = some q) :
    (addStageIngredient ings name k).map (fun i => i.name) = ings.map (fun i => i.name) := by
  induction ings with
  | nil => simp [quantityOf] at h
  | cons i rest ih =>
    by_cases hi : i.name = name
    · simp [addStageIngredient, hi]
    · simp only [quantityOf, List.find?_cons, hi, decide_False] at h
      simp only [addStageIngredient, hi, if_false, List.map_cons]
      rw [ih h]

/-! ## The stage ingredients after each resolver method -/

theorem foldl_ingredients {β : Type} (f : List StageIngredient → β → List StageIngredient)
    (g : GameState → β → GameState)
    (hg : ∀ st x, (g st x).ingredients = f st.ingredients x) (l : List β) (s : GameState) :
    (l.foldl g s).ingredients = l.foldl f s.ingredients := by
  induction l generalizing s with
  | nil => rfl
  | cons x xs ih => simp only [List.foldl_cons]; rw [ih, hg]

theorem returnRecipeOutput_ingredients (m : MatchedRecipe) (s : GameState) :
    (returnRecipeOutput m s).ingredients = creditOutputs m s.ingredients := by
  unfold returnRecipeOutput creditOutputs
  simp only
  rw [(updateProgress_frame _).2.1]
  apply foldl_ingredients
  intro st x
  split <;> rfl

theorem returnCookedIngredients_ingredients (items : List Item) (s : GameState) :
    (returnCookedIngredients items s).ingredients =
      creditEach (items.map (fun i => i.name ++ "(烤熟)")) s.ingredients := by
  unfold returnCookedIngredients creditEach
  simp only
  rw [(updateProgress_frame _).2.1, List.foldl_map]
  apply foldl_ingredients
  intro st x
  rfl

theorem returnRawIngredients_ingredients (items : List Item) (s : GameState) :
    (returnRawIngredients items s).ingredients =
      creditEach (items.map (fun i => i.name)) s.ingredients := by
  unfold returnRawIngredients creditEach
  simp only
  rw [List.foldl_map]
  apply foldl_ingredients
  intro st x
  rfl

theorem clearCookingTimer_ingredients (toolName : String) (s : GameState) :
    (clearCookingTimer toolName s).ingredients = s.ingredients ∧
    (clearCookingTimer toolName s).recipes = s.recipes := by
  unfold clearCookingTimer
  split
  · split <;> exact ⟨rfl, rfl⟩
  · exact ⟨rfl, rfl⟩

theorem finishToolCooking_ingredients (toolName : String) (isCooked : Int) (s : GameState)
    (tc : ToolContent) (hget : objGet s.toolContents toolName = some tc) :
    (finishToolCooking toolName isCooked s).ingredients =
      (returnOutcome toolName isCooked tc.items (clearCookingTimer toolName s)).ingredients := by
  unfold finishToolCooking
  simp only [clearCookingTimer_toolContents, hget]

theorem returnOutcome_ingredients (toolName : String) (isCooked : Int) (items : List Item)
    (s : GameState) :
    (returnOutcome toolName isCooked items s).ingredients =
      if isCooked = 1 then
        match checkRecipeMatch s.recipes items toolName with
        | some m => creditOutputs m s.ingredients
        | none => creditEach (items.map (fun i => i.name ++ "(烤熟)")) s.ingredients
      else if isCooked = 2 then
        match checkRecipeMatch s.recipes items toolName with
        | some m => creditOutputs m s.ingredients
        | none => creditEach (items.map (fun i => i.name)) s.ingredients
      else addStageIngredient s.ingredients "烤焦的食物" items.length := by
  unfold returnOutcome
  by_cases h1 : isCooked = 1
  · simp only [h1, if_true]
    cases checkRecipeMatch s.recipes items toolName with
    | some m => exact returnRecipeOutput_ingredients _ _
    | none => exact returnCookedIngredients_ingredients _ _
  · simp only [h1, if_false]
    by_cases h2 : isCooked = 2
    · simp only [h2, if_true]
      cases checkRecipeMatch s.recipes items toolName with
      | some m => exact returnRecipeOutput_ingredients _ _
      | none => exact returnRawIngredients_ingredients _ _
    · simp only [h2, if_false]
      rfl

theorem finishToolCooking_ingredients_eq (toolName : String) (isCooked : Int) (s : GameState)
    (tc : ToolContent) (hget : objGet s.toolContents toolName = some tc) :
    (finishToolCooking toolName isCooked s).ingredients =
      if isCooked = 1 then
        match checkRecipeMatch s.recipes tc.items toolName with
        | some m => creditOutputs m s.ingredients
        | none => creditEach (tc.items.map (fun i => i.name ++ "(烤熟)")) s.ingredients
      else if isCooked = 2 then
        match checkRecipeMatch s.recipes tc.items toolName with
        | some m => creditOutputs m s.ingredients
        | none => creditEach (tc.items.map (fun i => i.name)) s.ingredients
      else addStageIngredient s.ingredients "烤焦的食物" tc.items.length := by
  rw [finishToolCooking_ingredients toolName isCooked s tc hget, returnOutcome_ingredients,
    (clearCookingTimer_ingredients toolName s).1, (clearCookingTimer_ingredients toolName s).2]

/-! ## C15: which classifications consult the matcher -/

/-- Claim C15 fails on the code.  In `panMatching` the two eggs in the pan match the
recipe `panFriedEgg`, and resolving the pan as cooked (code 1) credits one "煎蛋".
Resolving it as burned (code 0) does not: no "煎蛋" appears and the two eggs become two
units of "烤焦的食物".  The same happens when the timer of the pan, a heating tool, runs
out (`panMatchingLastSecond`). -/
theorem burned_resolution_skips_matcher :
    objGet panMatching.toolContents "平底锅" = some twoEggs ∧
    checkRecipeMatch panMatching.recipes twoEggs.items "平底锅" = some { recipe := panFriedEgg } ∧
    quantityOf (finishToolCooking "平底锅" 1 panMatching).ingredients "煎蛋" = some (.num 1) ∧
    quantityOf (finishToolCooking "平底锅" 0 panMatching).ingredients "煎蛋" = none ∧
    quantityOf (finishToolCooking "平底锅" 0 panMatching).ingredients "烤焦的食物" =
      some (.num 2) ∧
    quantityOf (updateToolCooking "平底锅" panMatchingLastSecond).ingredients "煎蛋" = none ∧
    quantityOf (updateToolCooking "平底锅" panMatchingLastSecond).ingredients "烤焦的食物" =
      some (.num 2) := by
  decide

/-- Claim C15 as amended.  For a tool with a ledger entry: a resolution as cooked (1) or
raw (2) consults the matcher, crediting the outputs of the matched recipe when there is
one and applying the cooked, respectively raw, fallback only when there is none; a
resolution with any other code (burned) never consults the matcher and credits one unit
of "烤焦的食物" per item, whether or not a recipe matches. -/
theorem resolution_by_classification (s : GameState) (toolName : String) (isCooked : Int)
    (tc : ToolContent) (hget : objGet s.toolContents toolName = some tc) :
    (isCooked = 1 ∨ isCooked = 2 → ∀ m, checkRecipeMatch s.recipes tc.items toolName = some m →
      (finishToolCooking toolName isCooked s).ingredients = creditOutputs m s.ingredients) ∧
    (isCooked = 1 → checkRecipeMatch s.recipes tc.items toolName = none →
      (finishToolCooking toolName isCooked s).ingredients =
        creditEach (tc.items.map (fun i => i.name ++ "(烤熟)")) s.ingredients) ∧
    (isCooked = 2 → checkRecipeMatch s.recipes tc.items toolName = none →
      (finishToolCooking toolName isCooked s).ingredients =
        creditEach (tc.items.map (fun i => i.name)) s.ingredients) ∧
    (isCooked ≠ 1 → isCooked ≠ 2 →
      (finishToolCooking toolName isCooked s).ingredients =
        addStageIngredient s.ingredients "烤焦的食物" tc.items.length) := by
  rw [finishToolCooking_ingredients_eq toolName isCooked s tc hget]
  refine ⟨?_, ?_, ?_, ?_⟩
  · intro hc m hm
    rcases hc with hc | hc
    · simp [hc, hm]
    · simp [hc, hm]
  · intro hc hm
    simp [hc, hm]
  · intro hc hm
    simp [hc, hm]
  · intro h1 h2
    simp [h1, h2]

theorem resolution_by_classification_witness :
    objGet panMatching.toolContents "平底锅" = some twoEggs ∧
    (finishToolCooking "平底锅" 1 panMatching).ingredients =
      creditOutputs { recipe := panFriedEgg } panMatching.ingredients ∧
    (finishToolCooking "平底锅" 0 panMatching).ingredients =
      addStageIngredient panMatching.ingredients "烤焦的食物" twoEggs.items.length :=
  ⟨by decide,
   (resolution_by_classification panMatching "平底锅" 1 twoEggs (by decide)).1 (Or.inl rfl)
     { recipe := panFriedEgg } (by decide),
   (resolution_by_classification panMatching "平底锅" 0 twoEggs (by decide)).2.2.2
     (by decide) (by decide)⟩

/-! ## C19: the burned fallback -/

/-- Claim C19.  `returnBurnedIngredients` credits `items.length` to "烤焦的食物" and touches
nothing else of the stage ingredients: without such an ingredient, one with quantity
`items.length` is appended; with one, the first of them gets `(quantity || 0) +
items.length`, a number `q` becoming `q + items.length`, every other entry keeps its
place and value and no entry is added; ingredients of any other name are those of
before.  In `finishToolCooking` this is the branch of every code other than 1 and 2. -/
theorem returnBurnedIngredients_credits (items : List Item) (s : GameState) :
    (quantityOf s.ingredients "烤焦的食物" = none →
      (returnBurnedIngredients items s).ingredients =
        s.ingredients ++ [{ name := "烤焦的食物", quantity := .num items.length }]) ∧
    (∀ pre i post, s.ingredients = pre ++ i :: post → (∀ j ∈ pre, j.name ≠ "烤焦的食物") →
      i.name = "烤焦的食物" →
      (returnBurnedIngredients items s).ingredients =
        pre ++ { i with quantity := i.quantity.orZeroPlus items.length } :: post ∧
      (∀ q, i.quantity = .num q → i.quantity.orZeroPlus items.length = .num (q + items.length))) ∧
    (∀ q, quantityOf s.ingredients "烤焦的食物" = some q →
      ((returnBurnedIngredients items s).ingredients.map (fun i => i.name)) =
        s.ingredients.map (fun i => i.name)) ∧
    (∀ other, other ≠ "烤焦的食物" →
      (returnBurnedIngredients items s).ingredients.filter (fun i => decide (i.name = other)) =
        s.ingredients.filter (fun i => decide (i.name = other))) ∧
    (∀ toolName isCooked, isCooked ≠ 1 → isCooked ≠ 2 →
      returnOutcome toolName isCooked items s = returnBurnedIngredients items s) := by
  have hing : (returnBurnedIngredients items s).ingredients =
      addStageIngredient s.ingredients "烤焦的食物" items.length := rfl
  refine ⟨?_, ?_, ?_, ?_, ?_⟩
  · intro h
    rw [hing]
    exact addStageIngredient_absent _ _ _ h
  · intro pre i post hs hpre hi
    constructor
    · rw [hing, hs]
      exact addStageIngredient_present pre post i _ _ hpre hi
    · intro q hq
      rw [hq]
      rfl
  · intro q hq
    rw [hing]
    exact addStageIngredient_names _ _ _ q hq
  · intro other hne
    rw [hing]
    exact filter_addStageIngredient_other _ _ _ _ hne
  · intro toolName isCooked h1 h2
    simp [returnOutcome, h1, h2]

theorem returnBurnedIngredients_credits_witness :
    quantityOf demoStage.ingredients "烤焦的食物" = none ∧
    (returnBurnedIngredients twoEggs.items demoStage).ingredients =
      demoStage.ingredients ++
        [{ name := "烤焦的食物", quantity := .num (twoEggs.items.length : Nat) }] :=
  ⟨by decide, (returnBurnedIngredients_credits twoEggs.items demoStage).1 (by decide)⟩

/-! ## One unit per name -/

theorem quantityOf_creditEach_num (names : List String) (ings : List StageIngredient)
    (y : String) (q : Int) (h : quantityOf ings y = some (.num q)) :
    quantityOf (creditEach names ings) y = some (.num (q + (names.count y : Nat))) := by
  induction names generalizing ings q with
  | nil => simpa [creditEach] using h
  | cons n rest ih =>
    have hstep : creditEach (n :: rest) ings = creditEach rest (addStageIngredient ings n 1) := rfl
    rw [hstep]
    by_cases hn : n = y
    · subst hn
      have h1 : quantityOf (addStageIngredient ings n 1) n = some (.num (q + 1)) := by
        rw [quantityOf_addStageIngredient_self, h]
        rfl
      rw [ih _ _ h1, List.count_cons_self]
      congr 2
      push_cast
      ring
    · have h1 : quantityOf (addStageIngredient ings n 1) y = some (.num q) := by
        rw [quantityOf_addStageIngredient_other _ _ _ _ (Ne.symm hn), h]
      rw [ih _ _ h1, List.count_cons_of_ne (Ne.symm hn)]

theorem quantityOf_creditEach_none (names : List String) (ings : List StageIngredient)
    (y : String) (h : quantityOf ings y = none) :
    quantityOf (creditEach names ings) y =
      if names.count y = 0 then none else some (.num (names.count y : Nat)) := by
  induction names generalizing ings with
  | nil => simpa [creditEach] using h
  | cons n rest ih =>
    have hstep : creditEach (n :: rest) ings = creditEach rest (addStageIngredient ings n 1) := rfl
    rw [hstep]
    by_cases hn : n = y
    · subst hn
      have h1 : quantityOf (addStageIngredient ings n 1) n = some (.num 1) := by
        rw [quantityOf_addStageIngredient_self, h]
      rw [quantityOf_creditEach_num _ _ _ _ h1, List.count_cons_self]
      simp only [Nat.succ_ne_zero, if_false]
      congr 2
      push_cast
      ring
    · have h1 : quantityOf (addStageIngredient ings n 1) y = none := by
        rw [quantityOf_addStageIngredient_other _ _ _ _ (Ne.symm hn), h]
      rw [ih _ h1, List.count_cons_of_ne (Ne.symm hn)]

theorem filter_creditEach_other (names : List String) (ings : List StageIngredient)
    (other : String) (h : other ∉ names) :
    (creditEach names ings).filter (fun i => decide (i.name = other)) =
      ings.filter (fun i => decide (i.name = other)) := by
  induction names generalizing ings with
  | nil => rfl
  | cons n rest ih =>
    have hstep : creditEach (n :: rest) ings = creditEach rest (addStageIngredient ings n 1) := rfl
    rw [hstep, ih _ (fun hm => h (List.mem_cons_of_mem _ hm))]
    exact filter_addStageIngredient_other _ _ _ _ (fun he => h (he ▸ List.mem_cons_self _ _))

theorem append_suffix_injective (suffix : String) :
    Function.Injective (fun x : String => x ++ suffix) := by
  intro a b h
  have hd : (a ++ suffix).data = (b ++ suffix).data := congrArg String.data h
  rw [String.data_append, String.data_append] at hd
  exact String.ext ((List.append_left_inj _).mp hd)

theorem count_cooked_names (items : List Item) (x : String) :
    (items.map (fun i => i.name ++ "(烤熟)")).count (x ++ "(烤熟)") =
      (items.map (fun i => i.name)).count x := by
  have h : items.map (fun i => i.name ++ "(烤熟)") =
      (items.map (fun i => i.name)).map (fun n => n ++ "(烤熟)") := by
    rw [List.map_map]
    rfl
  rw [h]
  exact List.count_map_of_injective _ _ (append_suffix_injective "(烤熟)") x

/-! ## C16: the cooked fallback -/

/-- Claim C16.  `returnCookedIngredients` credits one unit to `<item name>(烤熟)` for
each item of the list, repetitions included.  So for every name `x`, with `c` the number
of items called `x`: a numeric quantity `q` of `x(烤熟)` becomes `q + c`; when there is
no `x(烤熟)`, one is created with quantity `c` if `c > 0` and none is if `c = 0`; and
the stage ingredients whose name is not the cooked name of an item are those of before.
In `returnOutcome` this is the branch of code 1 when no recipe matches. -/
theorem returnCookedIngredients_credits (items : List Item) (s : GameState) (x : String) :
    (returnCookedIngredients items s).ingredients =
      creditEach (items.map (fun i => i.name ++ "(烤熟)")) s.ingredients ∧
    (∀ q, quantityOf s.ingredients (x ++ "(烤熟)") = some (.num q) →
      quantityOf (returnCookedIngredients items s).ingredients (x ++ "(烤熟)") =
        some (.num (q + ((items.map (fun i => i.name)).count x : Nat)))) ∧
    (quantityOf s.ingredients (x ++ "(烤熟)") = none →
      quantityOf (returnCookedIngredients items s).ingredients (x ++ "(烤熟)") =
        if (items.map (fun i => i.name)).count x = 0 then none
        else some (.num ((items.map (fun i => i.name)).count x : Nat))) ∧
    (∀ other, (∀ i ∈ items, i.name ++ "(烤熟)" ≠ other) →
      (returnCookedIngredients items s).ingredients.filter (fun i => decide (i.name = other)) =
        s.ingredients.filter (fun i => decide (i.name = other))) ∧
    (∀ toolName, checkRecipeMatch s.recipes items toolName = none →
      returnOutcome toolName 1 items s = returnCookedIngredients items s) := by
  have hing := returnCookedIngredients_ingredients items s
  refine ⟨hing, ?_, ?_, ?_, ?_⟩
  · intro q hq
    rw [hing, quantityOf_creditEach_num _ _ _ _ hq, count_cooked_names]
  · intro hnone
    rw [hing, quantityOf_creditEach_none _ _ _ hnone, count_cooked_names]
  · intro other hother
    rw [hing]
    apply filter_creditEach_other
    intro hmem
    obtain ⟨i, hi, hname⟩ := List.mem_map.mp hmem
    exact hother i hi hname
  · intro toolName hnone
    simp [returnOutcome, hnone]

theorem returnCookedIngredients_credits_witness :
    quantityOf demoStage.ingredients ("鸡蛋" ++ "(烤熟)") = none ∧
    quantityOf (returnCookedIngredients twoEggs.items demoStage).ingredients
        ("鸡蛋" ++ "(烤熟)") =
      (if (twoEggs.items.map (fun i => i.name)).count "鸡蛋" = 0 then none
        else some (.num ((twoEggs.items.map (fun i => i.name)).count "鸡蛋" : Nat))) ∧
    quantityOf (returnCookedIngredients twoEggs.items demoStage).ingredients "鸡蛋(烤熟)" =
      some (.num 2) :=
  ⟨by decide,
   (returnCookedIngredients_credits twoEggs.items demoStage "鸡蛋").2.2.1 (by decide),
   by decide⟩

/-! ## C17: the cooked fallback counts items, not distinct names -/

/-- Claim C17 fails on the code.  The pan of `panWithTwoEggs` holds the same ingredient
twice and no recipe matches; resolving it as cooked creates "鸡蛋(烤熟)" with quantity 2,
not 1. -/
theorem cooked_fallback_same_ingredient_twice :
    objGet panWithTwoEggs.toolContents "平底锅" = some twoEggs ∧
    checkRecipeMatch panWithTwoEggs.recipes twoEggs.items "平底锅" = none ∧
    quantityOf panWithTwoEggs.ingredients "鸡蛋(烤熟)" = none ∧
    quantityOf (finishToolCooking "平底锅" 1 panWithTwoEggs).ingredients "鸡蛋(烤熟)" =
      some (.num 2) ∧
    quantityOf (finishToolCooking "平底锅" 1 panWithTwoEggs).ingredients "鸡蛋(烤熟)" ≠
      some (.num 1) := by
  decide

/-- Claim C17 as amended.  Unmatched contents resolved as cooked produce one
`<name>(烤熟)` unit per contained item, repetitions counted: with `c` the number of items
of the tool called `x`, the resolution turns a numeric quantity `q` of `x(烤熟)` into
`q + c` and, when there is no `x(烤熟)` and `c > 0`, creates it with quantity `c`. -/
theorem cooked_fallback_per_item (s : GameState) (toolName : String) (tc : ToolContent)
    (x : String) (hget : objGet s.toolContents toolName = some tc)
    (hnone : checkRecipeMatch s.recipes tc.items toolName = none) :
    (∀ q, quantityOf s.ingredients (x ++ "(烤熟)") = some (.num q) →
      quantityOf (finishToolCooking toolName 1 s).ingredients (x ++ "(烤熟)") =
        some (.num (q + ((tc.items.map (fun i => i.name)).count x : Nat)))) ∧
    (quantityOf s.ingredients (x ++ "(烤熟)") = none →
      0 < (tc.items.map (fun i => i.name)).count x →
      quantityOf (finishToolCooking toolName 1 s).ingredients (x ++ "(烤熟)") =
        some (.num ((tc.items.map (fun i => i.name)).count x : Nat))) := by
  have hing : (finishToolCooking toolName 1 s).ingredients =
      creditEach (tc.items.map (fun i => i.name ++ "(烤熟)")) s.ingredients := by
    rw [finishToolCooking_ingredients_eq toolName 1 s tc hget]
    simp [hnone]
  constructor
  · intro q hq
    rw [hing, quantityOf_creditEach_num _ _ _ _ hq, count_cooked_names]
  · intro hq hpos
    rw [hing, quantityOf_creditEach_none _ _ _ hq, count_cooked_names]
    simp [Nat.ne_of_gt hpos]

theorem cooked_fallback_per_item_witness :
    (objGet panWithTwoEggs.toolContents "平底锅" = some twoEggs ∧
      checkRecipeMatch panWithTwoEggs.recipes twoEggs.items "平底锅" = none ∧
      quantityOf panWithTwoEggs.ingredients ("鸡蛋" ++ "(烤熟)") = none ∧
      0 < (twoEggs.items.map (fun i => i.name)).count "鸡蛋") ∧
    quantityOf (finishToolCooking "平底锅" 1 panWithTwoEggs).ingredients ("鸡蛋" ++ "(烤熟)") =
      some (.num ((twoEggs.items.map (fun i => i.name)).count "鸡蛋" : Nat)) :=
  ⟨by decide,
   (cooked_fallback_per_item panWithTwoEggs "平底锅" twoEggs "鸡蛋" (by decide) (by decide)).2
     (by decide) (by decide)⟩

/-! ## C14: the outputs of a matched recipe -/

theorem replaceFirstChars_at_start (pat rep rest : List Char) :
    replaceFirstChars pat rep (pat ++ rest) = rep ++ rest := by
  cases h : pat ++ rest with
  | nil =>
    have hp : pat = [] := (List.append_eq_nil.mp h).1
    have hr : rest = [] := (List.append_eq_nil.mp h).2
    simp [replaceFirstChars, hp, hr]
  | cons c cs =>
    have hpre : pat.isPrefixOf (c :: cs) = true := by
      rw [← h, List.isPrefixOf_iff_prefix]
      exact List.prefix_append _ _
    simp only [replaceFirstChars, hpre, if_true]
    rw [← h, List.drop_left]

theorem substituteWildcards_single (key bound rest : String) :
    substituteWildcards [(key, bound)] (key ++ rest) = bound ++ rest := by
  simp only [substituteWildcards, objKeys, List.filter_nil, List.foldl_cons, List.foldl_nil,
    objGet, if_true, jsReplace]
  apply String.ext
  simp only [String.data_append]
  exact replaceFirstChars_at_start _ _ _

/-- Claim C14.  After `returnRecipeOutput` the stage ingredients are those of before with
every output entry `(name, n)` of the recipe credited, in key order, to the ingredient
whose name is `name` with the wildcards of `wildcardMap` substituted; for a recipe with
the single output `(name, n)` that is one credit.  A credit of `n` to a name appends an
ingredient of that name with quantity `n` when there is none, and otherwise replaces the
quantity of the first ingredient of that name by `(quantity || 0) + n`, which is `q + n`
for a number `q`; every other ingredient keeps its place and value.  A wildcard at the
start of an output name is replaced by the ingredient bound to it. -/
theorem returnRecipeOutput_credits (m : MatchedRecipe) (s : GameState) :
    (returnRecipeOutput m s).ingredients = creditOutputs m s.ingredients ∧
    (∀ name n, m.recipe.output = [(name, n)] →
      (returnRecipeOutput m s).ingredients =
        addStageIngredient s.ingredients (substituteWildcards (m.wildcardMap.getD []) name) n) ∧
    (∀ (ings : List StageIngredient) (name : String) (n : Int),
      (quantityOf ings name = none →
        addStageIngredient ings name n = ings ++ [{ name := name, quantity := .num n }]) ∧
      (∀ pre i post, ings = pre ++ i :: post → (∀ j ∈ pre, j.name ≠ name) → i.name = name →
        addStageIngredient ings name n =
          pre ++ { i with quantity := i.quantity.orZeroPlus n } :: post) ∧
      (∀ q : Int, (Quantity.num q).orZeroPlus n = .num (q + n)) ∧
      (∀ other, other ≠ name →
        (addStageIngredient ings name n).filter (fun i => decide (i.name = other)) =
          ings.filter (fun i => decide (i.name = other)))) ∧
    (∀ key bound rest : String,
      substituteWildcards [(key, bound)] (key ++ rest) = bound ++ rest) := by
  have hing := returnRecipeOutput_ingredients m s
  refine ⟨hing, ?_, ?_, substituteWildcards_single⟩
  · intro name n hout
    rw [hing]
    simp [creditOutputs, hout, objKeys, objGet]
  · intro ings name n
    refine ⟨addStageIngredient_absent ings name n, ?_, fun q => rfl,
      fun other hne => filter_addStageIngredient_other ings name other n hne⟩
    intro pre i post hings hpre hi
    rw [hings]
    exact addStageIngredient_present pre post i name n hpre hi

theorem returnRecipeOutput_credits_witness :
    (friedRiceMatch.recipe.output = [("\x7bmeat\x7d fried rice", 1)] ∧
      substituteWildcards (friedRiceMatch.wildcardMap.getD []) "\x7bmeat\x7d fried rice" =
        "beef fried rice" ∧
      quantityOf demoStage.ingredients "beef fried rice" = none) ∧
    (returnRecipeOutput friedRiceMatch demoStage).ingredients =
      addStageIngredient demoStage.ingredients
        (substituteWildcards (friedRiceMatch.wildcardMap.getD []) "\x7bmeat\x7d fried rice") 1 ∧
    (returnRecipeOutput friedRiceMatch demoStage).ingredients =
      demoStage.ingredients ++ [{ name := "beef fried rice", quantity := .num 1 }] :=
  ⟨by decide,
   (returnRecipeOutput_credits friedRiceMatch demoStage).2.1 "\x7bmeat\x7d fried rice" 1 rfl,
   by decide⟩

/-! ## C18: placements followed by a raw return -/

theorem mem_names_addStageIngredient (ings : List StageIngredient) (n m : String) (k : Int)
    (h : n ∈ ings.map (fun i => i.name)) :
    n ∈ (addStageIngredient ings m k).map (fun i => i.name) := by
  induction ings with
  | nil => simp at h
  | cons x rest ih =>
    by_cases hx : x.name = m
    · simpa [addStageIngredient, hx] using h
    · simp only [addStageIngredient, hx, if_false, List.map_cons, List.mem_cons] at h ⊢
      rcases h with h | h
      · exact Or.inl h
      · exact Or.inr (ih h)

theorem addStageIngredient_comm (ings : List StageIngredient) (n m : String) (k : Int)
    (hn : n ∈ ings.map (fun i => i.name)) (hm : m ∈ ings.map (fun i => i.name)) :
    addStageIngredient (addStageIngredient ings n k) m k =
      addStageIngredient (addStageIngredient ings m k) n k := by
  induction ings with
  | nil => simp at hn
  | cons x rest ih =>
    by_cases hxn : x.name = n
    · by_cases hxm : x.name = m
      · have : n = m := hxn.symm.trans hxm
        subst this
        rfl
      · subst hxn
        simp [addStageIngredient, hxm]
    · by_cases hxm : x.name = m
      · subst hxm
        simp [addStageIngredient, hxn]
      · simp only [List.map_cons, List.mem_cons] at hn hm
        have hn' : n ∈ rest.map (fun i => i.name) := by
          rcases hn with hn | hn
          · exact absurd hn.symm hxn
          · exact hn
        have hm' : m ∈ rest.map (fun i => i.name) := by
          rcases hm with hm | hm
          · exact absurd hm.symm hxm
          · exact hm
        simp only [addStageIngredient, hxn, hxm, if_false]
        rw [ih hn' hm']

theorem creditEach_addStageIngredient (names : List String) (ings : List StageIngredient)
    (n : String) (hn : n ∈ ings.map (fun i => i.name))
    (hall : ∀ m ∈ names, m ∈ ings.map (fun i => i.name)) :
    creditEach names (addStageIngredient ings n 1) =
      addStageIngredient (creditEach names ings) n 1 := by
  induction names generalizing ings with
  | nil => rfl
  | cons m rest ih =>
    have hm : m ∈ ings.map (fun i => i.name) := hall m (List.mem_cons_self _ _)
    have h1 : creditEach (m :: rest) (addStageIngredient ings n 1) =
        creditEach rest (addStageIngredient (addStageIngredient ings n 1) m 1) := rfl
    have h2 : creditEach (m :: rest) ings = creditEach rest (addStageIngredient ings m 1) := rfl
    rw [h1, h2, addStageIngredient_comm ings n m 1 hn hm]
    apply ih
    · exact mem_names_addStageIngredient _ _ _ _ hn
    · intro m' hm'
      exact mem_names_addStageIngredient _ _ _ _ (hall m' (List.mem_cons_of_mem _ hm'))

theorem addStageIngredient_undo_placement (ings : List StageIngredient) (i : Nat)
    (ingredient : StageIngredient) (q : Int)
    (hnodup : (ings.map (fun x => x.name)).Nodup) (hi : ings[i]? = some ingredient)
    (hq : ingredient.quantity = .num q) :
    addStageIngredient (ings.set i { ingredient with quantity := .num (q - 1) })
      ingredient.name 1 = ings := by
  induction ings generalizing i with
  | nil => simp at hi
  | cons x rest ih =>
    cases i with
    | zero =>
      simp only [List.getElem?_cons_zero, Option.some.injEq] at hi
      subst hi
      simp only [List.set_cons_zero, addStageIngredient, if_true]
      congr 1
      cases x with
      | mk name quantity =>
        simp only at hq
        subst hq
        simp [Quantity.orZeroPlus]
    | succ j =>
      simp only [List.getElem?_cons_succ] at hi
      simp only [List.map_cons, List.nodup_cons] at hnodup
      have hmem : ingredient.name ∈ rest.map (fun x => x.name) :=
        List.mem_map.mpr ⟨ingredient, List.getElem?_mem hi, rfl⟩
      have hne : x.name ≠ ingredient.name := by
        intro h
        exact hnodup.1 (h ▸ hmem)
      simp only [List.set_cons_succ, addStageIngredient, hne, if_false]
      rw [ih j hnodup.2 hi]

theorem names_set_same (ings : List StageIngredient) (i : Nat) (ingredient : StageIngredient)
    (quantity : Quantity) (hi : ings[i]? = some ingredient) :
    (ings.set i { ingredient with quantity := quantity }).map (fun x => x.name) =
      ings.map (fun x => x.name) := by
  induction ings generalizing i with
  | nil => simp at hi
  | cons x rest ih =>
    cases i with
    | zero =>
      simp only [List.getElem?_cons_zero, Option.some.injEq] at hi
      subst hi
      simp
    | succ j =>
      simp only [List.getElem?_cons_succ] at hi
      simp only [List.set_cons_succ, List.map_cons]
      rw [ih j hi]

theorem addNutrition_recipes (name : String) (s : GameState) :
    (addNutrition name s).recipes = s.recipes := by
  unfold addNutrition
  split
  · split
    · split <;> rfl
    · rfl
  · rfl

theorem addIngredientToTool_numeric (s s1 : GameState) (i toolIndex : Nat) (size : Int)
    (ingredient : StageIngredient) (q : Int) (toolName : String) (tc : ToolContent)
    (hing : s.ingredients[i]? = some ingredient) (hq : ingredient.quantity = .num q)
    (hpos : 1 ≤ q) (htool : s.tools[toolIndex]? = some toolName)
    (hget : objGet s.toolContents toolName = some tc)
    (hok : addIngredientToTool i toolIndex size s = .ok s1) :
    s1.ingredients = s.ingredients.set i { ingredient with quantity := .num (q - 1) } ∧
    objGet s1.toolContents toolName =
      some { tc with items := tc.items ++ [{ name := ingredient.name, size := size }],
                     usedCapacity := tc.usedCapacity + size } ∧
    s1.tools = s.tools := by
  unfold addIngredientToTool at hok
  have hnot : ¬ q ≤ 0 := by omega
  simp only [hing, hq, currentQuantity, hnot, if_false, htool, Option.getD_some,
    Except.ok.injEq] at hok
  subst hok
  refine ⟨?_, ?_, ?_⟩
  · rw [(updateProgress_frame _).2.1]
    unfold updateToolCapacity
    simp only [hget]
    rw [(addNutrition_frame _ _).2.1]
    simp [decrementQuantity]
  · rw [(updateProgress_frame _).1, updateToolCapacity_toolContents]
    simp [hget, objGet_objSet_self]
  · rw [(updateProgress_frame _).2.2.2.1]
    unfold updateToolCapacity
    simp only [hget]
    rw [(addNutrition_frame _ _).2.2.1]

theorem placedAll_creditEach (toolIndex : Nat) (toolName : String) (ps : List (Nat × Int)) :
    ∀ (s s' : GameState) (tc : ToolContent), s.tools[toolIndex]? = some toolName →
      objGet s.toolContents toolName = some tc →
      (s.ingredients.map (fun x => x.name)).Nodup → PlacedAll toolIndex ps s s' →
      ∃ tc' placed, objGet s'.toolContents toolName = some tc' ∧
        tc'.items = tc.items ++ placed ∧ placed.length = ps.length ∧
        (∀ it ∈ placed, it.name ∈ s.ingredients.map (fun x => x.name)) ∧
        s'.ingredients.map (fun x => x.name) = s.ingredients.map (fun x => x.name) ∧
        creditEach (placed.map (fun it => it.name)) s'.ingredients = s.ingredients := by
  induction ps with
  | nil =>
    intro s s' tc _ hget _ hplaced
    simp only [PlacedAll] at hplaced
    subst hplaced
    exact ⟨tc, [], hget, by simp, rfl, by simp, rfl, rfl⟩
  | cons p rest ih =>
    intro s s' tc htool hget hnodup hplaced
    obtain ⟨i, size⟩ := p
    simp only [PlacedAll] at hplaced
    obtain ⟨ingredient, q, s1, hing, hq, hpos, hok, hrest⟩ := hplaced
    obtain ⟨hings1, hget1, htools1⟩ :=
      addIngredientToTool_numeric s s1 i toolIndex size ingredient q toolName tc hing hq hpos
        htool hget hok
    have hnames1 : s1.ingredients.map (fun x => x.name) = s.ingredients.map (fun x => x.name) := by
      rw [hings1]
      exact names_set_same _ _ _ _ hing
    have hmemName : ingredient.name ∈ s.ingredients.map (fun x => x.name) :=
      List.mem_map.mpr ⟨ingredient, List.getElem?_mem hing, rfl⟩
    obtain ⟨tc', placed, hget', hitems, hlen, hmem, hnames, hcredit⟩ :=
      ih s1 s' _ (by rw [htools1]; exact htool) hget1 (by rw [hnames1]; exact hnodup) hrest
    refine ⟨tc', { name := ingredient.name, size := size } :: placed, hget', ?_, ?_, ?_, ?_, ?_⟩
    · rw [hitems]
      simp
    · simp [hlen]
    · intro it hit
      rcases List.mem_cons.mp hit with hit | hit
      · rw [hit]
        exact hmemName
      · rw [← hnames1]
        exact hmem it hit
    · rw [hnames, hnames1]
    · have hstep : creditEach (({ name := ingredient.name, size := size } :: placed : List Item).map
          (fun it => it.name)) s'.ingredients =
          creditEach (placed.map (fun it => it.name))
            (addStageIngredient s'.ingredients ingredient.name 1) := rfl
      rw [hstep, creditEach_addStageIngredient, hcredit, hings1]
      · exact addStageIngredient_undo_placement _ _ _ _ hnodup hing hq
      · rw [hnames, hnames1]
        exact hmemName
      · intro m hm
        obtain ⟨it, hit, hname⟩ := List.mem_map.mp hm
        rw [hnames, ← hname]
        exact hmem it hit

/-- Claim C18 fails on the code.  In `panWithTwoEggs` the names of the stage ingredients
are unique, the bowl is empty and the quantity of "盐" is the ample marker "适量".  The
salt is dropped into the bowl (no recipe matches, the catalog being empty) and the bowl is
resolved as raw: the quantity of "盐" is then the number 1, not the marker it was. -/
theorem raw_round_trip_ample_marker :
    (panWithTwoEggs.ingredients.map (fun x => x.name)).Nodup ∧
    objGet panWithTwoEggs.toolContents "碗" =
      some { items := [], usedCapacity := 0, maxCapacity := 500 } ∧
    quantityOf panWithTwoEggs.ingredients "盐" = some (.str "适量") ∧
    objGet (runLedger panWithTwoEggs [.drop saltDrag 1]).toolContents "碗" =
      some { items := [{ name := "盐", size := 10 }], usedCapacity := 10, maxCapacity := 500 } ∧
    quantityOf (runLedger panWithTwoEggs [.drop saltDrag 1]).ingredients "盐" = some (.num 0) ∧
    checkRecipeMatch (runLedger panWithTwoEggs [.drop saltDrag 1]).recipes
      [{ name := "盐", size := 10 }] "碗" = none ∧
    quantityOf (runLedger panWithTwoEggs [.drop saltDrag 1, .finish "碗" 2]).ingredients "盐" =
      some (.num 1) := by
  decide

/-- Claim C18 as amended.  Take a stage whose ingredient names are unique and a tool
whose ledger entry is empty, and place ingredients into that tool any number of times,
each placement succeeding on an ingredient whose quantity is a number.  If no recipe
matches the contents, resolving the tool as raw credits one unit to the original name of
each of the placed items, and the stage ingredients are then exactly those of before the
placements. -/
theorem raw_fallback_round_trip (s s' : GameState) (toolIndex : Nat) (toolName : String)
    (tc tc' : ToolContent) (ps : List (Nat × Int))
    (hunique : (s.ingredients.map (fun x => x.name)).Nodup)
    (htool : s.tools[toolIndex]? = some toolName)
    (hget : objGet s.toolContents toolName = some tc) (hempty : tc.items = [])
    (hplaced : PlacedAll toolIndex ps s s')
    (hget' : objGet s'.toolContents toolName = some tc')
    (hnomatch : checkRecipeMatch s'.recipes tc'.items toolName = none) :
    tc'.items.length = ps.length ∧
    (finishToolCooking toolName 2 s').ingredients =
      creditEach (tc'.items.map (fun it => it.name)) s'.ingredients ∧
    (finishToolCooking toolName 2 s').ingredients = s.ingredients := by
  obtain ⟨tc'', placed, hget'', hitems, hlen, _, _, hcredit⟩ :=
    placedAll_creditEach toolIndex toolName ps s s' tc htool hget hunique hplaced
  rw [hget'] at hget''
  cases hget''
  rw [hempty, List.nil_append] at hitems
  have hfin : (finishToolCooking toolName 2 s').ingredients =
      creditEach (tc'.items.map (fun it => it.name)) s'.ingredients := by
    rw [finishToolCooking_ingredients_eq toolName 2 s' tc' hget']
    simp [hnomatch]
  refine ⟨by rw [hitems, hlen], hfin, ?_⟩
  rw [hfin, hitems, hcredit]

theorem raw_fallback_round_trip_witness :
    addIngredientToTool 0 1 100 panWithTwoEggs = .ok eggInBowl ∧
    ((panWithTwoEggs.ingredients.map (fun x => x.name)).Nodup ∧
      panWithTwoEggs.tools[1]? = some "碗" ∧
      objGet panWithTwoEggs.toolContents "碗" =
        some { items := [], usedCapacity := 0, maxCapacity := 500 } ∧
      objGet eggInBowl.toolContents "碗" = some oneEgg ∧
      quantityOf eggInBowl.ingredients "鸡蛋" = some (.num 0) ∧
      checkRecipeMatch eggInBowl.recipes oneEgg.items "碗" = none) ∧
    (oneEgg.items.length = [((0 : Nat), (100 : Int))].length ∧
    (finishToolCooking "碗" 2 eggInBowl).ingredients =
      creditEach (oneEgg.items.map (fun it => it.name)) eggInBowl.ingredients ∧
    (finishToolCooking "碗" 2 eggInBowl).ingredients = panWithTwoEggs.ingredients) :=
  ⟨rfl, by decide,
   raw_fallback_round_trip panWithTwoEggs eggInBowl 1 "碗"
     { items := [], usedCapacity := 0, maxCapacity := 500 } oneEgg [(0, 100)]
     (by decide) (by decide) (by decide) rfl
     ⟨{ name := "鸡蛋", quantity := .num 1 }, 1, eggInBowl, by decide, rfl, by decide, rfl,
       rfl⟩
     (by decide) (by decide)⟩

/-! ## C21: progress after a resolution -/

theorem clearCookingTimer_progress (toolName : String) (s : GameState) :
    (clearCookingTimer toolName s).progress = s.progress := by
  unfold clearCookingTimer
  split
  · split <;> rfl
  · rfl

/-- Claim C21.  The raw and the burned return do not recompute the progress.  A burned
resolution never writes `state.progress`, whatever the state.  On `dishInBowl` (targets
煎蛋 and 蛋炒饭, the dish 煎蛋 lying in the bowl, stored progress 0) the raw resolution of
the bowl gives the dish back with quantity 1 and leaves the stored progress at 0, where
`updateProgress` on the resulting stage gives 50; a burned resolution of the pan after
it keeps the stale 0 as well, while the cooked resolution of the same pan, which calls
`updateProgress`, stores 50. -/
theorem finishToolCooking_raw_burned_keep_progress :
    (∀ (toolName : String) (s : GameState),
      (finishToolCooking toolName 0 s).progress = s.progress) ∧
    checkRecipeMatch dishInBowl.recipes [{ name := "煎蛋", size := 100 }] "碗" = none ∧
    dishInBowl.progress = .frac 0 2 ∧
    quantityOf dishInBowl.ingredients "煎蛋" = some (.num 0) ∧
    quantityOf (finishToolCooking "碗" 2 dishInBowl).ingredients "煎蛋" = some (.num 1) ∧
    (finishToolCooking "碗" 2 dishInBowl).progress = .frac 0 2 ∧
    (updateProgress (finishToolCooking "碗" 2 dishInBowl)).progress = .frac 100 2 ∧
    (finishToolCooking "平底锅" 0 dishReturned).progress = .frac 0 2 ∧
    (updateProgress (finishToolCooking "平底锅" 0 dishReturned)).progress = .frac 100 2 ∧
    (finishToolCooking "平底锅" 1 dishReturned).progress = .frac 100 2 := by
  refine ⟨?_, by decide, by decide, by decide, by decide, by decide, by decide, by decide,
    by decide, by decide⟩
  intro toolName s
  unfold finishToolCooking
  simp only
  split
  · exact clearCookingTimer_progress toolName s
  · simp only [returnOutcome, returnBurnedIngredients]
    have h1 : (0 : Int) ≠ 1 := by decide
    have h2 : (0 : Int) ≠ 2 := by decide
    simp only [h1, h2, if_false]
    exact clearCookingTimer_progress toolName s

/-! ## C23: how often the completion runs -/

/-- Claim C23.  The completion runs on every recomputation at 100% and again when the
stage clock runs out.  On `clockStage` (target 煎蛋, two eggs in the pan that match the
recipe, savings 0, two seconds on the clock) the cooked resolution of the pan brings the
progress to 100 and adds the reward 50 once; the clock is still live.  A further
`updateProgress`, and likewise a further drop into the bowl, adds 50 again; so do the two
clock ticks that end the stage through `gameOver`; all together the savings stand at 200
with four modals on the page. -/
theorem completion_runs_on_every_recomputation :
    clockStage.savings = some 0 ∧
    clockStageDone.progress = .frac 100 1 ∧
    clockStageDone.savings = some 50 ∧
    clockStageDone.completionModals = 1 ∧
    clockStageDone.timerLive = true ∧
    (updateProgress clockStageDone).savings = some 100 ∧
    (updateProgress clockStageDone).completionModals = 2 ∧
    (LedgerEvent.apply clockStageDone (.drop saltDrag 1)).savings = some 100 ∧
    (timerTick clockStageDone).savings = some 50 ∧
    (timerTick (timerTick clockStageDone)).savings = some 100 ∧
    (timerTick (timerTick clockStageDone)).completionModals = 2 ∧
    (timerTick (timerTick clockStageDone)).timerLive = false ∧
    (timerTick (timerTick (LedgerEvent.apply (updateProgress clockStageDone)
      (.drop saltDrag 1)))).savings = some 200 ∧
    (timerTick (timerTick (LedgerEvent.apply (updateProgress clockStageDone)
      (.drop saltDrag 1)))).completionModals = 4 := by
  decide

/-! ## C26: nutrition and the stored health -/

/-- Claim C26.  A stored health of 0 is read as 100.  On `healthZero` (stored health 0)
the drop of an egg, whose catalog entry carries nutrition 5, succeeds (the egg lies in
the bowl) and stores the health 105, not 5; from a stored 100 the same drop gives 105 as
well, and from a stored 50 it gives 55. -/
theorem addIngredientToTool_health_zero :
    healthZero.health = some 0 ∧
    currentHealth (some 0) = 100 ∧
    (LedgerEvent.apply healthZero (.drop eggDrag 1)).alerts = [] ∧
    objGet (LedgerEvent.apply healthZero (.drop eggDrag 1)).toolContents "碗" = some oneEgg ∧
    (LedgerEvent.apply healthZero (.drop eggDrag 1)).health = some 105 ∧
    (LedgerEvent.apply panWithTwoEggs (.drop eggDrag 1)).health = some 105 ∧
    (LedgerEvent.apply { panWithTwoEggs with health := some 50 } (.drop eggDrag 1)).health =
      some 55 := by
  decide

/-! ## C27: the ample marker -/

/-- Claim C27.  The ample marker stands for one unit.  On `panWithTwoEggs`, whose salt has
the quantity `"适量"`, the first drop of the salt into the empty bowl (capacity 500, size
10) succeeds and stores the number 0 as the salt's quantity; the second drop is rejected
with the alert for an insufficient quantity, and the bowl still holds one unit of salt.
A quantity string without the marker counts as 114514 units. -/
theorem ample_marker_is_one_unit :
    quantityOf panWithTwoEggs.ingredients "盐" = some (.str "适量") ∧
    currentQuantity (.str "适量") = 1 ∧
    currentQuantity (.str "少许") = 114514 ∧
    quantityOf (LedgerEvent.apply panWithTwoEggs (.drop saltDrag 1)).ingredients "盐" =
      some (.num 0) ∧
    (LedgerEvent.apply panWithTwoEggs (.drop saltDrag 1)).alerts = [] ∧
    (runLedger panWithTwoEggs [.drop saltDrag 1, .drop saltDrag 1]).alerts =
      [.insufficientQuantity] ∧
    objGet (runLedger panWithTwoEggs [.drop saltDrag 1, .drop saltDrag 1]).toolContents "碗" =
      some { items := [{ name := "盐", size := 10 }], usedCapacity := 10, maxCapacity := 500 } := by
  decide

/-! ## C22: the progress formula -/

theorem showCompletionModal_progress (s : GameState) :
    (showCompletionModal s).progress = s.progress ∧
    (showCompletionModal s).targets = s.targets ∧
    (showCompletionModal s).reward = s.reward := by
  unfold showCompletionModal
  cases s.progress.round <;> cases recipeBookOf s.reward <;> simp
  split <;> simp

theorem updateProgress_progress (s : GameState) (targets : List String)
    (ht : s.targets = some targets) :
    (updateProgress s).progress =
      progressOf (targets.filter (fun target =>
        match s.ingredients.find? (fun i => decide (i.name = target)) with
        | some ingredient => ingredient.quantity.isPositive
        | none => false)).length targets.length := by
  unfold updateProgress
  simp only [ht]
  split
  · exact (showCompletionModal_progress _).1
  · rfl

theorem find_positive_eq_specHasPositive (ingredients : List StageIngredient)
    (hnd : (ingredients.map (fun i => i.name)).Nodup) (target : String) :
    (match ingredients.find? (fun i => decide (i.name = target)) with
      | some ingredient => ingredient.quantity.isPositive
      | none => false) = specHasPositive ingredients target := by
  induction ingredients with
  | nil => rfl
  | cons i rest ih =>
    simp only [List.map_cons, List.nodup_cons] at hnd
    by_cases hi : i.name = target
    · have hrest : rest.any (fun j => decide (j.name = target) && j.quantity.isPositive) = false := by
        rw [List.any_eq_false]
        intro j hj
        have : j.name ≠ target := by
          intro h
          exact hnd.1 (hi ▸ h ▸ List.mem_map_of_mem _ hj)
        simp [this]
      simp [specHasPositive, List.find?_cons, hi, hrest]
    · have := ih hnd.2
      simp only [specHasPositive] at this
      simp [specHasPositive, List.find?_cons, hi, this]

theorem updateProgress_specCompleted (s : GameState) (targets : List String)
    (ht : s.targets = some targets)
    (hnd : (s.ingredients.map (fun i => i.name)).Nodup) :
    (updateProgress s).progress =
      progressOf (specCompleted targets s.ingredients) targets.length := by
  rw [updateProgress_progress s targets ht]
  unfold specCompleted
  congr 2
  congr 1
  funext target
  exact find_positive_eq_specHasPositive s.ingredients hnd target


theorem specCompleted_le (targets : List String) (ingredients : List StageIngredient) :
    specCompleted targets ingredients ≤ targets.length :=
  List.length_filter_le _ _

theorem specCompleted_eq_length_iff (targets : List String) (ingredients : List StageIngredient) :
    specCompleted targets ingredients = targets.length ↔
      ∀ t ∈ targets, specHasPositive ingredients t = true := by
  unfold specCompleted
  exact List.filter_length_eq_length

theorem specCompleted_congr (targets : List String) (a b : List StageIngredient)
    (h : ∀ t ∈ targets, specHasPositive a t = specHasPositive b t) :
    specCompleted targets a = specCompleted targets b := by
  unfold specCompleted
  rw [List.filter_congr h]

/-- Claim C22.  For a stage with a non-empty target list, and stage ingredients of
pairwise distinct names, `updateProgress` stores the fraction `n / d` with
`n / d = min(100, 100 * c / |targets|)`, `c` being the number of target entries for
which a stage ingredient of that name has a quantity above 0; the stored value lies
between 0 and 100 and is 100 iff every target has such an ingredient; and two ingredient
lists that agree, target by target, on whether such an ingredient exists give the same
progress. -/
theorem updateProgress_formula (s : GameState) (targets : List String)
    (ht : s.targets = some targets) (hne : targets ≠ [])
    (hnd : (s.ingredients.map (fun i => i.name)).Nodup) :
    (∃ n d : Nat, 0 < d ∧ (updateProgress s).progress = .frac n d ∧
      (n : ℚ) / d = min 100 (100 * (specCompleted targets s.ingredients : ℚ) / targets.length) ∧
      0 ≤ (n : ℚ) / d ∧ (n : ℚ) / d ≤ 100 ∧
      ((n : ℚ) / d = 100 ↔ ∀ t ∈ targets, specHasPositive s.ingredients t = true)) ∧
    (∀ s' : GameState, s'.targets = some targets →
      (s'.ingredients.map (fun i => i.name)).Nodup →
      (∀ t ∈ targets, specHasPositive s'.ingredients t = specHasPositive s.ingredients t) →
      (updateProgress s').progress = (updateProgress s).progress) := by
  have hlen : 0 < targets.length := List.length_pos.mpr hne
  have hlenQ : (0 : ℚ) < targets.length := by exact_mod_cast hlen
  have hle := specCompleted_le targets s.ingredients
  constructor
  · rw [updateProgress_specCompleted s targets ht hnd]
    unfold progressOf
    rw [if_neg (Nat.pos_iff_ne_zero.mp hlen)]
    by_cases hc : targets.length ≤ specCompleted targets s.ingredients
    · have heq : specCompleted targets s.ingredients = targets.length := le_antisymm hle hc
      rw [if_pos hc]
      refine ⟨100, 1, by decide, rfl, ?_, by norm_num, by norm_num, ?_⟩
      · rw [heq, mul_div_assoc, div_self (ne_of_gt hlenQ)]
        norm_num
      · rw [← specCompleted_eq_length_iff]
        simp [heq]
    · rw [if_neg hc]
      have hlt : specCompleted targets s.ingredients < targets.length := Nat.lt_of_not_le hc
      have hltQ : (specCompleted targets s.ingredients : ℚ) < targets.length := by
        exact_mod_cast hlt
      have hval : (100 * (specCompleted targets s.ingredients : ℚ)) / targets.length < 100 := by
        rw [div_lt_iff₀ hlenQ]
        linarith
      refine ⟨100 * specCompleted targets s.ingredients, targets.length, hlen, rfl, ?_, ?_, ?_, ?_⟩
      · push_cast
        rw [min_eq_right (le_of_lt hval)]
      · push_cast
        positivity
      · push_cast
        exact le_of_lt hval
      · push_cast
        rw [← specCompleted_eq_length_iff]
        constructor
        · intro h
          rw [h] at hval
          exact absurd hval (lt_irrefl _)
        · intro h
          exact absurd h (ne_of_lt hlt)
  · intro s' ht' hnd' hagree
    rw [updateProgress_specCompleted s targets ht hnd,
      updateProgress_specCompleted s' targets ht' hnd',
      specCompleted_congr targets _ _ hagree]

theorem updateProgress_formula_witness :
    (∃ n d : Nat, 0 < d ∧ (updateProgress dishReturned).progress = .frac n d ∧
      (n : ℚ) / d = min 100 (100 * (specCompleted ["煎蛋", "蛋炒饭"] dishReturned.ingredients : ℚ) /
        (["煎蛋", "蛋炒饭"] : List String).length) ∧
      0 ≤ (n : ℚ) / d ∧ (n : ℚ) / d ≤ 100 ∧
      ((n : ℚ) / d = 100 ↔
        ∀ t ∈ ["煎蛋", "蛋炒饭"], specHasPositive dishReturned.ingredients t = true)) ∧
    specCompleted ["煎蛋", "蛋炒饭"] dishReturned.ingredients = 1 ∧
    (updateProgress dishReturned).progress = .frac 100 2 :=
  ⟨(updateProgress_formula dishReturned ["煎蛋", "蛋炒饭"] (by decide) (by decide) (by decide)).1,
   by decide, by decide⟩

/-! ## C24: the reward tiers -/

theorem floor_two_fifths (p : Int) : ⌊(p : ℚ) * 0.4⌋ = (2 * p) / 5 := by
  rw [Int.floor_eq_iff]
  have h1 : 5 * ((2 * p) / 5) ≤ 2 * p := by omega
  have h2 : 2 * p < 5 * ((2 * p) / 5) + 5 := by omega
  have h1q : (5 : ℚ) * (((2 * p) / 5 : Int) : ℚ) ≤ 2 * (p : ℚ) := by exact_mod_cast h1
  have h2q : 2 * (p : ℚ) < (5 : ℚ) * (((2 * p) / 5 : Int) : ℚ) + 5 := by exact_mod_cast h2
  constructor <;> norm_num <;> linarith

theorem floor_one_fifth (p : Int) : ⌊(p : ℚ) * 0.2⌋ = p / 5 := by
  rw [Int.floor_eq_iff]
  have h1 : 5 * (p / 5) ≤ p := by omega
  have h2 : p < 5 * (p / 5) + 5 := by omega
  have h1q : (5 : ℚ) * ((p / 5 : Int) : ℚ) ≤ (p : ℚ) := by exact_mod_cast h1
  have h2q : (p : ℚ) < (5 : ℚ) * ((p / 5 : Int) : ℚ) + 5 := by exact_mod_cast h2
  constructor <;> norm_num <;> linarith

theorem showCompletionModal_savings (s : GameState) :
    (showCompletionModal s).savings =
      some (s.savings.getD 0 + rewardFor s.reward s.progress.round) := by
  unfold showCompletionModal
  cases s.progress.round <;> cases recipeBookOf s.reward <;> simp
  split <;> simp

/-- Claim C24.  For a rounded progress `p` between 0 and 100, `showCompletionModal` adds
to the stored savings (read as 0 when the key is missing) exactly the reward of the
tier of `p`: at `p = 100` the stage-defined full reward when it is a number other than 0
(the number of a flat reward, the `coins` field of a structured one, 50 when the stage
defines no reward), and 50 when that number is 0 or the `coins` field is missing; for
`80 ≤ p < 100` the floor of `p * 0.4`; for `50 ≤ p < 80` the floor of `p * 0.2`; below
50 nothing. -/
theorem showCompletionModal_reward (s : GameState) (p : Int)
    (hp : s.progress.round = some p) (h0 : 0 ≤ p) (h100 : p ≤ 100) :
    (showCompletionModal s).savings =
      some (s.savings.getD 0 + rewardFor s.reward (some p)) ∧
    (100 ≤ p → ∀ r, specFullReward s.reward = some r → r ≠ 0 →
      rewardFor s.reward (some p) = r) ∧
    (100 ≤ p → (specFullReward s.reward = some 0 ∨ specFullReward s.reward = none) →
      rewardFor s.reward (some p) = 50) ∧
    (80 ≤ p → p < 100 → rewardFor s.reward (some p) = ⌊(p : ℚ) * 0.4⌋) ∧
    (50 ≤ p → p < 80 → rewardFor s.reward (some p) = ⌊(p : ℚ) * 0.2⌋) ∧
    (p < 50 → rewardFor s.reward (some p) = 0) := by
  refine ⟨?_, ?_, ?_, ?_, ?_, ?_⟩
  · rw [showCompletionModal_savings, hp]
  · intro h r hr hr0
    simp only [rewardFor, if_pos h]
    rcases hrw : s.reward with _ | ⟨n⟩ | ⟨coins, book⟩
    · rw [hrw] at hr
      simp only [specFullReward, Option.some.injEq] at hr
      exact hr
    · rw [hrw] at hr
      simp only [specFullReward, Option.some.injEq] at hr
      subst hr
      simp [hr0]
    · rw [hrw] at hr
      simp only [specFullReward] at hr
      subst hr
      simp [hr0]
  · intro h hr
    simp only [rewardFor, if_pos h]
    rcases hrw : s.reward with _ | ⟨n⟩ | ⟨coins, book⟩
    · rfl
    · rw [hrw] at hr
      simp only [specFullReward, Option.some.injEq, reduceCtorEq, or_false] at hr
      simp [hr]
    · rw [hrw] at hr
      simp only [specFullReward] at hr
      rcases hr with hr | hr <;> simp [hr]
  · intro h80 hlt
    rw [floor_two_fifths]
    simp only [rewardFor, if_neg (not_le.mpr hlt), if_pos h80]
  · intro h50 hlt
    rw [floor_one_fifth]
    have h1 : ¬ (100 ≤ p) := by omega
    simp only [rewardFor, if_neg h1, if_neg (not_le.mpr hlt), if_pos h50]
  · intro hlt
    have h1 : ¬ (100 ≤ p) := by omega
    have h2 : ¬ (80 ≤ p) := by omega
    simp only [rewardFor, if_neg h1, if_neg h2, if_neg (not_le.mpr hlt)]

theorem showCompletionModal_reward_witness :
    ((showCompletionModal { demoStage with progress := .frac 85 1, savings := some 7 }).savings =
      some ((some (7 : Int)).getD 0 + rewardFor none (some 85)) ∧
     (80 ≤ (85 : Int) → (85 : Int) < 100 → rewardFor none (some 85) = ⌊((85 : Int) : ℚ) * 0.4⌋)) ∧
    rewardFor none (some 85) = 34 ∧ rewardFor none (some 60) = 12 ∧
    rewardFor none (some 30) = 0 ∧ rewardFor none (some 0) = 0 ∧
    rewardFor (some (.structured (some 120) none)) (some 100) = 120 ∧
    rewardFor (some (.flat 80)) (some 100) = 80 ∧ rewardFor none (some 100) = 50 ∧
    (showCompletionModal { demoStage with progress := .frac 85 1, savings := some 7 }).savings =
      some 41 :=
  ⟨⟨(showCompletionModal_reward { demoStage with progress := .frac 85 1, savings := some 7 } 85
      (by decide) (by decide) (by decide)).1,
    (showCompletionModal_reward { demoStage with progress := .frac 85 1, savings := some 7 } 85
      (by decide) (by decide) (by decide)).2.2.2.1⟩,
   by decide, by decide, by decide, by decide, by decide, by decide, by decide, by decide⟩

/-! ## C25: the merge of the unlocked recipes -/

theorem mem_setSpread (xs : List String) (y : String) : y ∈ setSpread xs ↔ y ∈ xs := by
  induction xs with
  | nil => simp [setSpread]
  | cons x rest ih =>
    simp only [setSpread, List.mem_cons, List.mem_filter, ih, Bool.not_eq_true',
      decide_eq_false_iff_not]
    by_cases h : y = x <;> simp [h]

theorem setSpread_nodup (xs : List String) : (setSpread xs).Nodup := by
  induction xs with
  | nil => simp [setSpread]
  | cons x rest ih =>
    simp only [setSpread, List.nodup_cons, List.mem_filter]
    exact ⟨by simp, ih.filter _⟩

theorem setSpread_of_nodup (xs : List String) (h : xs.Nodup) : setSpread xs = xs := by
  induction xs with
  | nil => rfl
  | cons x rest ih =>
    rw [List.nodup_cons] at h
    simp only [setSpread, ih h.2]
    congr 1
    rw [List.filter_eq_self]
    intro a ha
    have : a ≠ x := fun hax => h.1 (hax ▸ ha)
    simp [this]

theorem setSpread_append (a b : List String) :
    setSpread (a ++ b) = setSpread a ++ (setSpread b).filter (fun y => !decide (y ∈ a)) := by
  induction a with
  | nil => simp [setSpread]
  | cons x rest ih =>
    have hcons : setSpread (x :: rest ++ b) =
        x :: (setSpread (rest ++ b)).filter (fun y => !decide (y = x)) := rfl
    rw [hcons, ih, List.filter_append, List.filter_filter]
    simp only [setSpread, List.cons_append]
    congr 2
    apply List.filter_congr
    intro y _
    by_cases h1 : y = x <;> by_cases h2 : y ∈ rest <;> simp [h1, h2]

theorem setSpread_merge_twice (old new : List String) :
    setSpread (setSpread (old ++ new) ++ new) = setSpread (old ++ new) := by
  rw [setSpread_append (setSpread (old ++ new)) new,
    setSpread_of_nodup _ (setSpread_nodup (old ++ new))]
  have : (setSpread new).filter (fun y => !decide (y ∈ setSpread (old ++ new))) = [] := by
    rw [List.filter_eq_nil_iff]
    intro y hy
    have : y ∈ setSpread (old ++ new) := by
      rw [mem_setSpread] at hy ⊢
      exact List.mem_append_right _ hy
    simp [this]
  rw [this, List.append_nil]

theorem showCompletionModal_unlockedRecipes (s : GameState) :
    (showCompletionModal s).unlockedRecipes =
      match s.progress.round, recipeBookOf s.reward with
      | some p, some newRecipes =>
        if 50 ≤ p then some (setSpread (s.unlockedRecipes.getD [] ++ newRecipes))
        else s.unlockedRecipes
      | _, _ => s.unlockedRecipes := by
  unfold showCompletionModal
  cases s.progress.round <;> cases recipeBookOf s.reward <;> simp
  split <;> simp

/-- Claim C25.  Let `p` be the rounded progress and `old` the stored list of unlocked
recipes (empty when the key is missing).  When `p ≥ 50` and the stage reward has a
recipe list `new`, `showCompletionModal` stores a list without repetitions whose names
are exactly those of `old` or `new`, and which starts with the names of `old` in their
stored order (in the order of their first occurrences, should `old` repeat a name); when
`p < 50` the stored list is unchanged; and, whatever `p`, running the completion a second
time stores the same list as running it once. -/
theorem showCompletionModal_recipe_union (s : GameState) (p : Int)
    (hp : s.progress.round = some p) :
    (50 ≤ p → ∀ new, recipeBookOf s.reward = some new →
      ∃ merged, (showCompletionModal s).unlockedRecipes = some merged ∧
        merged.Nodup ∧
        (∀ name, name ∈ merged ↔ name ∈ s.unlockedRecipes.getD [] ∨ name ∈ new) ∧
        setSpread (s.unlockedRecipes.getD []) <+: merged ∧
        ((s.unlockedRecipes.getD []).Nodup → s.unlockedRecipes.getD [] <+: merged)) ∧
    (p < 50 → (showCompletionModal s).unlockedRecipes = s.unlockedRecipes) ∧
    (showCompletionModal (showCompletionModal s)).unlockedRecipes =
      (showCompletionModal s).unlockedRecipes := by
  refine ⟨?_, ?_, ?_⟩
  · intro h50 new hnew
    refine ⟨setSpread (s.unlockedRecipes.getD [] ++ new), ?_, setSpread_nodup _, ?_, ?_, ?_⟩
    · rw [showCompletionModal_unlockedRecipes, hp, hnew]
      simp [h50]
    · intro name
      rw [mem_setSpread, List.mem_append]
    · rw [setSpread_append]
      exact List.prefix_append _ _
    · intro hnd
      rw [setSpread_append, setSpread_of_nodup _ hnd]
      exact List.prefix_append _ _
  · intro hlt
    rw [showCompletionModal_unlockedRecipes, hp]
    cases recipeBookOf s.reward with
    | none => rfl
    | some new => simp [not_le.mpr hlt]
  · have hprog := showCompletionModal_progress s
    rw [showCompletionModal_unlockedRecipes (showCompletionModal s), hprog.1, hprog.2.2, hp]
    cases hnew : recipeBookOf s.reward with
    | none => rfl
    | some new =>
      by_cases h50 : 50 ≤ p
      · have h1 : (showCompletionModal s).unlockedRecipes =
            some (setSpread (s.unlockedRecipes.getD [] ++ new)) := by
          rw [showCompletionModal_unlockedRecipes, hp, hnew]
          simp [h50]
        rw [h1]
        simp only [if_pos h50, Option.getD_some, setSpread_merge_twice]
      · simp only [if_neg h50]

theorem showCompletionModal_recipe_union_witness :
    (∃ merged,
      (showCompletionModal { demoStage with
          progress := .frac 100 2, reward := some (.structured (some 30) (some ["煎蛋", "蛋炒饭"])),
          unlockedRecipes := some ["蛋炒饭", "白粥"] }).unlockedRecipes = some merged ∧
        merged.Nodup ∧
        (∀ name, name ∈ merged ↔
          name ∈ (some ["蛋炒饭", "白粥"] : Option (List String)).getD [] ∨
            name ∈ ["煎蛋", "蛋炒饭"]) ∧
        setSpread ((some ["蛋炒饭", "白粥"] : Option (List String)).getD []) <+: merged ∧
        (((some ["蛋炒饭", "白粥"] : Option (List String)).getD []).Nodup →
          (some ["蛋炒饭", "白粥"] : Option (List String)).getD [] <+: merged)) ∧
    (showCompletionModal { demoStage with
        progress := .frac 100 2, reward := some (.structured (some 30) (some ["煎蛋", "蛋炒饭"])),
        unlockedRecipes := some ["蛋炒饭", "白粥"] }).unlockedRecipes =
      some ["蛋炒饭", "白粥", "煎蛋"] :=
  ⟨(showCompletionModal_recipe_union { demoStage with
        progress := .frac 100 2, reward := some (.structured (some 30) (some ["煎蛋", "蛋炒饭"])),
        unlockedRecipes := some ["蛋炒饭", "白粥"] } 50 (by decide)).1 (by decide)
      ["煎蛋", "蛋炒饭"] (by decide),
   by decide⟩

/-! ## C30: an uninterrupted cooking run -/

theorem objSet_of_objGet {α : Type} (o : JsObj α) (k : String) (v : α)
    (h : objGet o k = some v) : objSet o k v = o := by
  induction o with
  | nil => simp [objGet] at h
  | cons p rest ih =>
    obtain ⟨a, b⟩ := p
    by_cases hk : a = k
    · simp only [objGet, hk, if_true, Option.some.injEq] at h
      simp [objSet, hk, h]
    · simp only [objGet, hk, if_false] at h
      simp [objSet, hk, ih h]

theorem objSet_objSet {α : Type} (o : JsObj α) (k : String) (v w : α) :
    objSet (objSet o k v) k w = objSet o k w := by
  induction o with
  | nil => simp [objSet]
  | cons p rest ih =>
    obtain ⟨a, b⟩ := p
    by_cases hk : a = k
    · simp [objSet, hk]
    · simp [objSet, hk, ih]

theorem updateToolCooking_running (s : GameState) (toolName : String) (t r : Int)
    (hget : objGet s.cookingProgress toolName =
      some { totalTime := .fin t, remainingTime := .fin r, isCooking := true })
    (hr : 1 < r) :
    updateToolCooking toolName s =
      { s with cookingProgress :=
          objSet s.cookingProgress toolName ⟨.fin t, .fin (r - 1), true⟩ } := by
  have hnot : ¬ (r - 1 ≤ 0) := by omega
  simp [updateToolCooking, hget, JsNum.decrement, JsNum.leZero, hnot]

theorem updateToolCooking_last (s : GameState) (toolName : String) (t : Int)
    (hget : objGet s.cookingProgress toolName =
      some { totalTime := .fin t, remainingTime := .fin 1, isCooking := true }) :
    updateToolCooking toolName s =
      finishToolCooking toolName
        (if (match s.allItemsData.tools.find? (fun t => decide (t.name = toolName)) with
            | some toolData => decide (toolData.fire = -1)
            | none => false) = true then 2 else 0)
        { s with cookingProgress :=
            objSet s.cookingProgress toolName ⟨.fin t, .fin 0, true⟩ } := by
  simp [updateToolCooking, hget, JsNum.decrement, JsNum.leZero]

theorem iterate_updateToolCooking (s : GameState) (toolName : String) (T : Nat)
    (hstart : objGet s.cookingProgress toolName =
      some { totalTime := .fin T, remainingTime := .fin T, isCooking := true })
    (k : Nat) (hk : k < T) :
    (updateToolCooking toolName)^[k] s =
      { s with cookingProgress :=
          objSet s.cookingProgress toolName ⟨.fin T, .fin ((T : Int) - k), true⟩ } := by
  induction k with
  | zero =>
    simp only [Function.iterate_zero, id_eq, Nat.cast_zero, sub_zero]
    rw [objSet_of_objGet _ _ _ hstart]
  | succ k ih =>
    rw [Function.iterate_succ_apply', ih (Nat.lt_of_succ_lt hk)]
    rw [updateToolCooking_running _ toolName T ((T : Int) - k)
      (by simp only; rw [objGet_objSet_self]) (by omega)]
    simp only [objSet_objSet]
    have : (T : Int) - k - 1 = (T : Int) - ((k + 1 : Nat) : Int) := by push_cast; ring
    rw [this]

theorem dumpClassification_running (r t : Int) (hr : 0 < r) (ht : 0 < t) :
    dumpClassification (percentRemaining (.fin r) (.fin t)) = 1 ∨
    dumpClassification (percentRemaining (.fin r) (.fin t)) = 2 := by
  have ht0 : t ≠ 0 := ne_of_gt ht
  simp only [percentRemaining, ht0, if_false, ht, if_true, dumpClassification,
    Percent.atLeast30, Percent.below30, Percent.positive]
  by_cases h30 : 30 * t ≤ 100 * r
  · right
    simp [h30]
  · left
    have h1 : 100 * r < 30 * t := by omega
    have h2 : 0 < 100 * r := by omega
    simp [h30, h1, h2]

/-- Claim C30.  Let the record of a tool read `totalTime = remainingTime = T ≥ 1` and
`isCooking`, as `startToolCooking` leaves it, and let only the tool's own interval fire.
After `k < T` ticks the state is the one at the start except for the record, whose
`remainingTime` is `T - k > 0` with `totalTime` and `isCooking` as before; so the ledger,
the stage ingredients and the timer handle are untouched, and a dump at that moment is
the resolution with code 1 (cooked) or 2 (raw), never 0 (burned).  The `T`-th tick is the
resolution `finishToolCooking` of the tool at `remainingTime = 0`, with code 2 for a tool
whose catalog entry has `fire = -1` and code 0 otherwise, and it empties the ledger entry
of the tool. -/
theorem updateToolCooking_uninterrupted (s : GameState) (toolName : String) (T : Nat)
    (hT : 1 ≤ T)
    (hstart : objGet s.cookingProgress toolName =
      some { totalTime := .fin T, remainingTime := .fin T, isCooking := true }) :
    (∀ k, k < T →
      (updateToolCooking toolName)^[k] s =
        { s with cookingProgress :=
            objSet s.cookingProgress toolName ⟨.fin T, .fin ((T : Int) - k), true⟩ } ∧
      objGet ((updateToolCooking toolName)^[k] s).cookingProgress toolName =
        some { totalTime := .fin T, remainingTime := .fin ((T : Int) - k), isCooking := true } ∧
      0 < (T : Int) - k ∧ (T : Int) - k ≤ T ∧
      ((updateToolCooking toolName)^[k] s).toolContents = s.toolContents ∧
      ((updateToolCooking toolName)^[k] s).ingredients = s.ingredients ∧
      ((updateToolCooking toolName)^[k] s).cookingTimers = s.cookingTimers ∧
      dumpToolIngredients toolName ((updateToolCooking toolName)^[k] s) =
        finishToolCooking toolName
          (dumpClassification (percentRemaining (.fin ((T : Int) - k)) (.fin T)))
          ((updateToolCooking toolName)^[k] s) ∧
      (dumpClassification (percentRemaining (.fin ((T : Int) - k)) (.fin T)) = 1 ∨
       dumpClassification (percentRemaining (.fin ((T : Int) - k)) (.fin T)) = 2)) ∧
    (updateToolCooking toolName)^[T] s =
      finishToolCooking toolName
        (if (match s.allItemsData.tools.find? (fun t => decide (t.name = toolName)) with
            | some toolData => decide (toolData.fire = -1)
            | none => false) = true then 2 else 0)
        { s with cookingProgress :=
            objSet s.cookingProgress toolName ⟨.fin T, .fin 0, true⟩ } ∧
    (∀ tc, objGet s.toolContents toolName = some tc →
      objGet ((updateToolCooking toolName)^[T] s).toolContents toolName =
        some { items := [], usedCapacity := 0, maxCapacity := tc.maxCapacity }) := by
  have hlast : (updateToolCooking toolName)^[T] s =
      finishToolCooking toolName
        (if (match s.allItemsData.tools.find? (fun t => decide (t.name = toolName)) with
            | some toolData => decide (toolData.fire = -1)
            | none => false) = true then 2 else 0)
        { s with cookingProgress :=
            objSet s.cookingProgress toolName ⟨.fin T, .fin 0, true⟩ } := by
    obtain ⟨n, rfl⟩ : ∃ n, T = n + 1 := ⟨T - 1, by omega⟩
    rw [Function.iterate_succ_apply', iterate_updateToolCooking s toolName (n + 1) hstart n
      (Nat.lt_succ_self n)]
    have hone : ((n + 1 : Nat) : Int) - n = 1 := by push_cast; ring
    rw [hone, updateToolCooking_last _ toolName ((n + 1 : Nat) : Int)
      (by simp only; rw [objGet_objSet_self])]
    simp only [objSet_objSet]
  refine ⟨?_, hlast, ?_⟩
  · intro k hk
    have hiter := iterate_updateToolCooking s toolName T hstart k hk
    have hpos : 0 < (T : Int) - k := by omega
    have hget : objGet ((updateToolCooking toolName)^[k] s).cookingProgress toolName =
        some { totalTime := .fin T, remainingTime := .fin ((T : Int) - k), isCooking := true } := by
      rw [hiter]
      simp only
      rw [objGet_objSet_self]
    refine ⟨hiter, hget, hpos, by omega, by rw [hiter], by rw [hiter], by rw [hiter], ?_,
      dumpClassification_running _ _ hpos (by omega)⟩
    simp [dumpToolIngredients, hget]
  · intro tc htc
    rw [hlast, finishToolCooking_toolContents]
    simp only [htc]
    rw [objGet_objSet_self]

theorem updateToolCooking_uninterrupted_witness :
    objGet (startToolCooking "平底锅" panWithTwoEggs).cookingProgress "平底锅" =
      some { totalTime := .fin (20 : Nat), remainingTime := .fin (20 : Nat), isCooking := true } ∧
    (∀ tc, objGet (startToolCooking "平底锅" panWithTwoEggs).toolContents "平底锅" = some tc →
      objGet ((updateToolCooking "平底锅")^[20]
          (startToolCooking "平底锅" panWithTwoEggs)).toolContents "平底锅" =
        some { items := [], usedCapacity := 0, maxCapacity := tc.maxCapacity }) ∧
    objGet ((updateToolCooking "平底锅")^[19]
        (startToolCooking "平底锅" panWithTwoEggs)).cookingProgress "平底锅" =
      some { totalTime := .fin 20, remainingTime := .fin 1, isCooking := true } ∧
    objGet ((updateToolCooking "平底锅")^[19]
        (startToolCooking "平底锅" panWithTwoEggs)).toolContents "平底锅" = some twoEggs ∧
    quantityOf ((updateToolCooking "平底锅")^[20]
        (startToolCooking "平底锅" panWithTwoEggs)).ingredients "烤焦的食物" = some (.num 2) :=
  ⟨by decide,
   (updateToolCooking_uninterrupted (startToolCooking "平底锅" panWithTwoEggs) "平底锅" 20
      (by decide) (by decide)).2.2,
   by decide, by decide, by decide⟩

/-! ## C29: leftovers of an abstract recipe -/

theorem objGet_append_new {α : Type} (o : JsObj α) (k : String) (v : α) (name : String)
    (h : objGet o k = none) :
    objGet (o ++ [(k, v)]) name = if name = k then some v else objGet o name := by
  induction o with
  | nil =>
    by_cases hk : k = name
    · simp [objGet, hk]
    · have : ¬ name = k := fun e => hk e.symm
      simp [objGet, hk, this]
  | cons p rest ih =>
    obtain ⟨a, b⟩ := p
    by_cases hak : a = k
    · simp [objGet, hak] at h
    · simp only [objGet, hak, if_false] at h
      simp only [List.cons_append, objGet]
      by_cases han : a = name
      · have : ¬ name = k := fun e => hak (han.trans e)
        simp [han, this]
      · simp only [han, if_false]
        exact ih h

theorem objSet_append_new {α : Type} (o : JsObj α) (k : String) (v : α)
    (h : objGet o k = none) : objSet o k v = o ++ [(k, v)] := by
  induction o with
  | nil => rfl
  | cons p rest ih =>
    obtain ⟨a, b⟩ := p
    by_cases hak : a = k
    · simp [objGet, hak] at h
    · simp only [objGet, hak, if_false] at h
      simp [objSet, hak, ih h]

theorem objSet_append_last {α : Type} (o : JsObj α) (k : String) (v w : α)
    (h : objGet o k = none) : objSet (o ++ [(k, v)]) k w = o ++ [(k, w)] := by
  induction o with
  | nil => simp [objSet]
  | cons p rest ih =>
    obtain ⟨a, b⟩ := p
    by_cases hak : a = k
    · simp [objGet, hak] at h
    · simp only [objGet, hak, if_false] at h
      simp [objSet, hak, ih h]

theorem objKeys_append_new {α : Type} (o : JsObj α) (k : String) (v : α)
    (h : objGet o k = none) : objKeys (o ++ [(k, v)]) = objKeys o ++ [k] := by
  induction o with
  | nil => simp [objKeys]
  | cons p rest ih =>
    obtain ⟨a, b⟩ := p
    by_cases hak : a = k
    · simp [objGet, hak] at h
    · simp only [objGet, hak, if_false] at h
      have hka : ¬ k = a := fun e => hak e.symm
      simp [objKeys, ih h, List.filter_append, hka]

theorem objDelete_append_new {α : Type} (o : JsObj α) (k : String) (v : α) (m : String)
    (hkm : k ≠ m) : objDelete (o ++ [(k, v)]) m = objDelete o m ++ [(k, v)] := by
  simp [objDelete, List.filter_append, hkm]

theorem foldl_objDelete_append_new {α : Type} (l : List String) (o : JsObj α) (k : String)
    (v : α) (hk : k ∉ l) :
    l.foldl objDelete (o ++ [(k, v)]) = l.foldl objDelete o ++ [(k, v)] := by
  induction l generalizing o with
  | nil => rfl
  | cons x xs ih =>
    rw [List.mem_cons, not_or] at hk
    simp only [List.foldl_cons]
    rw [objDelete_append_new o k v x hk.1, ih _ hk.2]

theorem find_congr_mem {α : Type} (p q : α → Bool) (l : List α) (h : ∀ a ∈ l, p a = q a) :
    l.find? p = l.find? q := by
  induction l with
  | nil => rfl
  | cons x xs ih =>
    have hx := h x (List.mem_cons_self _ _)
    have ih' := ih (fun a ha => h a (List.mem_cons_of_mem _ ha))
    simp only [List.find?_cons, hx, ih']

theorem bindWildcards_append_new (inputs : JsObj Int) (wkeys : List String)
    (rem : JsObj Int) (wm res : JsObj String) (x : String) (n : Int)
    (hx : objGet rem x = none)
    (h : bindWildcards inputs wkeys rem wm = some res) :
    bindWildcards inputs wkeys (rem ++ [(x, n)]) wm = some res := by
  induction wkeys generalizing rem wm with
  | nil => exact h
  | cons key rest ih =>
    simp only [bindWildcards] at h ⊢
    split at h
    · rename_i matched hfind
      split at h
      · cases h
      · rename_i hne
        have hmem := List.mem_of_find?_eq_some hfind
        have hmx : matched ≠ x := by
          intro e
          obtain ⟨c, hc⟩ := (mem_objKeys _ _).mp hmem
          rw [e, hx] at hc
          cases hc
        have hfind' : (objKeys (rem ++ [(x, n)])).find? (fun name =>
            decide (objGet (rem ++ [(x, n)]) name = objGet inputs key) &&
            !decide (name ∈ objValues wm)) = some matched := by
          rw [objKeys_append_new rem x n hx, List.find?_append]
          have hc : (objKeys rem).find? (fun name =>
              decide (objGet (rem ++ [(x, n)]) name = objGet inputs key) &&
              !decide (name ∈ objValues wm)) = some matched := by
            rw [← hfind]
            apply find_congr_mem
            intro a ha
            have hax : a ≠ x := by
              intro e
              obtain ⟨c, hc⟩ := (mem_objKeys _ _).mp ha
              rw [e, hx] at hc
              cases hc
            rw [objGet_append_new rem x n a hx, if_neg hax]
          rw [hc]
          rfl
        rw [hfind']
        simp only [hne, if_false]
        rw [objDelete_append_new rem x n matched (fun e => hmx e.symm)]
        apply ih _ _ _ h
        rw [objGet_objDelete]
        simp [hx]
    · cases h

theorem abstractMatch_append_new (toolIngredients : JsObj Int) (recipe : Recipe) (x : String)
    (n : Int) (wildcardMap : JsObj String) (hx : objGet toolIngredients x = none)
    (h : abstractMatch toolIngredients recipe = some wildcardMap) :
    abstractMatch (toolIngredients ++ [(x, n)]) recipe = some wildcardMap := by
  unfold abstractMatch at h ⊢
  simp only at h ⊢
  split at h
  · rename_i hall
    simp only [List.all_eq_true, List.mem_filter, Bool.not_eq_true', decide_eq_true_eq,
      and_imp] at hall
    have hlit : x ∉ (objKeys recipe.input).filter (fun name => !startsWithBrace name) := by
      intro hm
      have hm' := List.mem_filter.mp hm
      obtain ⟨c, hc⟩ := (mem_objKeys _ _).mp hm'.1
      have := hall x hm'.1 (by simpa using hm'.2)
      rw [hx, hc] at this
      cases this
    have hall' : ((objKeys recipe.input).filter (fun name => !startsWithBrace name)).all
        (fun name => decide (objGet (toolIngredients ++ [(x, n)]) name =
          objGet recipe.input name)) = true := by
      simp only [List.all_eq_true, decide_eq_true_eq]
      intro name hname
      have hnx : name ≠ x := fun e => hlit (e ▸ hname)
      rw [objGet_append_new _ _ _ _ hx, if_neg hnx]
      have hm' := List.mem_filter.mp hname
      exact hall name hm'.1 (by simpa using hm'.2)
    rw [if_pos hall', foldl_objDelete_append_new _ _ _ _ hlit]
    apply bindWildcards_append_new _ _ _ _ _ _ _ _ h
    rw [foldl_objDelete_get]
    simp [hx]
  · cases h

theorem foldl_count_extra (extra : List Item) (o : JsObj Int) (x : String) (n : Int)
    (hx : objGet o x = none) (hextra : ∀ i ∈ extra, i.name = x) :
    ∃ n', extra.foldl (fun acc item =>
        objSet acc item.name ((objGet acc item.name).getD 0 + 1)) (o ++ [(x, n)]) =
      o ++ [(x, n')] := by
  induction extra generalizing n with
  | nil => exact ⟨n, rfl⟩
  | cons e es ih =>
    have he : e.name = x := hextra e (List.mem_cons_self _ _)
    simp only [List.foldl_cons, he]
    rw [objSet_append_last o x n _ hx]
    exact ih _ (fun i hi => hextra i (List.mem_cons_of_mem _ hi))

theorem toolIngredientsOf_append_extra (items extra : List Item) (x : String)
    (hnew : x ∉ items.map (fun i => i.name)) (hextra : ∀ i ∈ extra, i.name = x) :
    toolIngredientsOf (items ++ extra) = toolIngredientsOf items ∨
    ∃ n, toolIngredientsOf (items ++ extra) = toolIngredientsOf items ++ [(x, n)] := by
  have hx : objGet (toolIngredientsOf items) x = none := by
    rw [toolIngredientsOf_get, if_pos (List.count_eq_zero.mpr hnew)]
  cases extra with
  | nil => left; simp
  | cons e es =>
    right
    have he : e.name = x := hextra e (List.mem_cons_self _ _)
    unfold toolIngredientsOf at hx ⊢
    simp only [List.foldl_append, List.foldl_cons, he]
    rw [objSet_append_new _ x _ hx]
    exact foldl_count_extra es _ x _ hx (fun i hi => hextra i (List.mem_cons_of_mem _ hi))

theorem abstractMatch_extra (items extra : List Item) (recipe : Recipe) (x : String)
    (wildcardMap : JsObj String)
    (hmatch : abstractMatch (toolIngredientsOf items) recipe = some wildcardMap)
    (hnew : x ∉ items.map (fun i => i.name)) (hextra : ∀ i ∈ extra, i.name = x) :
    abstractMatch (toolIngredientsOf (items ++ extra)) recipe = some wildcardMap := by
  have hx : objGet (toolIngredientsOf items) x = none := by
    rw [toolIngredientsOf_get, if_pos (List.count_eq_zero.mpr hnew)]
  rcases toolIngredientsOf_append_extra items extra x hnew hextra with h | ⟨n, h⟩
  · rw [h]; exact hmatch
  · rw [h]; exact abstractMatch_append_new _ _ _ _ _ hx hmatch

/-- Claim C29.  Let an item list match an abstract recipe with the binding `wildcardMap`,
and let `extra` be any number of items of one name `x` that does not occur in the list
(so `x` is no literal input of the recipe either).  The list extended by `extra` matches
the recipe with the same binding, in which `x` is bound to no wildcard.  When the recipe
is the catalog and lists the tool, resolving a tool that holds the extended list as
cooked or as raw credits the outputs of that match and nothing else to the stage
ingredients, exactly as for the list without `extra`, and empties the tool: the
leftover items are gone without a return. -/
theorem abstractMatch_tolerates_leftover (items extra : List Item) (recipe : Recipe)
    (x : String) (wildcardMap : JsObj String)
    (hmatch : abstractMatch (toolIngredientsOf items) recipe = some wildcardMap)
    (hnew : x ∉ items.map (fun i => i.name)) (hextra : ∀ i ∈ extra, i.name = x) :
    abstractMatch (toolIngredientsOf (items ++ extra)) recipe = some wildcardMap ∧
    (∀ key, objGet wildcardMap key ≠ some x) ∧
    x ∉ nonWildcardIngredients recipe ∧
    (∀ (s : GameState) (toolName : String) (tc : ToolContent) (isCooked : Int),
      recipe.abstract = true → toolName ∈ recipe.tool → s.recipes = some [recipe] →
      objGet s.toolContents toolName = some tc → tc.items = items ++ extra →
      (isCooked = 1 ∨ isCooked = 2) →
      checkRecipeMatch s.recipes tc.items toolName =
        some { recipe := recipe, wildcardMap := some wildcardMap } ∧
      (finishToolCooking toolName isCooked s).ingredients =
        creditOutputs { recipe := recipe, wildcardMap := some wildcardMap } s.ingredients ∧
      objGet (finishToolCooking toolName isCooked s).toolContents toolName =
        some { items := [], usedCapacity := 0, maxCapacity := tc.maxCapacity }) := by
  have hext := abstractMatch_extra items extra recipe x wildcardMap hmatch hnew hextra
  obtain ⟨hs1, hs2, _, _⟩ := abstractMatch_sound _ _ _ hmatch
  have hx : objGet (toolIngredientsOf items) x = none := by
    rw [toolIngredientsOf_get, if_pos (List.count_eq_zero.mpr hnew)]
  refine ⟨hext, ?_, ?_, ?_⟩
  · intro key hkey
    have hmem : key ∈ objKeys wildcardMap := (mem_objKeys _ _).mpr ⟨x, hkey⟩
    obtain ⟨_, _, hk3, _⟩ := abstractMatch_sound _ _ _ hmatch
    obtain ⟨hk1, hk2⟩ := hk3 key x hkey
    obtain ⟨bound, c, hb, _, hti, _⟩ := hs2 key hk1 hk2
    rw [hkey] at hb
    cases hb
    rw [hx] at hti
    cases hti
  · intro hm
    have hm' := List.mem_filter.mp hm
    obtain ⟨c, hc⟩ := (mem_objKeys _ _).mp hm'.1
    have := hs1 x hm'.1 (by simpa using hm'.2)
    rw [hx, hc] at this
    cases this
  · intro s toolName tc isCooked habs htool hrec hget hitems hcode
    have hcm : checkRecipeMatch s.recipes tc.items toolName =
        some { recipe := recipe, wildcardMap := some wildcardMap } := by
      rw [hrec, hitems, checkRecipeMatch_eq_checkRecipes]
      simp [checkRecipes, htool, habs, hext]
    refine ⟨hcm, ?_, ?_⟩
    · rw [finishToolCooking_ingredients_eq toolName isCooked s tc hget, hcm]
      rcases hcode with h | h <;> simp [h]
    · rw [finishToolCooking_toolContents, hget]
      simp only
      rw [objGet_objSet_self]

theorem abstractMatch_tolerates_leftover_witness :
    (abstractMatch (toolIngredientsOf riceBeefItems) friedRiceRecipe =
        some [("\x7bmeat\x7d", "beef")] ∧
     abstractMatch (toolIngredientsOf (riceBeefItems ++ onionItems)) friedRiceRecipe =
        some [("\x7bmeat\x7d", "beef")]) ∧
    ((finishToolCooking "wok" 1 wokWithLeftover).ingredients =
        creditOutputs friedRiceMatch wokWithLeftover.ingredients ∧
     objGet (finishToolCooking "wok" 1 wokWithLeftover).toolContents "wok" =
        some { items := [], usedCapacity := 0, maxCapacity := 1000 }) ∧
    (finishToolCooking "wok" 1 wokWithLeftover).ingredients =
      [{ name := "beef fried rice", quantity := .num 1 }] ∧
    exactMatch (toolIngredientsOf eggSaltItems) friedEggRecipe = true ∧
    exactMatch (toolIngredientsOf (eggSaltItems ++ onionItems)) friedEggRecipe = false ∧
    abstractMatch (toolIngredientsOf (riceBeefItems ++ [{ name := "beef", size := 150 }]))
      friedRiceRecipe = none :=
  ⟨⟨by decide,
    (abstractMatch_tolerates_leftover riceBeefItems onionItems friedRiceRecipe "onion"
      [("\x7bmeat\x7d", "beef")] (by decide) (by decide) (by decide)).1⟩,
   ((abstractMatch_tolerates_leftover riceBeefItems onionItems friedRiceRecipe "onion"
      [("\x7bmeat\x7d", "beef")] (by decide) (by decide) (by decide)).2.2.2
      wokWithLeftover "wok"
      { items := riceBeefItems ++ onionItems, usedCapacity := 370, maxCapacity := 1000 } 1
      (by decide) (by decide) (by decide) (by decide) rfl (Or.inl rfl)).2,
   by decide, by decide, by decide, by decide⟩

/-! ## C28: completeness of the greedy wildcard binding -/

theorem objKeys_objDelete {α : Type} (o : JsObj α) (k : String) :
    objKeys (objDelete o k) = (objKeys o).filter (fun n => !decide (n = k)) := by
  induction o with
  | nil => rfl
  | cons p rest ih =>
    obtain ⟨a, b⟩ := p
    simp only [objDelete] at ih ⊢
    by_cases h : a = k
    · subst h
      simp only [List.filter_cons, decide_True, Bool.not_true, Bool.false_eq_true, if_false,
        objKeys, ih, List.filter_filter, Bool.and_self]
    · simp only [List.filter_cons, h, decide_False, Bool.not_false, if_true, objKeys, ih,
        List.filter_filter]
      congr 1
      apply List.filter_congr
      intro x _
      exact Bool.and_comm _ _

theorem length_filter_ne_of_nodup (l : List String) (m : String) (hnd : l.Nodup) :
    (l.filter (fun n => !decide (n = m))).length = l.length - (if m ∈ l then 1 else 0) := by
  induction l with
  | nil => simp
  | cons a rest ih =>
    rw [List.nodup_cons] at hnd
    have ih' := ih hnd.2
    by_cases ham : a = m
    · subst ham
      have hself : rest.filter (fun n => !decide (n = a)) = rest := by
        rw [List.filter_eq_self]
        intro x hx
        have : x ≠ a := fun e => hnd.1 (e ▸ hx)
        simp [this]
      simp [List.filter_cons, hself]
    · have hma : ¬ m = a := fun e => ham e.symm
      simp only [List.filter_cons, ham, decide_False, Bool.not_false, if_true, List.length_cons,
        List.mem_cons, hma, false_or, ih']
      by_cases hm : m ∈ rest
      · have := List.length_pos_of_mem hm
        simp only [hm, if_true]
        omega
      · simp [hm]

theorem count_objDelete (rem : JsObj Int) (m : String) (c : Int) :
    ((objKeys (objDelete rem m)).filter
        (fun n => decide (objGet (objDelete rem m) n = some c))).length =
      ((objKeys rem).filter (fun n => decide (objGet rem n = some c))).length -
        (if objGet rem m = some c then 1 else 0) := by
  have hswap : (objKeys (objDelete rem m)).filter
        (fun n => decide (objGet (objDelete rem m) n = some c)) =
      ((objKeys rem).filter (fun n => decide (objGet rem n = some c))).filter
        (fun n => !decide (n = m)) := by
    rw [objKeys_objDelete, List.filter_filter, List.filter_filter]
    apply List.filter_congr
    intro x _
    rw [objGet_objDelete]
    by_cases hx : x = m <;> simp [hx]
  rw [hswap, length_filter_ne_of_nodup _ _ ((objKeys_nodup rem).filter _)]
  congr 1
  by_cases hm : objGet rem m = some c
  · have : m ∈ objKeys rem := (mem_objKeys _ _).mpr ⟨c, hm⟩
    simp [List.mem_filter, hm, this]
  · simp [List.mem_filter, hm]

theorem bindWildcards_complete (inputs : JsObj Int) (wkeys : List String)
    (rem : JsObj Int) (wm : JsObj String)
    (hinput : ∀ k ∈ wkeys, ∃ c, objGet inputs k = some c)
    (hempty : objGet rem "" = none)
    (hfresh : ∀ k b, objGet wm k = some b → objGet rem b = none)
    (hcount : ∀ c : Int,
      (wkeys.filter (fun k => decide (objGet inputs k = some c))).length ≤
        ((objKeys rem).filter (fun n => decide (objGet rem n = some c))).length) :
    ∃ res, bindWildcards inputs wkeys rem wm = some res := by
  induction wkeys generalizing rem wm with
  | nil => exact ⟨wm, rfl⟩
  | cons key rest ih =>
    obtain ⟨c0, hc0⟩ := hinput key (List.mem_cons_self _ _)
    have hpos : 0 < ((objKeys rem).filter (fun n => decide (objGet rem n = some c0))).length := by
      have h1 := hcount c0
      have : 0 < ((key :: rest).filter (fun k => decide (objGet inputs k = some c0))).length := by
        simp [List.filter_cons, hc0]
      omega
    obtain ⟨n, hn⟩ := List.exists_mem_of_length_pos hpos
    have hn' := List.mem_filter.mp hn
    have hnval : objGet rem n = some c0 := by simpa using hn'.2
    have hnfree : n ∉ objValues wm := by
      intro hv
      unfold objValues at hv
      obtain ⟨k, _, hk⟩ := List.mem_filterMap.mp hv
      have := hfresh k n hk
      rw [hnval] at this
      cases this
    cases hfind : (objKeys rem).find? (fun name =>
        decide (objGet rem name = objGet inputs key) &&
        !decide (name ∈ objValues wm)) with
    | none =>
      rw [List.find?_eq_none] at hfind
      have := hfind n hn'.1
      simp [hnval, hc0, hnfree] at this
    | some m =>
      have hmprop := List.find?_some hfind
      simp only [Bool.and_eq_true, decide_eq_true_eq, Bool.not_eq_true',
        decide_eq_false_iff_not] at hmprop
      have hmval : objGet rem m = some c0 := by rw [hmprop.1, hc0]
      have hmne : m ≠ "" := by
        intro e
        rw [e, hempty] at hmval
        cases hmval
      simp only [bindWildcards, hfind, hmne, if_false]
      apply ih
      · intro k hk
        exact hinput k (List.mem_cons_of_mem _ hk)
      · rw [objGet_objDelete]
        simp [hempty]
      · intro k b hk
        rw [objGet_objSet] at hk
        rw [objGet_objDelete]
        by_cases hkk : key = k
        · simp only [hkk, if_true, Option.some.injEq] at hk
          simp [hk]
        · simp only [hkk, if_false] at hk
          simp [hfresh k b hk]
      · intro c
        rw [count_objDelete]
        have h1 := hcount c
        by_cases hcc : c = c0
        · subst hcc
          simp only [List.filter_cons, hc0, decide_True, if_true, List.length_cons] at h1
          simp only [hmval, if_true]
          omega
        · have hne1 : ¬ (objGet inputs key = some c) := by
            rw [hc0]
            intro e
            exact hcc (Option.some.inj e).symm
          have hne2 : ¬ (objGet rem m = some c) := by
            rw [hmval]
            intro e
            exact hcc (Option.some.inj e).symm
          simp only [List.filter_cons, hne1, decide_False, Bool.false_eq_true, if_false] at h1
          simp only [hne2, if_false]
          omega

theorem abstractMatch_to_assignment (items : List Item) (recipe : Recipe) :
    (∃ wm, abstractMatch (toolIngredientsOf items) recipe = some wm) →
      ((∀ name ∈ nonWildcardIngredients recipe,
        objGet recipe.input name =
          some (((items.map (fun i => i.name)).count name : Nat) : Int)) ∧
      ∃ f : String → String,
        (∀ key ∈ wildcardIngredients recipe,
          f key ∈ items.map (fun i => i.name) ∧ f key ∉ nonWildcardIngredients recipe ∧
          objGet recipe.input key =
            some (((items.map (fun i => i.name)).count (f key) : Nat) : Int)) ∧
        (∀ k1 ∈ wildcardIngredients recipe, ∀ k2 ∈ wildcardIngredients recipe,
          f k1 = f k2 → k1 = k2)) := by
  rintro ⟨wm, hwm⟩
  obtain ⟨h1, h2, _, h4⟩ := abstractMatch_sound _ _ _ hwm
  constructor
  · intro name hname
    have hm := List.mem_filter.mp hname
    obtain ⟨v, hv⟩ := (mem_objKeys _ _).mp hm.1
    have := h1 name hm.1 (by simpa using hm.2)
    rw [hv, toolIngredientsOf_get_eq_some] at this
    rw [hv, this.1]
  · refine ⟨fun key => (objGet wm key).getD "", ?_, ?_⟩
    · intro key hkey
      have hm := List.mem_filter.mp hkey
      obtain ⟨bound, c, hb, hnot, hti, hin⟩ := h2 key hm.1 hm.2
      rw [toolIngredientsOf_get_eq_some] at hti
      simp only [hb, Option.getD_some]
      refine ⟨hti.2, ?_, by rw [hin, hti.1]⟩
      intro hmem
      have hm' := List.mem_filter.mp hmem
      exact hnot ⟨hm'.1, by simpa using hm'.2⟩
    · intro k1 hk1 k2 hk2 hf
      have hm1 := List.mem_filter.mp hk1
      have hm2 := List.mem_filter.mp hk2
      obtain ⟨b1, _, hb1, _, _, _⟩ := h2 k1 hm1.1 hm1.2
      obtain ⟨b2, _, hb2, _, _, _⟩ := h2 k2 hm2.1 hm2.2
      simp only [hb1, hb2, Option.getD_some] at hf
      subst hf
      exact h4 k1 k2 b1 hb1 hb2

theorem assignment_to_count (items : List Item) (recipe : Recipe) (f : String → String)
    (hf : ∀ key ∈ wildcardIngredients recipe,
      f key ∈ items.map (fun i => i.name) ∧ f key ∉ nonWildcardIngredients recipe ∧
      objGet recipe.input key =
        some (((items.map (fun i => i.name)).count (f key) : Nat) : Int))
    (hinj : ∀ k1 ∈ wildcardIngredients recipe, ∀ k2 ∈ wildcardIngredients recipe,
      f k1 = f k2 → k1 = k2) (c : Int) :
    specWildcardsRequiring recipe c ≤ specCandidates items recipe c := by
  unfold specWildcardsRequiring specCandidates
  have hnd : ((wildcardIngredients recipe).filter
      (fun key => decide (objGet recipe.input key = some c))).Nodup :=
    ((objKeys_nodup _).filter _).filter _
  have hmap : (((wildcardIngredients recipe).filter
      (fun key => decide (objGet recipe.input key = some c))).map f).Nodup := by
    apply List.Nodup.map_on _ hnd
    intro x hx y hy hxy
    exact hinj x (List.mem_filter.mp hx).1 y (List.mem_filter.mp hy).1 hxy
  have hsub : ((wildcardIngredients recipe).filter
      (fun key => decide (objGet recipe.input key = some c))).map f ⊆
      ((items.map (fun i => i.name)).dedup).filter (fun name =>
        !decide (name ∈ nonWildcardIngredients recipe) &&
        decide ((((items.map (fun i => i.name)).count name : Nat) : Int) = c)) := by
    intro b hb
    obtain ⟨key, hkey, rfl⟩ := List.mem_map.mp hb
    have hk := List.mem_filter.mp hkey
    obtain ⟨hf1, hf2, hf3⟩ := hf key hk.1
    have hreq : objGet recipe.input key = some c := by simpa using hk.2
    rw [hreq] at hf3
    rw [List.mem_filter]
    refine ⟨List.mem_dedup.mpr hf1, ?_⟩
    simp only [Bool.and_eq_true, Bool.not_eq_true', decide_eq_false_iff_not, decide_eq_true_eq]
    exact ⟨hf2, (Option.some.inj hf3).symm⟩
  have := (List.subperm_of_subset hmap hsub).length_le
  rwa [List.length_map] at this

theorem count_to_abstractMatch (items : List Item) (recipe : Recipe)
    (hnames : ∀ i ∈ items, i.name ≠ "")
    (hlit : ∀ name ∈ nonWildcardIngredients recipe, objGet recipe.input name ≠ some 0)
    (hliteral : ∀ name ∈ nonWildcardIngredients recipe,
      objGet recipe.input name =
        some (((items.map (fun i => i.name)).count name : Nat) : Int))
    (hcount : ∀ c : Int, specWildcardsRequiring recipe c ≤ specCandidates items recipe c) :
    ∃ wm, abstractMatch (toolIngredientsOf items) recipe = some wm := by
  have hti : ∀ name, name ∈ items.map (fun i => i.name) →
      objGet (toolIngredientsOf items) name =
        some (((items.map (fun i => i.name)).count name : Nat) : Int) := by
    intro name hname
    rw [toolIngredientsOf_get_eq_some]
    exact ⟨rfl, hname⟩
  have hall : (nonWildcardIngredients recipe).all
      (fun name => decide (objGet (toolIngredientsOf items) name =
        objGet recipe.input name)) = true := by
    simp only [List.all_eq_true, decide_eq_true_eq]
    intro name hname
    have h1 := hliteral name hname
    have h0 := hlit name hname
    rw [h1]
    apply hti
    by_contra hnot
    rw [List.count_eq_zero.mpr hnot] at h1
    exact h0 h1
  unfold abstractMatch
  simp only
  unfold nonWildcardIngredients at hall
  rw [if_pos hall]
  apply bindWildcards_complete
  · intro k hk
    exact (mem_objKeys _ _).mp (List.mem_filter.mp hk).1
  · rw [foldl_objDelete_get]
    split
    · rfl
    · rw [toolIngredientsOf_get, if_pos]
      apply List.count_eq_zero.mpr
      intro hm
      obtain ⟨i, hi, hname⟩ := List.mem_map.mp hm
      exact hnames i hi hname
  · intro k b hk
    simp [objGet] at hk
  · intro c
    refine le_trans (hcount c) ?_
    unfold specCandidates
    apply (List.subperm_of_subset ((List.nodup_dedup _).filter _) _).length_le
    intro n hn
    have hn' := List.mem_filter.mp hn
    have hmem : n ∈ items.map (fun i => i.name) := List.mem_dedup.mp hn'.1
    have hprop := hn'.2
    simp only [Bool.and_eq_true, Bool.not_eq_true', decide_eq_false_iff_not,
      decide_eq_true_eq] at hprop
    have hval : objGet ((nonWildcardIngredients recipe).foldl objDelete
        (toolIngredientsOf items)) n = some c := by
      rw [foldl_objDelete_get, if_neg hprop.1, hti n hmem, hprop.2]
    rw [List.mem_filter]
    exact ⟨(mem_objKeys _ _).mpr ⟨c, hval⟩, by simpa using hval⟩

theorem abstractMatch_iff_count (items : List Item) (recipe : Recipe)
    (hnames : ∀ i ∈ items, i.name ≠ "")
    (hlit : ∀ name ∈ nonWildcardIngredients recipe, objGet recipe.input name ≠ some 0) :
    (abstractMatch (toolIngredientsOf items) recipe).isSome = true ↔
      (∀ name ∈ nonWildcardIngredients recipe,
        objGet recipe.input name =
          some (((items.map (fun i => i.name)).count name : Nat) : Int)) ∧
      ∀ c : Int, specWildcardsRequiring recipe c ≤ specCandidates items recipe c := by
  rw [Option.isSome_iff_exists]
  constructor
  · intro h
    obtain ⟨h1, f, hf, hinj⟩ := abstractMatch_to_assignment items recipe h
    exact ⟨h1, assignment_to_count items recipe f hf hinj⟩
  · rintro ⟨h1, h2⟩
    exact count_to_abstractMatch items recipe hnames hlit h1 h2

theorem specWildcardsRequiring_perm (r1 r2 : Recipe)
    (hperm : (objKeys r1.input).Perm (objKeys r2.input))
    (hget : ∀ key, objGet r1.input key = objGet r2.input key) (c : Int) :
    specWildcardsRequiring r1 c = specWildcardsRequiring r2 c := by
  unfold specWildcardsRequiring wildcardIngredients
  have hfun : (fun key => decide (objGet r1.input key = some c)) =
      (fun key => decide (objGet r2.input key = some c)) := by
    funext key
    rw [hget]
  rw [hfun]
  exact ((hperm.filter _).filter _).length_eq

theorem mem_nonWildcardIngredients_perm (r1 r2 : Recipe)
    (hperm : (objKeys r1.input).Perm (objKeys r2.input)) (name : String) :
    name ∈ nonWildcardIngredients r1 ↔ name ∈ nonWildcardIngredients r2 := by
  unfold nonWildcardIngredients
  exact (hperm.filter _).mem_iff

theorem specCandidates_perm (items : List Item) (r1 r2 : Recipe)
    (hperm : (objKeys r1.input).Perm (objKeys r2.input)) (c : Int) :
    specCandidates items r1 c = specCandidates items r2 c := by
  unfold specCandidates
  congr 1
  apply List.filter_congr
  intro name _
  have := mem_nonWildcardIngredients_perm r1 r2 hperm name
  simp only [this]

/-- Claim C28.  Let no item have the empty name and let no literal input of the recipe
be required 0 times.  The greedy binding of `checkRecipeMatch` for an abstract recipe
succeeds iff every literal input name occurs among the items exactly its required number
of times and the wildcard keys can be assigned injectively to ingredient names that
occur among the items, are no literal inputs, and occur exactly as often as the wildcard
requires.  It succeeds iff the literal counts are right and, for every count `c`, the
wildcards requiring `c` are at most as many as the non-literal names occurring `c`
times.  So no match is missed for want of backtracking, and a recipe with the same
inputs declared in another order succeeds on exactly the same item lists. -/
theorem abstractMatch_complete (items : List Item) (recipe : Recipe)
    (hnames : ∀ i ∈ items, i.name ≠ "")
    (hlit : ∀ name ∈ nonWildcardIngredients recipe, objGet recipe.input name ≠ some 0) :
    ((abstractMatch (toolIngredientsOf items) recipe).isSome = true ↔
      (∀ name ∈ nonWildcardIngredients recipe,
        objGet recipe.input name =
          some (((items.map (fun i => i.name)).count name : Nat) : Int)) ∧
      ∃ f : String → String,
        (∀ key ∈ wildcardIngredients recipe,
          f key ∈ items.map (fun i => i.name) ∧ f key ∉ nonWildcardIngredients recipe ∧
          objGet recipe.input key =
            some (((items.map (fun i => i.name)).count (f key) : Nat) : Int)) ∧
        (∀ k1 ∈ wildcardIngredients recipe, ∀ k2 ∈ wildcardIngredients recipe,
          f k1 = f k2 → k1 = k2)) ∧
    ((abstractMatch (toolIngredientsOf items) recipe).isSome = true ↔
      (∀ name ∈ nonWildcardIngredients recipe,
        objGet recipe.input name =
          some (((items.map (fun i => i.name)).count name : Nat) : Int)) ∧
      ∀ c : Int, specWildcardsRequiring recipe c ≤ specCandidates items recipe c) ∧
    (∀ reordered : Recipe, (objKeys reordered.input).Perm (objKeys recipe.input) →
      (∀ key ∈ objKeys recipe.input, objGet reordered.input key = objGet recipe.input key) →
      (abstractMatch (toolIngredientsOf items) reordered).isSome =
        (abstractMatch (toolIngredientsOf items) recipe).isSome) := by
  have hcount := abstractMatch_iff_count items recipe hnames hlit
  refine ⟨?_, hcount, ?_⟩
  · constructor
    · intro h
      exact abstractMatch_to_assignment items recipe (Option.isSome_iff_exists.mp h)
    · rintro ⟨h1, f, hf, hinj⟩
      exact hcount.mpr ⟨h1, assignment_to_count items recipe f hf hinj⟩
  · intro reordered hperm hkeys
    have hget : ∀ key, objGet reordered.input key = objGet recipe.input key := by
      intro key
      by_cases hk : key ∈ objKeys recipe.input
      · exact hkeys key hk
      · have hk' : key ∉ objKeys reordered.input := fun h => hk (hperm.mem_iff.mp h)
        rw [mem_objKeys, not_exists] at hk hk'
        rw [Option.eq_none_iff_forall_not_mem.mpr (fun v hv => hk v hv),
          Option.eq_none_iff_forall_not_mem.mpr (fun v hv => hk' v hv)]
    have hlit' : ∀ name ∈ nonWildcardIngredients reordered,
        objGet reordered.input name ≠ some 0 := by
      intro name hname
      rw [hget]
      exact hlit name ((mem_nonWildcardIngredients_perm _ _ hperm name).mp hname)
    have hcount' := abstractMatch_iff_count items reordered hnames hlit'
    have hiff : (abstractMatch (toolIngredientsOf items) reordered).isSome = true ↔
        (abstractMatch (toolIngredientsOf items) recipe).isSome = true := by
      rw [hcount, hcount']
      constructor
      · rintro ⟨h1, h2⟩
        refine ⟨?_, ?_⟩
        · intro name hname
          rw [← hget]
          exact h1 name ((mem_nonWildcardIngredients_perm _ _ hperm name).mpr hname)
        · intro c
          rw [← specWildcardsRequiring_perm reordered recipe hperm hget c,
            ← specCandidates_perm items reordered recipe hperm c]
          exact h2 c
      · rintro ⟨h1, h2⟩
        refine ⟨?_, ?_⟩
        · intro name hname
          rw [hget]
          exact h1 name ((mem_nonWildcardIngredients_perm _ _ hperm name).mp hname)
        · intro c
          rw [specWildcardsRequiring_perm reordered recipe hperm hget c,
            specCandidates_perm items reordered recipe hperm c]
          exact h2 c
    cases h1 : (abstractMatch (toolIngredientsOf items) reordered).isSome <;>
      cases h2 : (abstractMatch (toolIngredientsOf items) recipe).isSome <;>
      simp_all

theorem abstractMatch_complete_witness :
    abstractMatch (toolIngredientsOf stewItems) stewRecipe =
      some [("\x7ba\x7d", "beef"), ("\x7bb\x7d", "carrot")] ∧
    ((∀ name ∈ nonWildcardIngredients stewRecipe,
        objGet stewRecipe.input name =
          some (((stewItems.map (fun i => i.name)).count name : Nat) : Int)) ∧
      ∃ f : String → String,
        (∀ key ∈ wildcardIngredients stewRecipe,
          f key ∈ stewItems.map (fun i => i.name) ∧ f key ∉ nonWildcardIngredients stewRecipe ∧
          objGet stewRecipe.input key =
            some (((stewItems.map (fun i => i.name)).count (f key) : Nat) : Int)) ∧
        (∀ k1 ∈ wildcardIngredients stewRecipe, ∀ k2 ∈ wildcardIngredients stewRecipe,
          f k1 = f k2 → k1 = k2)) ∧
    (abstractMatch (toolIngredientsOf stewItems) stewRecipeReversed).isSome =
      (abstractMatch (toolIngredientsOf stewItems) stewRecipe).isSome ∧
    abstractMatch (toolIngredientsOf stewItems) stewRecipeReversed =
      some [("\x7bb\x7d", "carrot"), ("\x7ba\x7d", "beef")] :=
  ⟨by decide,
   (abstractMatch_complete stewItems stewRecipe (by decide) (by decide)).1.mp (by decide),
   (abstractMatch_complete stewItems stewRecipe (by decide) (by decide)).2.2
      stewRecipeReversed (by decide) (by decide),
   by decide⟩

end TimelyRecipe
